import Mathlib

/-! # vnw-helpers: the ad-hoc timestamp normaliser

A shallow embedding of `stringToPgTimestamp` (`pgxhelpers.go`), of the string
case of `funcvx.NotNull` (`funcvx/funcvx.go`), and of the Go standard-library
functions they call (`strings.ReplaceAll`, `strings.Split`, `strings.Contains`,
`strings.TrimSpace`, `time.Parse` at the one layout the code uses); then of the
other converters of `pgxhelpers.go` and `pgxreverts.go` (text, integers,
booleans, numerics, dates) and of `strconvx.ConvertToSlice` at the element type
`string`, with `time.Parse` at the date layouts, `strconv.Quote` on ASCII and
`json.Unmarshal` on arrays of strings; and of `stringToPgTimestamptz`, the
second copy of the normaliser.

A Go string is a sequence of bytes; `len`, indexing and slicing count bytes.
It is modelled as a list of natural numbers, one per byte (a byte is a number
below 256; no function here ever produces another value from bytes).
A run-time panic (index out of range, slice bounds out of range) is modelled
as `none`.
-/

/-- A Go `string`: its bytes in order. -/
abbrev GoString := List Nat

/-- The bytes of a string literal (its UTF-8 encoding, as the Go compiler stores it). -/
def utf8 (s : String) : GoString :=
  s.toList.flatMap fun c => (String.utf8EncodeChar c).map UInt8.toNat

/-! ## `strings` (standard library) -/

namespace strings

/-- Library function `strings.ReplaceAll(s, old, new)` for one-byte `old` and `new`
(the call site passes `"/"` and `"-"`). -/
def ReplaceAll (s : GoString) (old new : Nat) : GoString :=
  s.map fun c => if c = old then new else c

/-- Library function `strings.Split(s, sep)` for a one-byte separator (the call sites pass
`" "`, `"-"` and `"."`): the substrings between the separators; a string
without separator, the empty string included, gives one component. -/
def Split : GoString → Nat → List GoString
  | [], _ => [[]]
  | c :: s, sep =>
    if c = sep then [] :: Split s sep
    else
      match Split s sep with
      | [] => [[c]]
      | p :: ps => (c :: p) :: ps

/-- Library function `strings.Contains(s, substr)` for a one-byte `substr`. -/
def Contains (s : GoString) (b : Nat) : Bool :=
  s.contains b

/-- The six ASCII white-space bytes of `unicode.IsSpace`:
`\t`, `\n`, `\v`, `\f`, `\r` and the space. -/
def asciiSpace (c : Nat) : Bool :=
  c = 9 || c = 10 || c = 11 || c = 12 || c = 13 || c = 32

/-- The two-byte UTF-8 encodings of white space: U+0085 (NEL) and U+00A0 (NBSP). -/
def space2 (a b : Nat) : Bool :=
  a = 0xC2 && (b = 0x85 || b = 0xA0)

/-- The three-byte UTF-8 encodings of white space: U+1680, U+2000 to U+200A,
U+2028, U+2029, U+202F, U+205F and U+3000. -/
def space3 (a b c : Nat) : Bool :=
  (a = 0xE1 && b = 0x9A && c = 0x80) ||
  (a = 0xE2 && b = 0x80 && ((0x80 ≤ c && c ≤ 0x8A) || c = 0xA8 || c = 0xA9 || c = 0xAF)) ||
  (a = 0xE2 && b = 0x81 && c = 0x9F) ||
  (a = 0xE3 && b = 0x80 && c = 0x80)

/-- Library function `strings.TrimLeftFunc(s, unicode.IsSpace)`: drops the leading runes that
are white space. A rune decodes to white space exactly when the bytes at that
position are the UTF-8 encoding of a white-space code point. -/
def trimLeftSpace : GoString → GoString
  | [] => []
  | a :: s =>
    if asciiSpace a then trimLeftSpace s
    else
      match s with
      | [] => [a]
      | b :: s2 =>
        if space2 a b then trimLeftSpace s2
        else
          match s2 with
          | [] => [a, b]
          | c :: s3 => if space3 a b c then trimLeftSpace s3 else a :: b :: c :: s3

/-- The trailing white-space runes dropped, on the reversed string: decoding
the last rune finds white space exactly when the string ends with the
encoding of a white-space code point. -/
def trimLeftSpaceRev : GoString → GoString
  | [] => []
  | a :: s =>
    if asciiSpace a then trimLeftSpaceRev s
    else
      match s with
      | [] => [a]
      | b :: s2 =>
        if space2 b a then trimLeftSpaceRev s2
        else
          match s2 with
          | [] => [a, b]
          | c :: s3 => if space3 c b a then trimLeftSpaceRev s3 else a :: b :: c :: s3

/-- Library function `strings.TrimSpace(s)`: `s` without its leading and trailing white space,
as defined by Unicode. -/
def TrimSpace (s : GoString) : GoString :=
  (trimLeftSpaceRev (trimLeftSpace s).reverse).reverse

end strings

/-! ## `time` (standard library) -/

/-- A `time.Time` in UTC, by its calendar and clock fields. `time.Parse` builds
only times whose fields are in range, where the fields determine the instant. -/
structure Time where
  year : Nat
  month : Nat
  day : Nat
  hour : Nat
  min : Nat
  sec : Nat
  nsec : Nat
  deriving DecidableEq, Repr

namespace time

/-- The zero value `time.Time{}`: January 1, year 1, 00:00:00.000000000 UTC. -/
def zero : Time := ⟨1, 1, 1, 0, 0, 0, 0⟩

/-- Library function `time.Date(year, month, day, hour, min, sec, nsec, time.UTC)`. `Date`
normalises fields that are out of range; `Parse` calls it with every field in
range, where it changes nothing. -/
def Date (year month day hour min sec nsec : Nat) : Time :=
  ⟨year, month, day, hour, min, sec, nsec⟩

/-- Library function `isLeap(year)`. -/
def isLeap (year : Nat) : Bool :=
  year % 4 = 0 && (year % 100 ≠ 0 || year % 400 = 0)

/-- Library function `daysIn(m, year)`: the number of days of month `m` in `year`. -/
def daysIn (m year : Nat) : Nat :=
  if m = 2 then (if isLeap year then 29 else 28)
  else if m = 4 ∨ m = 6 ∨ m = 9 ∨ m = 11 then 30
  else 31

/-- Library function `isDigit(s, i)`: whether `s[i]` is in bounds and a decimal digit. -/
def isDigit (s : GoString) (i : Nat) : Bool :=
  match s.get? i with
  | none => false
  | some c => 48 ≤ c && c ≤ 57

/-- Library function `getnum(s, fixed)`: parses `s[0:1]` or `s[0:2]` (`fixed` forces two
digits) as a decimal number; returns it with the rest of the string. -/
def getnum (s : GoString) (fixed : Bool) : Option (Nat × GoString) :=
  if !isDigit s 0 then none
  else if !isDigit s 1 then
    if fixed then none
    else some (s.headD 0 - 48, s.drop 1)
  else some ((s.headD 0 - 48) * 10 + (s.getD 1 0 - 48), s.drop 2)

/-- Library function `cutspace(s)`: `s` without its leading spaces. -/
def cutspace : GoString → GoString
  | [] => []
  | c :: s => if c = 32 then cutspace s else c :: s

/-- Library function `skip(value, prefix)` for a one-byte `prefix` (the layout's literal texts
are `"-"`, `" "` and `":"`): removes it from the front of `value`; a space of
the layout stands for any run of spaces, the empty run at the end of `value`
included. -/
def skip (value : GoString) (p : Nat) : Option GoString :=
  if p = 32 then
    match value with
    | [] => some []
    | v :: vs => if v ≠ 32 then none else some (cutspace (v :: vs))
  else
    match value with
    | [] => none
    | v :: vs => if v ≠ p then none else some vs

/-- Library function `leadingInt(s)`: the value of the leading decimal digits of `s`, added to
the digits already read (`x`), and the rest of `s`; `none` on overflow. -/
def leadingInt (x : Nat) : GoString → Option (Nat × GoString)
  | [] => some (x, [])
  | c :: s =>
    if c < 48 ∨ c > 57 then some (x, c :: s)
    else if x > 2 ^ 63 / 10 then none
    else if x * 10 + c - 48 > 2 ^ 63 then none
    else leadingInt (x * 10 + c - 48) s

/-- The conversion `int(q)` of a `uint64` to a 64-bit `int`. -/
def toInt64 (z : Int) : Int :=
  (z + 2 ^ 63) % 2 ^ 64 - 2 ^ 63

/-- Library function `atoi(s)`: an optional sign and then decimal digits to the end of `s`. -/
def atoi (s : GoString) : Option Int :=
  let neg : Bool := s.head? = some 45
  let s1 := if s.head? = some 45 ∨ s.head? = some 43 then s.drop 1 else s
  match leadingInt 0 s1 with
  | some (q, []) => some (if neg then toInt64 (-(toInt64 q)) else toInt64 q)
  | _ => none

/-- Library function `commaOrPeriod(b)`. -/
def commaOrPeriod (b : Nat) : Bool :=
  b = 46 || b = 44

/-- Library function `parseNanoseconds(value, nbytes)` for `nbytes ≤ 10`, called with
`nbytes ≤ len(value)`: the separator and the `nbytes - 1` bytes after it, read
as a number and scaled to nanoseconds. A negative number is the range error
"fractional second". -/
def parseNanoseconds (value : GoString) (nbytes : Nat) : Option Nat :=
  if !commaOrPeriod (value.headD 0) then none
  else
    match atoi ((value.take nbytes).drop 1) with
    | none => none
    | some ns => if ns < 0 then none else some (ns.toNat * 10 ^ (10 - nbytes))

/-- The date chunks of `time.Parse` at the layout `"2006-01-02 15:04:05.000000"`:
`2006` (four digits), `-`, `01` (two digits, range error outside 1..12), `-`,
`02` (two digits, validated at the end). Returns year, month, day and the
rest of the value. -/
def parseDateChunks (value : GoString) : Option (Nat × Nat × Nat × GoString) :=
  -- stdLongYear
  if value.length < 4 ∨ !isDigit value 0 then none
  else
    match atoi (value.take 4) with
    | none => none
    | some year =>
      match skip (value.drop 4) 45 with
      | none => none
      | some value =>
        -- stdZeroMonth
        match getnum value true with
        | none => none
        | some (month, value) =>
          if month ≤ 0 ∨ 12 < month then none
          else
            match skip value 45 with
            | none => none
            | some value =>
              -- stdZeroDay
              match getnum value true with
              | none => none
              | some (day, value) => some (year.toNat, month, day, value)

/-- The clock chunks of `time.Parse` at the layout `"2006-01-02 15:04:05.000000"`:
a space, `15` (one or two digits, below 24), `:`, `04` (two digits, below 60),
`:`, `05` (two digits, below 60), `.000000` (a separator and exactly six more
bytes read by `parseNanoseconds`), and then the end of the value ("extra
text" otherwise). Returns hour, minute, second and nanoseconds. -/
def parseClockChunks (value : GoString) : Option (Nat × Nat × Nat × Nat) :=
  match skip value 32 with
  | none => none
  | some value =>
    -- stdHour
    match getnum value false with
    | none => none
    | some (hour, value) =>
      if 24 ≤ hour then none
      else
        match skip value 58 with
        | none => none
        | some value =>
          -- stdZeroMinute
          match getnum value true with
          | none => none
          | some (min, value) =>
            if 60 ≤ min then none
            else
              match skip value 58 with
              | none => none
              | some value =>
                -- stdZeroSecond
                match getnum value true with
                | none => none
                | some (sec, value) =>
                  if 60 ≤ sec then none
                  else
                    -- stdFracSecond0, six digits
                    if value.length < 7 then none
                    else
                      match parseNanoseconds value 7 with
                      | none => none
                      | some nsec =>
                        if (value.drop 7).length ≠ 0 then none
                        else some (hour, min, sec, nsec)

/-- Library function `time.Parse("2006-01-02 15:04:05.000000", value)`: the parsed time in UTC,
or `none` for every error. After the chunks the day of the month is validated
against the month and year. -/
def Parse (value : GoString) : Option Time :=
  match parseDateChunks value with
  | none => none
  | some (year, month, day, value) =>
    match parseClockChunks value with
    | none => none
    | some (hour, min, sec, nsec) =>
      if day < 1 ∨ day > daysIn month year then none
      else some (Date year month day hour min sec nsec)

end time

/-! ## `funcvx.NotNull` -/

namespace funcvx

/-- The `case string` branch of `NotNull(input any)` (`funcvx/funcvx.go`, line 14):
`v != "null" && v != "NULL" && strings.TrimSpace(v) != "" && v != "nil"`. -/
def NotNull (v : GoString) : Bool :=
  v ≠ utf8 "null" && v ≠ utf8 "NULL" && strings.TrimSpace v ≠ utf8 "" && v ≠ utf8 "nil"

end funcvx

/-! ## `pgtype` (the nullable wrappers of the SQL driver) -/

namespace pgtype

/-- The struct `pgtype.Timestamp`: `Time`, `InfinityModifier` (0 is `Finite`)
and `Valid`. -/
structure Timestamp where
  Time : Time
  InfinityModifier : Int
  Valid : Bool
  deriving DecidableEq, Repr

/-- The zero value `pgtype.Timestamp{}`. -/
def Timestamp.zero : Timestamp := ⟨time.zero, 0, false⟩

end pgtype

/-! ## `pgxhelpers.go` -/

/-- A value of the interface type `any`, by its dynamic type: the three types
the timestamp setter switches on, and every other type. -/
inductive GoAny where
  | time (val : Time)
  | timePtr (val : Option Time)
  | str (val : GoString)
  | other

/-- The slice expression `s[:n]`; it panics when `n` exceeds `len(s)`. -/
def sliceTo (s : GoString) (n : Nat) : Option GoString :=
  if n ≤ s.length then some (s.take n) else none

/-- The loop `for len(tp[1]) < 6 { tp[1] += "0" }` (lines 266-268), on the
value of `tp[1]`. -/
@[semireducible]
def padLoop (s : GoString) : GoString :=
  if s.length < 6 then padLoop (s ++ utf8 "0") else s
termination_by 6 - s.length
decreasing_by
  have h : (utf8 "0").length = 1 := by decide
  simp only [List.length_append, h]
  omega

/-- Lines 260-270 of `stringToPgTimestamp`: the time part with its fraction
brought to six bytes. -/
def fractionPart (timePart : GoString) : Option GoString :=
  if !strings.Contains timePart 46 then
    some (timePart ++ utf8 ".000000")
  else do
    let tp := strings.Split timePart 46
    let tp1 ← tp[1]?
    let tp1 := padLoop tp1
    let tp0 ← tp[0]?
    let cut ← sliceTo tp1 6
    some (tp0 ++ utf8 "." ++ cut)

/-- One iteration of the zero-padding loop (lines 249-253):
`if len(dayParts[i]) == 1 { dayParts[i] = "0" + dayParts[i] }`. -/
def zeroPad (dayParts : List GoString) (i : Nat) : Option (List GoString) := do
  let d ← dayParts[i]?
  if d.length = 1 then some (dayParts.set i (utf8 "0" ++ d)) else some dayParts

/-- Lines 235-272 of `stringToPgTimestamp`: the string `final` handed to
`time.Parse`, or `some none` for the early return of line 246 (the date part
does not have three components). -/
def finalString (input : GoString) : Option (Option GoString) := do
  let input := strings.ReplaceAll input 47 45
  let parts := strings.Split input 32
  let parts := if parts.length < 2 then parts ++ [utf8 "00:00:00.000000"] else parts
  let p0 ← parts[0]?
  let dayParts := strings.Split p0 45
  if dayParts.length ≠ 3 then
    some none
  else do
    let dayParts ← zeroPad dayParts 0
    let dayParts ← zeroPad dayParts 1
    let d2 ← dayParts[2]?
    let dayParts := if d2.length = 2 then dayParts.set 2 (utf8 "20" ++ d2) else dayParts
    let y ← dayParts[2]?
    let m ← dayParts[1]?
    let d ← dayParts[0]?
    let date := y ++ utf8 "-" ++ m ++ utf8 "-" ++ d
    let timePart ← parts[1]?
    let timePart ← fractionPart timePart
    some (some (date ++ utf8 " " ++ timePart))

/-- The function `stringToPgTimestamp(input string) pgtype.Timestamp`
(lines 227-281). -/
def stringToPgTimestamp (input : GoString) : Option pgtype.Timestamp :=
  if !funcvx.NotNull input then
    some ⟨time.zero, 0, false⟩
  else
    match finalString input with
    | none => none
    | some none => some pgtype.Timestamp.zero
    | some (some final) =>
      match time.Parse final with
      | none => some pgtype.Timestamp.zero
      | some t => some ⟨t, 0, true⟩

/-- The function `SetTimestampField(v any) pgtype.Timestamp` (lines 172-184). -/
def SetTimestampField (v : GoAny) : Option pgtype.Timestamp :=
  match v with
  | GoAny.time val => some ⟨val, 0, true⟩
  | GoAny.timePtr (some val) => some ⟨val, 0, true⟩
  | GoAny.timePtr none => some ⟨time.zero, 0, false⟩
  | GoAny.str val => stringToPgTimestamp val
  | GoAny.other => some ⟨time.zero, 0, false⟩

/-! ## The words of the specification -/

/-- A string that consists only of white space: a sequence of UTF-8 encoded
white-space code points. -/
inductive WhiteSpace : GoString → Prop where
  | nil : WhiteSpace []
  | one (a : Nat) (s : GoString) : strings.asciiSpace a = true → WhiteSpace s →
      WhiteSpace (a :: s)
  | two (a b : Nat) (s : GoString) : strings.space2 a b = true → WhiteSpace s →
      WhiteSpace (a :: b :: s)
  | three (a b c : Nat) (s : GoString) : strings.space3 a b c = true → WhiteSpace s →
      WhiteSpace (a :: b :: c :: s)

/-- Null-ish input: empty, white space only, or one of the literal tokens
`"null"`, `"NULL"`, `"nil"`. -/
def Nullish (s : GoString) : Prop :=
  s = utf8 "" ∨ WhiteSpace s ∨ s = utf8 "null" ∨ s = utf8 "NULL" ∨ s = utf8 "nil"

/-- The date part of an input: the text before the first space, every `/`
replaced by `-`. -/
def datePart (input : GoString) : GoString :=
  (strings.ReplaceAll input 47 45).takeWhile fun c => c ≠ 32

/-- The time part of an input: the text between the first and the second
space, or `"00:00:00.000000"` when the input has no space. -/
def timePart (input : GoString) : GoString :=
  match (strings.ReplaceAll input 47 45).dropWhile fun c => c ≠ 32 with
  | [] => utf8 "00:00:00.000000"
  | _ :: rest => rest.takeWhile fun c => c ≠ 32

/-- A day or month component, zero-padded when it is a single byte. -/
def zeroPadded (d : GoString) : GoString :=
  if d.length = 1 then utf8 "0" ++ d else d

/-- A year component, prefixed with `"20"` when it is two bytes long. -/
def yearExpanded (y : GoString) : GoString :=
  if y.length = 2 then utf8 "20" ++ y else y

/-- The fraction of a time part brought to six bytes: `".000000"` appended when
there is no `.`; otherwise the text between the first and the second `.` (or
the end), right-padded with `0` to six bytes and cut to its first six. -/
def sixFraction (t : GoString) : GoString :=
  if 46 ∈ t then
    let whole := t.takeWhile fun c => c ≠ 46
    let frac := ((t.dropWhile fun c => c ≠ 46).drop 1).takeWhile fun c => c ≠ 46
    whole ++ utf8 "." ++ (frac ++ List.replicate (6 - frac.length) 48).take 6
  else t ++ utf8 ".000000"

/-- The canonical string built from the three date components `a`, `b`, `c`
(in input order) and the time part `t`: third-second-first, then a space and
the time part with its six-byte fraction. -/
def canonical (a b c t : GoString) : GoString :=
  yearExpanded c ++ utf8 "-" ++ zeroPadded b ++ utf8 "-" ++ zeroPadded a ++ utf8 " " ++
    sixFraction t

/-- The two decimal digits of a number below 100. -/
def digits2 (n : Nat) : GoString :=
  [48 + n / 10, 48 + n % 10]

/-- The four decimal digits of a number below 10000. -/
def digits4 (n : Nat) : GoString :=
  [48 + n / 1000, 48 + n / 100 % 10, 48 + n / 10 % 10, 48 + n % 10]

/-- The six decimal digits of a number below 1000000. -/
def digits6 (n : Nat) : GoString :=
  [48 + n / 100000, 48 + n / 10000 % 10, 48 + n / 1000 % 10, 48 + n / 100 % 10,
    48 + n / 10 % 10, 48 + n % 10]

/-- The ways to write a day or month number with one or two digits: a number
below 10 as one digit or with a leading zero, a larger one as two digits. -/
def oneOrTwoDigits (n : Nat) : List GoString :=
  if n < 10 then [[48 + n], digits2 n] else [digits2 n]

/-- A date of the calendar: a month from 1 to 12 and a day from 1 to the
number of days of that month in that year. -/
def validDate (year month day : Nat) : Prop :=
  1 ≤ month ∧ month ≤ 12 ∧ 1 ≤ day ∧ day ≤ time.daysIn month year

instance (year month day : Nat) : Decidable (validDate year month day) := by
  unfold validDate
  infer_instance

/-- The number a two-digit string denotes; `none` for any other string. -/
def numeral2 (s : GoString) : Option Nat :=
  match s with
  | [x, y] =>
    if 48 ≤ x ∧ x ≤ 57 ∧ 48 ≤ y ∧ y ≤ 57 then some ((x - 48) * 10 + (y - 48)) else none
  | _ => none

/-- The number a four-digit string denotes; `none` for any other string. -/
def numeral4 (s : GoString) : Option Nat :=
  match s with
  | [w, x, y, z] =>
    if 48 ≤ w ∧ w ≤ 57 ∧ 48 ≤ x ∧ x ≤ 57 ∧ 48 ≤ y ∧ y ≤ 57 ∧ 48 ≤ z ∧ z ≤ 57 then
      some ((w - 48) * 1000 + (x - 48) * 100 + (y - 48) * 10 + (z - 48))
    else none
  | _ => none

/-- The month, the second date component `b` once zero-padded, is one of
`01` to `12`. -/
def monthInRange (b : GoString) : Bool :=
  match numeral2 (zeroPadded b) with
  | some m => decide (1 ≤ m ∧ m ≤ 12)
  | none => false

/-- The day, the first date component `a` once zero-padded, is a day of the
month `b` in the year `c` (the components after the reordering). -/
def dayInMonth (a b c : GoString) : Bool :=
  match numeral4 (yearExpanded c), numeral2 (zeroPadded b), numeral2 (zeroPadded a) with
  | some y, some m, some d => decide (1 ≤ d ∧ d ≤ time.daysIn m y)
  | _, _, _ => false

/-! ## `pgtype`: the other wrappers -/

/-- A Go `bool`. -/
abbrev GoBool := Bool

/-- A Go integer value (of an integer type or a `big.Int`). -/
abbrev GoInt := Int

/-- The struct `pgtype.Text`: `String` and `Valid`. -/
structure pgtype.Text where
  String : GoString
  Valid : GoBool
  deriving DecidableEq, Repr

set_option linter.dupNamespace false in
/-- The struct `pgtype.Bool`: `Bool` and `Valid`. -/
structure pgtype.Bool where
  Bool : GoBool
  Valid : GoBool
  deriving DecidableEq, Repr

/-- The struct `pgtype.Int2`: `Int16` and `Valid`. -/
structure pgtype.Int2 where
  Int16 : Int
  Valid : GoBool
  deriving DecidableEq, Repr

/-- The struct `pgtype.Int4`: `Int32` and `Valid`. -/
structure pgtype.Int4 where
  Int32 : Int
  Valid : GoBool
  deriving DecidableEq, Repr

/-- The struct `pgtype.Int8`: `Int64` and `Valid`. -/
structure pgtype.Int8 where
  Int64 : Int
  Valid : GoBool
  deriving DecidableEq, Repr

/-- The struct `pgtype.Date`: `Time`, `InfinityModifier` (0 is `Finite`) and
`Valid`. -/
structure pgtype.Date where
  Time : Time
  InfinityModifier : Int
  Valid : GoBool
  deriving DecidableEq, Repr

/-- The struct `pgtype.Numeric`: `Int` (a `*big.Int`, `none` for the nil
pointer), `Exp`, `NaN`, `InfinityModifier` (0 is `Finite`) and `Valid`. -/
structure pgtype.Numeric where
  Int : Option GoInt
  Exp : GoInt
  NaN : GoBool
  InfinityModifier : GoInt
  Valid : GoBool
  deriving DecidableEq, Repr

/-! ## `pgxhelpers.go` and `pgxreverts.go`: the other converters -/

/-- The argument of `SetTextField(v any)` by its dynamic type: `string`,
`[]byte`, a type with a `String()` method (given by what `String()` returns),
or any other type. -/
inductive TextArg where
  | string (val : GoString)
  | bytes (val : GoString)
  | stringer (s : GoString)
  | other

/-- The function `SetTextField(v any) pgtype.Text` (`pgxhelpers.go`, lines 19-43). -/
def SetTextField (v : TextArg) : pgtype.Text :=
  match v with
  | TextArg.string val => ⟨val, decide (val ≠ utf8 "")⟩
  | TextArg.bytes val => ⟨val, decide (val.length > 0)⟩
  | TextArg.stringer s => ⟨s, decide (s ≠ utf8 "")⟩
  | TextArg.other => ⟨utf8 "", false⟩

/-- The argument of `RevertPgText(v any)` by its dynamic type: `pgtype.Text`,
`*pgtype.Text` (`none` for the nil pointer), or any other type. -/
inductive RevertTextArg where
  | text (val : pgtype.Text)
  | textPtr (val : Option pgtype.Text)
  | other

/-- The function `RevertPgText(v any) string` (`pgxreverts.go`, lines 13-25). -/
def RevertPgText (v : RevertTextArg) : GoString :=
  match v with
  | RevertTextArg.text val => if val.Valid then val.String else utf8 ""
  | RevertTextArg.textPtr (some val) => if val.Valid then val.String else utf8 ""
  | RevertTextArg.textPtr none => utf8 ""
  | RevertTextArg.other => utf8 ""

/-- The conversion `int16(val)` of a 64-bit integer: the value wrapped to 16 bits. -/
def toInt16 (z : Int) : Int :=
  (z + 2 ^ 15) % 2 ^ 16 - 2 ^ 15

/-- The conversion `int32(val)` of a 64-bit integer: the value wrapped to 32 bits. -/
def toInt32 (z : Int) : Int :=
  (z + 2 ^ 31) % 2 ^ 32 - 2 ^ 31

/-- The type parameter `T` of `SetIntField`, `setIntToPG` and `RevertIntField`. -/
inductive IntTarget where
  | Int2
  | Int4
  | Int8
  deriving DecidableEq, Repr

/-- A value of the type `T`, one of `pgtype.Int2`, `pgtype.Int4`, `pgtype.Int8`. -/
inductive PgInt where
  | int2 (val : pgtype.Int2)
  | int4 (val : pgtype.Int4)
  | int8 (val : pgtype.Int8)
  deriving DecidableEq, Repr

/-- The zero value `var out T`. -/
def PgInt.zero (T : IntTarget) : PgInt :=
  match T with
  | IntTarget.Int2 => PgInt.int2 ⟨0, false⟩
  | IntTarget.Int4 => PgInt.int4 ⟨0, false⟩
  | IntTarget.Int8 => PgInt.int8 ⟨0, false⟩

/-- The function `setIntToPG[T](val int64) T` (`pgxhelpers.go`, lines 122-144). -/
def setIntToPG (T : IntTarget) (val : Int) : PgInt :=
  match T with
  | IntTarget.Int2 => PgInt.int2 ⟨toInt16 val, true⟩
  | IntTarget.Int4 => PgInt.int4 ⟨toInt32 val, true⟩
  | IntTarget.Int8 => PgInt.int8 ⟨val, true⟩

/-- The argument of `SetIntField(v any)` by its dynamic type: `int` (64 bits
wide), `int32`, `int64`, each with its value, or any other type. -/
inductive IntArg where
  | int (val : Int)
  | int32 (val : Int)
  | int64 (val : Int)
  | other

/-- The function `SetIntField[T](v any) T` (`pgxhelpers.go`, lines 99-114);
`int64(val)` keeps the value of an `int` or `int32`. -/
def SetIntField (T : IntTarget) (v : IntArg) : PgInt :=
  match v with
  | IntArg.int val => setIntToPG T val
  | IntArg.int32 val => setIntToPG T val
  | IntArg.int64 val => setIntToPG T val
  | IntArg.other => PgInt.zero T

/-- The function `RevertIntField[T](v T) int64` (`pgxreverts.go`, lines 105-121);
`int64(val.Int16)` and `int64(val.Int32)` keep the value. -/
def RevertIntField (v : PgInt) : Int :=
  match v with
  | PgInt.int2 val => if val.Valid then val.Int16 else 0
  | PgInt.int4 val => if val.Valid then val.Int32 else 0
  | PgInt.int8 val => if val.Valid then val.Int64 else 0

/-- The value of `T`'s integer field and its `Valid` flag. -/
def PgInt.held (v : PgInt) : Int × GoBool :=
  match v with
  | PgInt.int2 val => (val.Int16, val.Valid)
  | PgInt.int4 val => (val.Int32, val.Valid)
  | PgInt.int8 val => (val.Int64, val.Valid)

/-- The values the integer field of `T` can hold: 16, 32 or 64 bits, signed. -/
def IntTarget.fits (T : IntTarget) (v : Int) : Prop :=
  match T with
  | IntTarget.Int2 => -2 ^ 15 ≤ v ∧ v < 2 ^ 15
  | IntTarget.Int4 => -2 ^ 31 ≤ v ∧ v < 2 ^ 31
  | IntTarget.Int8 => -2 ^ 63 ≤ v ∧ v < 2 ^ 63

/-- The value `v` wrapped to the width of the integer field of `T`. -/
def IntTarget.wrap (T : IntTarget) (v : Int) : Int :=
  match T with
  | IntTarget.Int2 => toInt16 v
  | IntTarget.Int4 => toInt32 v
  | IntTarget.Int8 => v

/-- The argument of `SetBoolField(b any)` by its dynamic type: `bool`, `int`,
`int32`, `int64`, `float64` and `float32` (a float is given by whether it
differs from 0, all the function looks at), `string`, or any other type. -/
inductive BoolArg where
  | bool (res : GoBool)
  | int (res : Int)
  | int32 (res : Int)
  | int64 (res : Int)
  | float64 (nonzero : GoBool)
  | float32 (nonzero : GoBool)
  | string (res : GoString)
  | other

/-- The function `SetBoolField(b any) pgtype.Bool` (`pgxhelpers.go`, lines 456-499). -/
def SetBoolField (b : BoolArg) : pgtype.Bool :=
  match b with
  | BoolArg.bool res => ⟨res, true⟩
  | BoolArg.int res => ⟨decide (res ≠ 0), true⟩
  | BoolArg.int32 res => ⟨decide (res ≠ 0), true⟩
  | BoolArg.int64 res => ⟨decide (res ≠ 0), true⟩
  | BoolArg.float64 nonzero => ⟨nonzero, true⟩
  | BoolArg.float32 nonzero => ⟨nonzero, true⟩
  | BoolArg.string res => ⟨decide (res ≠ utf8 "0"), true⟩
  | BoolArg.other => ⟨false, false⟩

/-- The types the doc comment of `SetBoolField` names as converted: `bool`,
`int`, `int32`, `int64` and `float64`. -/
def BoolArg.documented (b : BoolArg) : GoBool :=
  match b with
  | BoolArg.bool _ => true
  | BoolArg.int _ => true
  | BoolArg.int32 _ => true
  | BoolArg.int64 _ => true
  | BoolArg.float64 _ => true
  | _ => false

/-- The function `PgBool(s string) pgtype.Bool` (`pgxhelpers.go`, lines 286-313). -/
def PgBool (s : GoString) : pgtype.Bool :=
  if s = utf8 "1" ∨ s = utf8 "true" ∨ s = utf8 "t" ∨ s = utf8 "T" then
    ⟨true, true⟩
  else if s = utf8 "0" ∨ s = utf8 "false" ∨ s = utf8 "f" ∨ s = utf8 "F" then
    ⟨false, true⟩
  else if s = utf8 "null" ∨ s = utf8 "" ∨ s = utf8 " " ∨ s = utf8 "  " then
    ⟨false, false⟩
  else
    ⟨false, true⟩

/-! ## The words of the specification: the split and the shape -/

/-- The time part as C12 words it: the entire remainder after the first space
(every `/` replaced by `-`), or `"00:00:00.000000"` when the input has no
space. -/
def remainderAfterFirstSpace (input : GoString) : GoString :=
  match (strings.ReplaceAll input 47 45).dropWhile fun c => c ≠ 32 with
  | [] => utf8 "00:00:00.000000"
  | _ :: rest => rest

/-- Six bytes that `time.Parse` reads as a fraction: six digits, or a sign
(`+` or `-`) and five digits. -/
def SixDigitsOrSigned (f : GoString) : Prop :=
  f.length = 6 ∧
    ((∀ c ∈ f, 48 ≤ c ∧ c ≤ 57) ∨
      ∃ sg rest, f = sg :: rest ∧ (sg = 43 ∨ sg = 45) ∧ ∀ c ∈ rest, 48 ≤ c ∧ c ≤ 57)

/-- The shape `YYYY-MM-DD HH:MM:SS.ffffff` of C11: four digits, `-`, two
digits, `-`, two digits, one space, two digits, `:`, two digits, `:`, two
digits, `.`, six digits. -/
def LayoutShape (s : GoString) : Prop :=
  ∃ Y M D h mi sec f, Y < 10000 ∧ M < 100 ∧ D < 100 ∧ h < 100 ∧ mi < 100 ∧ sec < 100 ∧
    f < 1000000 ∧
    s = digits4 Y ++ 45 :: (digits2 M ++ 45 :: (digits2 D ++ 32 :: (digits2 h ++
      58 :: (digits2 mi ++ 58 :: (digits2 sec ++ 46 :: digits6 f)))))

/-! ## `time.Parse` at the layouts of `stringToPgDate` -/

namespace time

/-- One piece of a layout as `nextStdChunk` cuts it: a literal byte of the
layout, or one of the standard chunks `2006`, `01`, `1`, `02`, `2`, `15`, `04`,
`05`. The layouts of `stringToPgDate` consist of these pieces, each with a
year, a month and a day chunk and none with a fractional-second chunk. -/
inductive Chunk where
  | lit (b : Nat)
  | stdLongYear
  | stdZeroMonth
  | stdNumMonth
  | stdZeroDay
  | stdDay
  | stdHour
  | stdZeroMinute
  | stdZeroSecond
  deriving DecidableEq, Repr

/-- The fields `parse` collects while it walks the layout. -/
structure Fields where
  year : Nat
  month : Nat
  day : Nat
  hour : Nat
  min : Nat
  sec : Nat
  nsec : Nat
  deriving DecidableEq, Repr

/-- The loop of `parse(layout, value, ...)`: each chunk of the layout consumes
its part of the value; at the end of the layout the value must be used up
("extra text" otherwise). After a seconds chunk, a separator and digits in the
value are read as a fraction although the layout has none. -/
def parseChunks : List Chunk → GoString → Fields → Option Fields
  | [], value, f => if value.length ≠ 0 then none else some f
  | Chunk.lit b :: layout, value, f =>
    match skip value b with
    | none => none
    | some value => parseChunks layout value f
  | Chunk.stdLongYear :: layout, value, f =>
    if value.length < 4 ∨ !isDigit value 0 then none
    else
      match atoi (value.take 4) with
      | none => none
      | some year => parseChunks layout (value.drop 4) { f with year := year.toNat }
  | Chunk.stdZeroMonth :: layout, value, f =>
    match getnum value true with
    | none => none
    | some (month, value) =>
      if month ≤ 0 ∨ 12 < month then none
      else parseChunks layout value { f with month := month }
  | Chunk.stdNumMonth :: layout, value, f =>
    match getnum value false with
    | none => none
    | some (month, value) =>
      if month ≤ 0 ∨ 12 < month then none
      else parseChunks layout value { f with month := month }
  | Chunk.stdZeroDay :: layout, value, f =>
    match getnum value true with
    | none => none
    | some (day, value) => parseChunks layout value { f with day := day }
  | Chunk.stdDay :: layout, value, f =>
    match getnum value false with
    | none => none
    | some (day, value) => parseChunks layout value { f with day := day }
  | Chunk.stdHour :: layout, value, f =>
    match getnum value false with
    | none => none
    | some (hour, value) =>
      if 24 ≤ hour then none
      else parseChunks layout value { f with hour := hour }
  | Chunk.stdZeroMinute :: layout, value, f =>
    match getnum value true with
    | none => none
    | some (min, value) =>
      if 60 ≤ min then none
      else parseChunks layout value { f with min := min }
  | Chunk.stdZeroSecond :: layout, value, f =>
    match getnum value true with
    | none => none
    | some (sec, value) =>
      if 60 ≤ sec then none
      else if value.length ≥ 2 ∧ commaOrPeriod (value.headD 0) ∧ isDigit value 1 then
        -- a fractional second in the value but none in the layout
        let n := 2 + ((value.drop 2).takeWhile fun c => 48 ≤ c && c ≤ 57).length
        match parseNanoseconds value (min n 10) with
        | none => none
        | some nsec => parseChunks layout (value.drop n) { f with sec := sec, nsec := nsec }
      else parseChunks layout value { f with sec := sec }

/-- Library function `time.Parse(layout, value)` for a layout given by its
chunks: the parsed time in UTC, or `none` for every error. After the chunks
the day of the month is validated against the month and year. -/
def ParseLayout (layout : List Chunk) (value : GoString) : Option Time :=
  match parseChunks layout value ⟨0, 0, 0, 0, 0, 0, 0⟩ with
  | none => none
  | some f =>
    if f.day < 1 ∨ f.day > daysIn f.month f.year then none
    else some (Date f.year f.month f.day f.hour f.min f.sec f.nsec)

/-- The layout `"2006-01-02"`. -/
def layoutISODate : List Chunk :=
  [Chunk.stdLongYear, Chunk.lit 45, Chunk.stdZeroMonth, Chunk.lit 45, Chunk.stdZeroDay]

/-- The layout `"2/1/2006"`: day, month, year. -/
def layoutDMY : List Chunk :=
  [Chunk.stdDay, Chunk.lit 47, Chunk.stdNumMonth, Chunk.lit 47, Chunk.stdLongYear]

/-- The layout `"2/1/2006 15:04:05"`. -/
def layoutDMYClock : List Chunk :=
  [Chunk.stdDay, Chunk.lit 47, Chunk.stdNumMonth, Chunk.lit 47, Chunk.stdLongYear,
    Chunk.lit 32, Chunk.stdHour, Chunk.lit 58, Chunk.stdZeroMinute, Chunk.lit 58,
    Chunk.stdZeroSecond]

/-- The layout `"01/02/2006"`: month, day, year. -/
def layoutMDY : List Chunk :=
  [Chunk.stdZeroMonth, Chunk.lit 47, Chunk.stdZeroDay, Chunk.lit 47, Chunk.stdLongYear]

/-- The layout `"2006-01-02 15:04:05"`. -/
def layoutISOClock : List Chunk :=
  [Chunk.stdLongYear, Chunk.lit 45, Chunk.stdZeroMonth, Chunk.lit 45, Chunk.stdZeroDay,
    Chunk.lit 32, Chunk.stdHour, Chunk.lit 58, Chunk.stdZeroMinute, Chunk.lit 58,
    Chunk.stdZeroSecond]

/-- The layout `"2006/01/02"`. -/
def layoutYMDSlash : List Chunk :=
  [Chunk.stdLongYear, Chunk.lit 47, Chunk.stdZeroMonth, Chunk.lit 47, Chunk.stdZeroDay]

end time

/-! ## `pgxhelpers.go`: the date setter -/

/-- The slice `formats` of `stringToPgDate` (lines 199-206), in its order. -/
def dateFormats : List (List time.Chunk) :=
  [time.layoutISODate, time.layoutDMY, time.layoutDMYClock, time.layoutMDY,
    time.layoutISOClock, time.layoutYMDSlash]

/-- The loop `for _, format := range formats` of `stringToPgDate`
(lines 208-218): the first format that parses returns; the fallback is the
zero `pgtype.Date`. -/
def stringToPgDateLoop : List (List time.Chunk) → GoString → pgtype.Date
  | [], _ => ⟨time.zero, 0, false⟩
  | format :: formats, s =>
    match time.ParseLayout format s with
    | some date => ⟨date, 0, true⟩
    | none => stringToPgDateLoop formats s

/-- The function `stringToPgDate(s string) pgtype.Date` (lines 192-219). -/
def stringToPgDate (s : GoString) : pgtype.Date :=
  if !funcvx.NotNull s then ⟨time.zero, 0, false⟩
  else stringToPgDateLoop dateFormats s

/-- The function `SetDateField(v any) pgtype.Date` (lines 152-164). -/
def SetDateField (v : GoAny) : pgtype.Date :=
  match v with
  | GoAny.time val => ⟨val, 0, true⟩
  | GoAny.timePtr (some val) => ⟨val, 0, true⟩
  | GoAny.timePtr none => ⟨time.zero, 0, false⟩
  | GoAny.str val => stringToPgDate val
  | GoAny.other => ⟨time.zero, 0, false⟩

/-- The first layout of `formats`, in order, that accepts `s`, with the time it
parses to. -/
def firstAccepted (s : GoString) : Option Time :=
  (dateFormats.filterMap fun layout => time.ParseLayout layout s).head?

/-! ## `pgxhelpers.go`: the numeric setter -/

/-- The argument of `SetNumericField(i any)` by its dynamic type: `int`,
`int32`, `int64`, each with its value; `float64` and `float32` holding a whole
number, given by that number (below 2^53 in absolute value, where `float64`
holds every whole number exactly); or any other type. A float that holds no
whole number is outside this model. -/
inductive NumericArg where
  | int (res : Int)
  | int32 (res : Int)
  | int64 (res : Int)
  | float64 (whole : Int)
  | float32 (whole : Int)
  | other

/-- The number of binary digits of `n`: 0 for 0. -/
@[semireducible]
def bitLength (n : Nat) : Nat :=
  if n = 0 then 0 else bitLength (n / 2) + 1
termination_by n
decreasing_by omega

/-- Library function `(*big.Float).MantExp(nil)` on a whole number `x`: the
exponent `exp` with `x = mant × 2^exp` and `0.5 ≤ |mant| < 1`; 0 for 0. -/
def bigFloatMantExp (x : Int) : Int :=
  bitLength x.natAbs

/-- The decimal digits of `n`, as bytes. -/
@[semireducible]
def decimalDigits (n : Nat) : GoString :=
  if n < 10 then [48 + n] else decimalDigits (n / 10) ++ [48 + n % 10]
termination_by n
decreasing_by omega

/-- Library function `(*big.Float).Text('f', -1)` on a whole number `x` below
2^53 in absolute value: its decimal digits, after a `-` when it is negative. -/
def bigFloatText (x : Int) : GoString :=
  if x < 0 then utf8 "-" ++ decimalDigits x.natAbs else decimalDigits x.natAbs

/-- The float branches of `SetNumericField` (lines 424-439) on a float that
holds the whole number `f`: `Int` is the integer part, `Exp` is
`int32(bigF.MantExp(nil)) - int32(len(bigF.Text('f', -1)))`. -/
def numericOfWholeFloat (f : Int) : pgtype.Numeric :=
  ⟨some f, toInt32 (toInt32 (bigFloatMantExp f) - toInt32 (bigFloatText f).length), false, 0,
    true⟩

/-- The function `SetNumericField(i any) pgtype.Numeric` (lines 404-448). -/
def SetNumericField (i : NumericArg) : pgtype.Numeric :=
  match i with
  | NumericArg.int res => ⟨some res, 0, false, 0, true⟩
  | NumericArg.int32 res => ⟨some res, 0, false, 0, true⟩
  | NumericArg.int64 res => ⟨some res, 0, false, 0, true⟩
  | NumericArg.float64 f => numericOfWholeFloat f
  | NumericArg.float32 f => numericOfWholeFloat f
  | NumericArg.other => ⟨none, 0, false, 0, false⟩

/-- The number a `pgtype.Numeric` represents, `Int × 10^Exp`; `none` when `Int`
is nil. -/
def numericValue (n : pgtype.Numeric) : Option ℚ :=
  n.Int.map fun i => (i : ℚ) * (10 : ℚ) ^ n.Exp

/-! ## `strconvx.ConvertToSlice` at the element type `string` -/

namespace strings

/-- Library function `strings.HasPrefix(s, prefix)` for a one-byte `prefix`. -/
def HasPrefix (s : GoString) (b : Nat) : Bool :=
  s.head? = some b

/-- Library function `strings.HasSuffix(s, suffix)` for a one-byte `suffix`. -/
def HasSuffix (s : GoString) (b : Nat) : Bool :=
  s.getLast? = some b

/-- Library function `strings.Trim(s, cutset)` for a cutset of ASCII bytes:
`s` without its leading and trailing bytes that are in the cutset. -/
def Trim (s : GoString) (cutset : GoString) : GoString :=
  ((s.dropWhile fun c => cutset.contains c).reverse.dropWhile fun c =>
    cutset.contains c).reverse

end strings

namespace strconv

/-- The digit `"0123456789abcdef"[n]`. -/
def lowerhex (n : Nat) : Nat :=
  if n < 10 then 48 + n else 87 + n

/-- What `strconv.Quote` appends for one ASCII byte `r`: `"` and `\` are
backslashed, the printable bytes 0x20 to 0x7E stand for themselves, the bytes
7 to 13 are written `\a \b \t \n \v \f \r`, and every other control byte is
written `\x` and two hex digits. -/
def appendEscapedASCII (r : Nat) : GoString :=
  if r = 34 ∨ r = 92 then [92, r]
  else if 32 ≤ r ∧ r < 127 then [r]
  else if r = 7 then [92, 97]
  else if r = 8 then [92, 98]
  else if r = 12 then [92, 102]
  else if r = 10 then [92, 110]
  else if r = 13 then [92, 114]
  else if r = 9 then [92, 116]
  else if r = 11 then [92, 118]
  else [92, 120, lowerhex (r / 16), lowerhex (r % 16)]

/-- Library function `strconv.Quote(s)` for a string of ASCII bytes: a
double-quoted Go string literal. -/
def Quote (s : GoString) : GoString :=
  34 :: (s.flatMap appendEscapedASCII ++ [34])

end strconv

namespace json

/-- What `json.Unmarshal(data, &result)` does to a nil `result []string`:
it fills it (`ok`), or fails on invalid JSON and leaves it nil (`invalid`);
`notModelled` stands for the inputs this model does not decode (a top-level
value that is not an array, an element that is not a string, a non-ASCII byte
or a `\u` escape in a string). -/
inductive Decoded where
  | ok (result : List GoString)
  | invalid
  | notModelled
  deriving DecidableEq, Repr

/-- Where the scanner stands in an array of strings. -/
inductive State where
  | beginValue
  | afterOpen
  | inString
  | inStringEsc
  | afterElement
  | afterComma
  | endTop
  deriving DecidableEq, Repr

/-- The white space of JSON: space, `\t`, `\r`, `\n`. -/
def isSpace (c : Nat) : Bool :=
  c = 32 || c = 9 || c = 13 || c = 10

/-- The first byte of a JSON value that is not a string: `{`, `[`, `-`, a
digit, `t`, `f`, `n`. -/
def beginsOtherValue (c : Nat) : Bool :=
  c = 123 || c = 91 || c = 45 || (48 ≤ c && c ≤ 57) || c = 116 || c = 102 || c = 110

/-- The scanner and decoder of `json.Unmarshal` on an array of strings, byte
by byte: `cur` is the string being read and `out` the strings read so far. -/
def scan : State → GoString → List GoString → GoString → Decoded
  | st, _, out, [] => if st = State.endTop then Decoded.ok out else Decoded.invalid
  | State.beginValue, cur, out, c :: data =>
    if isSpace c then scan State.beginValue cur out data
    else if c = 91 then scan State.afterOpen cur out data
    else Decoded.notModelled
  | State.afterOpen, cur, out, c :: data =>
    if isSpace c then scan State.afterOpen cur out data
    else if c = 93 then scan State.endTop cur out data
    else if c = 34 then scan State.inString [] out data
    else if beginsOtherValue c then Decoded.notModelled
    else Decoded.invalid
  | State.inString, cur, out, c :: data =>
    if c = 34 then scan State.afterElement [] (out ++ [cur]) data
    else if c = 92 then scan State.inStringEsc cur out data
    else if c < 32 then Decoded.invalid
    else if c ≥ 128 then Decoded.notModelled
    else scan State.inString (cur ++ [c]) out data
  | State.inStringEsc, cur, out, c :: data =>
    if c = 34 ∨ c = 92 ∨ c = 47 then scan State.inString (cur ++ [c]) out data
    else if c = 98 then scan State.inString (cur ++ [8]) out data
    else if c = 102 then scan State.inString (cur ++ [12]) out data
    else if c = 110 then scan State.inString (cur ++ [10]) out data
    else if c = 114 then scan State.inString (cur ++ [13]) out data
    else if c = 116 then scan State.inString (cur ++ [9]) out data
    else if c = 117 then Decoded.notModelled
    else Decoded.invalid
  | State.afterElement, cur, out, c :: data =>
    if isSpace c then scan State.afterElement cur out data
    else if c = 44 then scan State.afterComma cur out data
    else if c = 93 then scan State.endTop cur out data
    else Decoded.invalid
  | State.afterComma, cur, out, c :: data =>
    if isSpace c then scan State.afterComma cur out data
    else if c = 34 then scan State.inString [] out data
    else if beginsOtherValue c then Decoded.notModelled
    else Decoded.invalid
  | State.endTop, cur, out, c :: data =>
    if isSpace c then scan State.endTop cur out data
    else Decoded.invalid

/-- Library function `json.Unmarshal(data, &result)` for a nil
`result []string`. -/
def Unmarshal (data : GoString) : Decoded :=
  scan State.beginValue [] [] data

end json

namespace strconvx

/-- The loop `for i, item := range items` of `ConvertToSlice` (lines 34-49)
for `T = string`, from index `i` on: what it writes to the builder. An item
with a non-ASCII byte is outside the model of `strconv.Quote` (`none`). -/
def writeItems (n : Nat) : Nat → List GoString → Option GoString
  | _, [] => some []
  | i, item :: items =>
    let item := strings.TrimSpace item
    if item = utf8 "" then writeItems n (i + 1) items
    else if item.any fun c => c ≥ 128 then none
    else
      match writeItems n (i + 1) items with
      | none => none
      | some rest =>
        some (strconv.Quote item ++ (if i < n - 1 then utf8 "," else utf8 "") ++ rest)

/-- The function `ConvertToSlice[string](input string) []string`
(`strconvx/strconv.go`, lines 14-61); a nil slice is the empty list. -/
def ConvertToSlice (input : GoString) : json.Decoded :=
  let input := strings.TrimSpace input
  if input = utf8 "" ∨ input = utf8 "\x7b\x7d" ∨ input = utf8 "null" then json.Decoded.ok []
  else
    let data : Option GoString :=
      if strings.HasPrefix input 123 ∧ strings.HasSuffix input 125 then
        let trimmed := strings.Trim input (utf8 "\x7b\x7d")
        let items := strings.Split trimmed 44
        match writeItems items.length 0 items with
        | none => none
        | some written => some (utf8 "[" ++ written ++ utf8 "]")
      else some input
    match data with
    | none => json.Decoded.notModelled
    | some data =>
      match json.Unmarshal data with
      | json.Decoded.ok result => json.Decoded.ok result
      | json.Decoded.invalid => json.Decoded.ok []
      | json.Decoded.notModelled => json.Decoded.notModelled

end strconvx

/-! ## The words of C18 -/

/-- The items joined by `","`. -/
def joinComma : List GoString → GoString
  | [] => []
  | [item] => item
  | item :: next :: items => item ++ 44 :: joinComma (next :: items)

/-- The Postgres array literal of the items: `"{"`, the items joined by `","`,
and `"}"`. -/
def arrayLiteral (items : List GoString) : GoString :=
  123 :: (joinComma items ++ [125])

/-- An item of plain text: not empty, of printable ASCII bytes (0x20 to 0x7E)
other than the comma, and neither starting nor ending with a space or a brace. -/
def PlainItem (item : GoString) : Prop :=
  item ≠ [] ∧ (∀ c ∈ item, 32 ≤ c ∧ c < 127 ∧ c ≠ 44) ∧
    (∀ c, item.head? = some c → c ≠ 32 ∧ c ≠ 123 ∧ c ≠ 125) ∧
    (∀ c, item.getLast? = some c → c ≠ 32 ∧ c ≠ 123 ∧ c ≠ 125)

/-- The quoted items joined by `","`, as the loop of `ConvertToSlice` writes
them. -/
def joinQuoted : List GoString → GoString
  | [] => []
  | [item] => strconv.Quote item
  | item :: next :: items => strconv.Quote item ++ 44 :: joinQuoted (next :: items)

/-! ## `stringToPgTimestamptz` (the second copy of the normaliser) -/

/-- The struct `pgtype.Timestamptz`: `Time`, `InfinityModifier` (0 is `Finite`)
and `Valid`. -/
structure pgtype.Timestamptz where
  Time : Time
  InfinityModifier : GoInt
  Valid : GoBool
  deriving DecidableEq, Repr

/-- The zero value `pgtype.Timestamptz{}`. -/
def pgtype.Timestamptz.zero : pgtype.Timestamptz := ⟨time.zero, 0, false⟩

/-- The function `stringToPgTimestamptz(input string) pgtype.Timestamptz`
(`pgxhelpers.go`, lines 344-396), statement by statement: the null-ish check
(346), the replacement of `/` (353), the split at spaces and the default time
(355-358), the split of the date part and its length check (360-363), the two
iterations of the zero-padding loop (365-369), the short year (370-372), the
date (373), the fraction brought to six bytes (375-385; the loop of lines
381-383 is `padLoop`), the string `final` (387) and `time.Parse` (390-395). -/
def stringToPgTimestamptz (input : GoString) : Option pgtype.Timestamptz :=
  if !funcvx.NotNull input then
    some ⟨time.zero, 0, false⟩
  else do
    let input := strings.ReplaceAll input 47 45
    let parts := strings.Split input 32
    let parts := if parts.length < 2 then parts ++ [utf8 "00:00:00.000000"] else parts
    let p0 ← parts[0]?
    let dayParts := strings.Split p0 45
    if dayParts.length ≠ 3 then
      some pgtype.Timestamptz.zero
    else do
      let d0 ← dayParts[0]?
      let dayParts := if d0.length = 1 then dayParts.set 0 (utf8 "0" ++ d0) else dayParts
      let d1 ← dayParts[1]?
      let dayParts := if d1.length = 1 then dayParts.set 1 (utf8 "0" ++ d1) else dayParts
      let d2 ← dayParts[2]?
      let dayParts := if d2.length = 2 then dayParts.set 2 (utf8 "20" ++ d2) else dayParts
      let y ← dayParts[2]?
      let m ← dayParts[1]?
      let d ← dayParts[0]?
      let date := y ++ utf8 "-" ++ m ++ utf8 "-" ++ d
      let timePart ← parts[1]?
      let timePart ←
        if !strings.Contains timePart 46 then
          some (timePart ++ utf8 ".000000")
        else do
          let tp := strings.Split timePart 46
          let tp1 ← tp[1]?
          let tp1 := padLoop tp1
          let tp0 ← tp[0]?
          let cut ← sliceTo tp1 6
          some (tp0 ++ utf8 "." ++ cut)
      let final := date ++ utf8 " " ++ timePart
      match time.Parse final with
      | none => some pgtype.Timestamptz.zero
      | some t => some ⟨t, 0, true⟩

/-- A `pgtype.Timestamp` read as a `pgtype.Timestamptz` with the same three
fields. -/
def pgtype.Timestamp.asTimestamptz (ts : pgtype.Timestamp) : pgtype.Timestamptz :=
  ⟨ts.Time, ts.InfinityModifier, ts.Valid⟩

/-! ## Lemmas: literals -/

@[simp] theorem utf8_empty : utf8 "" = [] := by decide
@[simp] theorem utf8_zero : utf8 "0" = [48] := by decide
@[simp] theorem utf8_twenty : utf8 "20" = [50, 48] := by decide
@[simp] theorem utf8_dash : utf8 "-" = [45] := by decide
@[simp] theorem utf8_space : utf8 " " = [32] := by decide
@[simp] theorem utf8_dot : utf8 "." = [46] := by decide
@[simp] theorem utf8_zeros : utf8 ".000000" = [46, 48, 48, 48, 48, 48, 48] := by decide
@[simp] theorem utf8_midnight :
    utf8 "00:00:00.000000" = [48, 48, 58, 48, 48, 58, 48, 48, 46, 48, 48, 48, 48, 48, 48] := by
  decide
@[simp] theorem utf8_null : utf8 "null" = [110, 117, 108, 108] := by decide
@[simp] theorem utf8_NULL : utf8 "NULL" = [78, 85, 76, 76] := by decide
@[simp] theorem utf8_nil : utf8 "nil" = [110, 105, 108] := by decide

/-! ## Lemmas: `strings.Split` -/

namespace strings

theorem Split_ne_nil (s : GoString) (sep : Nat) : Split s sep ≠ [] := by
  cases s with
  | nil => simp [Split]
  | cons c s =>
    unfold Split
    split
    · simp
    · split <;> simp

/-- The first component is the text before the first separator, and the other
components are those of the text after it. -/
theorem Split_eq (s : GoString) (sep : Nat) :
    Split s sep = s.takeWhile (fun c => c ≠ sep) ::
      (match s.dropWhile (fun c => c ≠ sep) with
       | [] => []
       | _ :: r => Split r sep) := by
  induction s with
  | nil => simp [Split]
  | cons c s ih =>
    by_cases h : c = sep
    · subst h
      simp [Split, List.takeWhile, List.dropWhile]
    · rw [Split, if_neg h, ih]
      simp [List.takeWhile, List.dropWhile, h]

theorem Split_length_pos (s : GoString) (sep : Nat) : 1 ≤ (Split s sep).length := by
  rw [Split_eq]; simp

theorem dropWhile_ne_of_mem {s : GoString} {sep : Nat} (h : sep ∈ s) :
    ∃ r, s.dropWhile (fun c => c ≠ sep) = sep :: r := by
  induction s with
  | nil => simp at h
  | cons c s ih =>
    by_cases hc : c = sep
    · subst hc
      exact ⟨s, by simp [List.dropWhile]⟩
    · have hs : sep ∈ s := by
        rcases List.mem_cons.mp h with h1 | h1
        · exact absurd h1.symm hc
        · exact h1
      obtain ⟨r, hr⟩ := ih hs
      exact ⟨r, by simpa [List.dropWhile, hc] using hr⟩

theorem Split_length_of_mem {s : GoString} {sep : Nat} (h : sep ∈ s) :
    2 ≤ (Split s sep).length := by
  obtain ⟨r, hr⟩ := dropWhile_ne_of_mem h
  rw [Split_eq, hr]
  have := Split_length_pos r sep
  simp only [List.length_cons]
  omega

theorem Split_of_not_mem {s : GoString} {sep : Nat} (h : sep ∉ s) : Split s sep = [s] := by
  induction s with
  | nil => simp [Split]
  | cons c s ih =>
    have hc : c ≠ sep := fun e => h (by simp [e])
    have hs : sep ∉ s := fun e => h (List.mem_cons_of_mem _ e)
    rw [Split, if_neg hc, ih hs]

theorem Split_append {a : GoString} {sep : Nat} (h : sep ∉ a) (r : GoString) :
    Split (a ++ sep :: r) sep = a :: Split r sep := by
  induction a with
  | nil => simp [Split]
  | cons c a ih =>
    have hc : c ≠ sep := fun e => h (by simp [e])
    have hs : sep ∉ a := fun e => h (List.mem_cons_of_mem _ e)
    rw [List.cons_append, Split, if_neg hc, ih hs]

theorem not_mem_of_mem_Split {s : GoString} {sep : Nat} :
    ∀ p ∈ Split s sep, sep ∉ p := by
  induction s with
  | nil => simp [Split]
  | cons c s ih =>
    intro p hp
    by_cases hc : c = sep
    · rw [Split, if_pos hc] at hp
      rcases List.mem_cons.mp hp with h1 | h1
      · simp [h1]
      · exact ih p h1
    · rw [Split, if_neg hc] at hp
      cases hsp : Split s sep with
      | nil => exact absurd hsp (Split_ne_nil s sep)
      | cons q qs =>
        rw [hsp] at hp ih
        simp only at hp
        rcases List.mem_cons.mp hp with h1 | h1
        · subst h1
          have hq := ih q (by simp)
          intro hm
          rcases List.mem_cons.mp hm with h2 | h2
          · exact hc h2.symm
          · exact hq h2
        · exact ih p (List.mem_cons_of_mem _ h1)

end strings

/-! ## Lemmas: the padding loop and the fraction -/

theorem padLoop_eq (s : GoString) : padLoop s = s ++ List.replicate (6 - s.length) 48 := by
  generalize h : 6 - s.length = n
  induction n generalizing s with
  | zero =>
    rw [padLoop, if_neg (by omega)]
    simp
  | succ n ih =>
    rw [padLoop, if_pos (by omega)]
    have h1 : 6 - (s ++ utf8 "0").length = n := by simp; omega
    rw [ih _ h1]
    simp [List.replicate_succ]

theorem padLoop_length (s : GoString) : 6 ≤ (padLoop s).length := by
  rw [padLoop_eq]
  simp
  omega

theorem fractionPart_eq (t : GoString) : fractionPart t = some (sixFraction t) := by
  unfold fractionPart sixFraction
  by_cases h : 46 ∈ t
  · obtain ⟨r, hr⟩ := strings.dropWhile_ne_of_mem h
    have hc : strings.Contains t 46 = true := by simpa [strings.Contains] using h
    have hlen : ∀ f : GoString, 6 ≤ (f ++ List.replicate (6 - f.length) 48).length := by
      intro f
      simp only [List.length_append, List.length_replicate]
      omega
    rw [if_pos h, hc, strings.Split_eq t 46, hr]
    simp only [strings.Split_eq r 46, padLoop_eq, sliceTo, hlen, hr]
    simp
  · have hc : strings.Contains t 46 = false := by simpa [strings.Contains] using h
    simp [hc, h]

theorem sixFraction_of_not_mem {t : GoString} (h : 46 ∉ t) :
    sixFraction t = t ++ [46, 48, 48, 48, 48, 48, 48] := by
  simp [sixFraction, h]

/-- The space-separated fields after the default time part is added
(lines 237-241). -/
theorem parts_eq (input : GoString) :
    ∃ rest, (if (strings.Split (strings.ReplaceAll input 47 45) 32).length < 2
        then strings.Split (strings.ReplaceAll input 47 45) 32 ++ [utf8 "00:00:00.000000"]
        else strings.Split (strings.ReplaceAll input 47 45) 32) =
      datePart input :: timePart input :: rest := by
  unfold datePart timePart
  generalize strings.ReplaceAll input 47 45 = s
  rw [strings.Split_eq s 32]
  cases hd : s.dropWhile (fun c => c ≠ 32) with
  | nil => exact ⟨[], by simp⟩
  | cons x r =>
    simp only
    rw [strings.Split_eq r 32, if_neg (by simp)]
    exact ⟨_, rfl⟩

/-- The string `final` in closed form: no access of lines 235-272 is out of bounds. -/
theorem finalString_eq (input : GoString) :
    finalString input = some
      (match strings.Split (datePart input) 45 with
       | [a, b, c] => some (canonical a b c (timePart input))
       | _ => none) := by
  obtain ⟨rest, hp⟩ := parts_eq input
  unfold finalString
  simp only [hp]
  simp only [List.getElem?_cons_zero, List.getElem?_cons_succ, Option.bind_eq_bind,
    Option.some_bind, Option.pure_def, Option.bind_some]
  rcases hs : strings.Split (datePart input) 45 with _ | ⟨a, _ | ⟨b, _ | ⟨c, _ | ⟨d, l⟩⟩⟩⟩
  · simp
  · simp
  · simp
  · by_cases ha : a.length = 1 <;> by_cases hb : b.length = 1 <;> by_cases hc : c.length = 2 <;>
      simp [zeroPad, fractionPart_eq, canonical, zeroPadded, yearExpanded, ha, hb, hc]
  · simp

/-! ## Lemmas: white space and `NotNull` -/

namespace strings

theorem trimLeftSpace_cons (a : Nat) (s : GoString) :
    trimLeftSpace (a :: s) =
      if asciiSpace a then trimLeftSpace s
      else match s with
        | [] => [a]
        | b :: s2 =>
          if space2 a b then trimLeftSpace s2
          else match s2 with
            | [] => [a, b]
            | c :: s3 => if space3 a b c then trimLeftSpace s3 else a :: b :: c :: s3 := by
  conv_lhs => unfold trimLeftSpace
  rfl

theorem trimLeftSpaceRev_cons (a : Nat) (s : GoString) :
    trimLeftSpaceRev (a :: s) =
      if asciiSpace a then trimLeftSpaceRev s
      else match s with
        | [] => [a]
        | b :: s2 =>
          if space2 b a then trimLeftSpaceRev s2
          else match s2 with
            | [] => [a, b]
            | c :: s3 => if space3 c b a then trimLeftSpaceRev s3 else a :: b :: c :: s3 := by
  conv_lhs => unfold trimLeftSpaceRev
  rfl

theorem space2_not_ascii {a b : Nat} (h : space2 a b = true) : asciiSpace a = false := by
  simp [space2] at h
  simp [asciiSpace, h.1]

theorem space3_not_ascii {a b c : Nat} (h : space3 a b c = true) :
    asciiSpace a = false ∧ ∀ x, space2 a x = false := by
  simp [space3] at h
  rcases h with ((h | h) | h) | h <;> simp [asciiSpace, space2, h.1]

theorem trimLeftSpace_of_whiteSpace {s : GoString} (h : WhiteSpace s) : trimLeftSpace s = [] := by
  induction h with
  | nil => rfl
  | one a s ha _ ih => rw [trimLeftSpace_cons, if_pos ha, ih]
  | two a b s hab _ ih =>
    rw [trimLeftSpace_cons, space2_not_ascii hab]
    simp [hab, ih]
  | three a b c s habc _ ih =>
    rw [trimLeftSpace_cons, (space3_not_ascii habc).1]
    simp [(space3_not_ascii habc).2, habc, ih]

theorem whiteSpace_of_trimLeftSpace :
    ∀ (n : Nat) (s : GoString), s.length ≤ n → trimLeftSpace s = [] → WhiteSpace s := by
  intro n
  induction n with
  | zero =>
    intro s hn _
    have : s = [] := List.length_eq_zero.mp (by omega)
    subst this
    exact WhiteSpace.nil
  | succ n ih =>
    intro s hn h
    rcases s with _ | ⟨a, s⟩
    · exact WhiteSpace.nil
    · rw [trimLeftSpace_cons] at h
      by_cases ha : asciiSpace a = true
      · rw [if_pos ha] at h
        exact WhiteSpace.one a s ha (ih s (by simp at hn; omega) h)
      · rw [if_neg ha] at h
        rcases s with _ | ⟨b, s2⟩
        · simp at h
        · by_cases hab : space2 a b = true
          · simp only [hab, if_true] at h
            exact WhiteSpace.two a b s2 hab (ih s2 (by simp at hn; omega) h)
          · simp only [hab] at h
            rcases s2 with _ | ⟨c, s3⟩
            · simp at h
            · by_cases habc : space3 a b c = true
              · simp only [habc, if_true] at h
                exact WhiteSpace.three a b c s3 habc (ih s3 (by simp at hn; omega) h)
              · simp [habc] at h

theorem trimLeftSpace_idem :
    ∀ (n : Nat) (s : GoString), s.length ≤ n →
      trimLeftSpace (trimLeftSpace s) = trimLeftSpace s := by
  intro n
  induction n with
  | zero =>
    intro s hn
    have : s = [] := List.length_eq_zero.mp (by omega)
    subst this
    rfl
  | succ n ih =>
    intro s hn
    rcases s with _ | ⟨a, s⟩
    · rfl
    · by_cases ha : asciiSpace a = true
      · rw [trimLeftSpace_cons, if_pos ha]
        exact ih s (by simp at hn; omega)
      · rcases s with _ | ⟨b, s2⟩
        · simp [trimLeftSpace_cons, ha]
        · by_cases hab : space2 a b = true
          · rw [trimLeftSpace_cons a, if_neg ha]
            simp only [hab, if_true]
            exact ih s2 (by simp at hn; omega)
          · rcases s2 with _ | ⟨c, s3⟩
            · simp [trimLeftSpace_cons, ha, hab]
            · by_cases habc : space3 a b c = true
              · rw [trimLeftSpace_cons a, if_neg ha]
                simp only [hab, habc, if_true]
                exact ih s3 (by simp at hn; omega)
              · simp [trimLeftSpace_cons a, ha, hab, habc]

theorem whiteSpace_append {s t : GoString} (hs : WhiteSpace s) (ht : WhiteSpace t) :
    WhiteSpace (s ++ t) := by
  induction hs with
  | nil => simpa using ht
  | one a s ha _ ih => exact WhiteSpace.one a _ ha ih
  | two a b s hab _ ih => exact WhiteSpace.two a b _ hab ih
  | three a b c s habc _ ih => exact WhiteSpace.three a b c _ habc ih

theorem whiteSpace_of_trimLeftSpaceRev :
    ∀ (n : Nat) (r : GoString), r.length ≤ n → trimLeftSpaceRev r = [] →
      WhiteSpace r.reverse := by
  intro n
  induction n with
  | zero =>
    intro r hn _
    have : r = [] := List.length_eq_zero.mp (by omega)
    subst this
    exact WhiteSpace.nil
  | succ n ih =>
    intro r hn h
    rcases r with _ | ⟨a, s⟩
    · exact WhiteSpace.nil
    · rw [trimLeftSpaceRev_cons] at h
      by_cases ha : asciiSpace a = true
      · rw [if_pos ha] at h
        have h1 := ih s (by simp at hn; omega) h
        rw [List.reverse_cons]
        exact whiteSpace_append h1 (WhiteSpace.one a [] ha WhiteSpace.nil)
      · rw [if_neg ha] at h
        rcases s with _ | ⟨b, s2⟩
        · simp at h
        · by_cases hab : space2 b a = true
          · simp only [hab, if_true] at h
            have h1 := ih s2 (by simp at hn; omega) h
            have : (a :: b :: s2).reverse = s2.reverse ++ [b, a] := by simp
            rw [this]
            exact whiteSpace_append h1 (WhiteSpace.two b a [] hab WhiteSpace.nil)
          · simp only [hab] at h
            rcases s2 with _ | ⟨c, s3⟩
            · simp at h
            · by_cases habc : space3 c b a = true
              · simp only [habc, if_true] at h
                have h1 := ih s3 (by simp at hn; omega) h
                have : (a :: b :: c :: s3).reverse = s3.reverse ++ [c, b, a] := by simp
                rw [this]
                exact whiteSpace_append h1 (WhiteSpace.three c b a [] habc WhiteSpace.nil)
              · simp [habc] at h

/-- The test `strings.TrimSpace(s) == ""` holds exactly when `s` is white space only. -/
theorem TrimSpace_eq_nil_iff (s : GoString) : TrimSpace s = [] ↔ WhiteSpace s := by
  constructor
  · intro h
    have h1 : trimLeftSpaceRev (trimLeftSpace s).reverse = [] := by
      simpa [TrimSpace] using h
    have h2 := whiteSpace_of_trimLeftSpaceRev _ _ (le_refl _) h1
    rw [List.reverse_reverse] at h2
    have h3 := trimLeftSpace_of_whiteSpace h2
    rw [trimLeftSpace_idem _ s (le_refl _)] at h3
    exact whiteSpace_of_trimLeftSpace _ s (le_refl _) h3
  · intro h
    simp [TrimSpace, trimLeftSpace_of_whiteSpace h, trimLeftSpaceRev]

end strings

theorem NotNull_eq_false_iff (s : GoString) : funcvx.NotNull s = false ↔ Nullish s := by
  unfold funcvx.NotNull Nullish
  rw [← strings.TrimSpace_eq_nil_iff]
  simp only [utf8_empty, utf8_null, utf8_NULL, utf8_nil, Bool.and_eq_false_iff, decide_eq_false_iff_not,
    not_not, ne_eq]
  constructor
  · rintro (((h | h) | h) | h)
    · exact Or.inr (Or.inr (Or.inl h))
    · exact Or.inr (Or.inr (Or.inr (Or.inl h)))
    · exact Or.inr (Or.inl h)
    · exact Or.inr (Or.inr (Or.inr (Or.inr h)))
  · rintro (h | h | h | h | h)
    · subst h
      exact Or.inl (Or.inr (by decide))
    · exact Or.inl (Or.inr h)
    · exact Or.inl (Or.inl (Or.inl h))
    · exact Or.inl (Or.inl (Or.inr h))
    · exact Or.inr h

theorem NotNull_eq_true_iff (s : GoString) : funcvx.NotNull s = true ↔ ¬ Nullish s := by
  rw [← NotNull_eq_false_iff]
  simp

/-- The function in closed form: it always returns. -/
theorem stringToPgTimestamp_eq (input : GoString) :
    stringToPgTimestamp input = some
      (if funcvx.NotNull input = true then
        match strings.Split (datePart input) 45 with
        | [a, b, c] =>
          (match time.Parse (canonical a b c (timePart input)) with
           | some t => ⟨t, 0, true⟩
           | none => pgtype.Timestamp.zero)
        | _ => pgtype.Timestamp.zero
      else pgtype.Timestamp.zero) := by
  unfold stringToPgTimestamp
  rw [finalString_eq]
  by_cases hn : funcvx.NotNull input = true
  · simp only [hn, Bool.not_true, Bool.false_eq_true, if_false, if_true]
    rcases hs : strings.Split (datePart input) 45 with _ | ⟨a, _ | ⟨b, _ | ⟨c, _ | ⟨d, l⟩⟩⟩⟩ <;>
      simp only
    cases time.Parse (canonical a b c (timePart input)) <;> rfl
  · simp [hn, pgtype.Timestamp.zero]

/-! ## Lemmas: `time.Parse` on digit strings -/

namespace time

theorem toInt64_of_lt {z : Int} (h0 : 0 ≤ z) (h1 : z < 2 ^ 63) : toInt64 z = z := by
  unfold toInt64
  omega

theorem leadingInt_digit {x c : Nat} (s : GoString) (h1 : 48 ≤ c) (h2 : c ≤ 57)
    (hx : x ≤ 10 ^ 9) : leadingInt x (c :: s) = leadingInt (x * 10 + c - 48) s := by
  rw [leadingInt, if_neg (by omega), if_neg (by omega), if_neg (by omega)]

theorem leadingInt_other {x c : Nat} (s : GoString) (h : c < 48 ∨ 57 < c) :
    leadingInt x (c :: s) = some (x, c :: s) := by
  rw [leadingInt, if_pos (by omega)]

theorem getnum_two {a b : Nat} (ha : a ≤ 9) (hb : b ≤ 9) (rest : GoString) (fixed : Bool) :
    getnum ((48 + a) :: (48 + b) :: rest) fixed = some (a * 10 + b, rest) := by
  simp [getnum, isDigit, ha, hb]
  constructor <;> omega

theorem atoi_four {a b c d : Nat} (ha : a ≤ 9) (hb : b ≤ 9) (hc : c ≤ 9) (hd : d ≤ 9) :
    atoi [48 + a, 48 + b, 48 + c, 48 + d] =
      some (((1000 * a + 100 * b + 10 * c + d : Nat) : Int)) := by
  have h45 : 48 + a ≠ 45 := by omega
  have h43 : 48 + a ≠ 43 := by omega
  simp only [atoi, List.head?_cons, Option.some.injEq, h45, h43, or_self, if_false,
    decide_False]
  rw [leadingInt_digit _ (by omega) (by omega) (by omega),
    leadingInt_digit _ (by omega) (by omega) (by omega),
    leadingInt_digit _ (by omega) (by omega) (by omega),
    leadingInt_digit _ (by omega) (by omega) (by omega), leadingInt]
  simp only [Bool.false_eq_true, if_false]
  rw [toInt64_of_lt (by omega) (by omega)]
  congr 2
  omega

theorem atoi_six {a b c d e f : Nat} (ha : a ≤ 9) (hb : b ≤ 9) (hc : c ≤ 9) (hd : d ≤ 9)
    (he : e ≤ 9) (hf : f ≤ 9) :
    atoi [48 + a, 48 + b, 48 + c, 48 + d, 48 + e, 48 + f] =
      some (((100000 * a + 10000 * b + 1000 * c + 100 * d + 10 * e + f : Nat) : Int)) := by
  have h45 : 48 + a ≠ 45 := by omega
  have h43 : 48 + a ≠ 43 := by omega
  simp only [atoi, List.head?_cons, Option.some.injEq, h45, h43, or_self, if_false,
    decide_False]
  rw [leadingInt_digit _ (by omega) (by omega) (by omega),
    leadingInt_digit _ (by omega) (by omega) (by omega),
    leadingInt_digit _ (by omega) (by omega) (by omega),
    leadingInt_digit _ (by omega) (by omega) (by omega),
    leadingInt_digit _ (by omega) (by omega) (by omega),
    leadingInt_digit _ (by omega) (by omega) (by omega), leadingInt]
  simp only [Bool.false_eq_true, if_false]
  rw [toInt64_of_lt (by omega) (by omega)]
  congr 2
  omega

theorem mod_ten_eq (n k : Nat) : n / k % 10 = n / k - 10 * (n / (k * 10)) := by
  rw [Nat.mod_def, Nat.div_div_eq_div_mul]

theorem digits4_value (Y : Nat) :
    1000 * (Y / 1000) + 100 * (Y / 100 % 10) + 10 * (Y / 10 % 10) + Y % 10 = Y := by
  rw [mod_ten_eq Y 100, mod_ten_eq Y 10]
  omega

theorem digits6_value (f : Nat) :
    100000 * (f / 100000) + 10000 * (f / 10000 % 10) + 1000 * (f / 1000 % 10) +
      100 * (f / 100 % 10) + 10 * (f / 10 % 10) + f % 10 = f := by
  rw [mod_ten_eq f 10000, mod_ten_eq f 1000, mod_ten_eq f 100, mod_ten_eq f 10]
  omega

theorem getnum_digits2 {n : Nat} (hn : n < 100) (rest : GoString) (fixed : Bool) :
    getnum (digits2 n ++ rest) fixed = some (n, rest) := by
  have h := getnum_two (a := n / 10) (b := n % 10) (by omega) (by omega) rest fixed
  have e : n / 10 * 10 + n % 10 = n := by omega
  rw [e] at h
  exact h

theorem atoi_digits4 {Y : Nat} (hY : Y < 10000) : atoi (digits4 Y) = some (Y : Int) := by
  have h := atoi_four (a := Y / 1000) (b := Y / 100 % 10) (c := Y / 10 % 10) (d := Y % 10)
    (by omega) (by omega) (by omega) (by omega)
  rw [digits4_value Y] at h
  exact h

theorem atoi_digits6 {f : Nat} (hf : f < 1000000) : atoi (digits6 f) = some (f : Int) := by
  have h := atoi_six (a := f / 100000) (b := f / 10000 % 10) (c := f / 1000 % 10)
    (d := f / 100 % 10) (e := f / 10 % 10) (f := f % 10)
    (by omega) (by omega) (by omega) (by omega) (by omega) (by omega)
  rw [digits6_value f] at h
  exact h

theorem skip_same (p : Nat) (hp : p ≠ 32) (rest : GoString) : skip (p :: rest) p = some rest := by
  simp [skip, hp]

theorem skip_space_digits2 (n : Nat) (rest : GoString) :
    skip (32 :: (digits2 n ++ rest)) 32 = some (digits2 n ++ rest) := by
  have h : 48 + n / 10 ≠ 32 := by omega
  simp [skip, cutspace, digits2, h]

theorem parseDateChunks_digits {Y M D : Nat} (hY : Y < 10000) (hM1 : 1 ≤ M) (hM2 : M ≤ 12)
    (hD : D < 100) (rest : GoString) :
    parseDateChunks (digits4 Y ++ 45 :: (digits2 M ++ 45 :: (digits2 D ++ rest))) =
      some (Y, M, D, rest) := by
  have hdig : ∀ r, isDigit (digits4 Y ++ r) 0 = true := by
    intro r
    simp [isDigit, digits4]
    omega
  have hlen : ∀ r, ¬ (digits4 Y ++ r).length < 4 := by
    intro r
    simp [digits4]
  have htake : ∀ r, (digits4 Y ++ r).take 4 = digits4 Y := by
    intro r
    simp [digits4]
  have hdrop : ∀ r, (digits4 Y ++ r).drop 4 = r := by
    intro r
    simp [digits4]
  unfold parseDateChunks
  simp only [hdig, hlen, htake, hdrop, atoi_digits4 hY, skip_same 45 (by decide),
    getnum_digits2 (show M < 100 by omega), getnum_digits2 hD, Bool.not_true,
    Bool.false_eq_true, or_self, if_false]
  rw [if_neg (by omega)]
  rfl

theorem parseClockChunks_digits {h m s f : Nat} (hh : h < 24) (hm : m < 60) (hs : s < 60)
    (hf : f < 1000000) :
    parseClockChunks (32 :: (digits2 h ++ 58 :: (digits2 m ++ 58 :: (digits2 s ++
      46 :: digits6 f)))) = some (h, m, s, f * 1000) := by
  have hnano : parseNanoseconds (46 :: digits6 f) 7 = some (f * 1000) := by
    have ht : ((46 :: digits6 f).take 7).drop 1 = digits6 f := by simp [digits6]
    unfold parseNanoseconds
    rw [ht, atoi_digits6 hf]
    simp [commaOrPeriod]
  have hlen : ¬ (46 :: digits6 f).length < 7 := by simp [digits6]
  have hdrop : ((46 :: digits6 f).drop 7).length = 0 := by simp [digits6]
  unfold parseClockChunks
  simp only [skip_space_digits2, skip_same 58 (by decide),
    getnum_digits2 (show h < 100 by omega), getnum_digits2 (show m < 100 by omega),
    getnum_digits2 (show s < 100 by omega), hnano, hlen, hdrop, if_false, ne_eq,
    not_true_eq_false]
  rw [if_neg (by omega), if_neg (by omega), if_neg (by omega)]

/-- A canonical string of digits in range parses to the time it names. -/
theorem Parse_digits {Y M D h m s f : Nat} (hY : Y < 10000) (hMD : validDate Y M D)
    (hh : h < 24) (hm : m < 60) (hs : s < 60) (hf : f < 1000000) :
    Parse (digits4 Y ++ 45 :: (digits2 M ++ 45 :: (digits2 D ++ 32 :: (digits2 h ++
      58 :: (digits2 m ++ 58 :: (digits2 s ++ 46 :: digits6 f)))))) =
      some ⟨Y, M, D, h, m, s, f * 1000⟩ := by
  obtain ⟨hM1, hM2, hD1, hD2⟩ := hMD
  have hD : D < 100 := by
    have : daysIn M Y ≤ 31 := by
      unfold daysIn
      split_ifs <;> omega
    omega
  unfold Parse
  rw [parseDateChunks_digits hY hM1 hM2 hD]
  simp only
  rw [parseClockChunks_digits hh hm hs hf]
  simp only
  rw [if_neg (by omega)]
  rfl

end time

/-! ## Lemmas: the date and time parts of shaped inputs -/

theorem ReplaceAll_of_not_mem {s : GoString} (h : 47 ∉ s) : strings.ReplaceAll s 47 45 = s := by
  induction s with
  | nil => rfl
  | cons c s ih =>
    have hc : c ≠ 47 := fun e => h (by simp [e])
    have hs : 47 ∉ s := fun e => h (List.mem_cons_of_mem _ e)
    simp only [strings.ReplaceAll, List.map_cons, if_neg hc] at ih ⊢
    rw [ih hs]

theorem ReplaceAll_append (s t : GoString) :
    strings.ReplaceAll (s ++ t) 47 45 = strings.ReplaceAll s 47 45 ++ strings.ReplaceAll t 47 45 := by
  simp [strings.ReplaceAll]

theorem ReplaceAll_cons (c : Nat) (t : GoString) :
    strings.ReplaceAll (c :: t) 47 45 = (if c = 47 then 45 else c) :: strings.ReplaceAll t 47 45 := by
  simp [strings.ReplaceAll]

theorem not_mem_ReplaceAll {s : GoString} {x : Nat} (hx : x ≠ 45) (h : x ∉ s) :
    x ∉ strings.ReplaceAll s 47 45 := by
  intro hm
  simp only [strings.ReplaceAll, List.mem_map] at hm
  obtain ⟨c, hc, he⟩ := hm
  by_cases h47 : c = 47
  · rw [if_pos h47] at he
    exact hx he.symm
  · rw [if_neg h47] at he
    exact h (he ▸ hc)

theorem takeWhile_of_not_mem {s : GoString} {x : Nat} (h : x ∉ s) :
    s.takeWhile (fun c => c ≠ x) = s := by
  rw [List.takeWhile_eq_self_iff]
  intro c hc
  have : c ≠ x := fun e => h (e ▸ hc)
  simpa using this

theorem dropWhile_of_not_mem {s : GoString} {x : Nat} (h : x ∉ s) :
    s.dropWhile (fun c => c ≠ x) = [] := by
  rw [List.dropWhile_eq_nil_iff]
  intro c hc
  have : c ≠ x := fun e => h (e ▸ hc)
  simpa using this

theorem takeWhile_append_sep {s : GoString} {x : Nat} (h : x ∉ s) (r : GoString) :
    (s ++ x :: r).takeWhile (fun c => c ≠ x) = s := by
  induction s with
  | nil => simp [List.takeWhile]
  | cons c s ih =>
    have hc : c ≠ x := fun e => h (by simp [e])
    have hs : x ∉ s := fun e => h (List.mem_cons_of_mem _ e)
    rw [List.cons_append, List.takeWhile_cons, if_pos (by simpa using hc), ih hs]

theorem dropWhile_append_sep {s : GoString} {x : Nat} (h : x ∉ s) (r : GoString) :
    (s ++ x :: r).dropWhile (fun c => c ≠ x) = x :: r := by
  induction s with
  | nil => simp [List.dropWhile]
  | cons c s ih =>
    have hc : c ≠ x := fun e => h (by simp [e])
    have hs : x ∉ s := fun e => h (List.mem_cons_of_mem _ e)
    rw [List.cons_append, List.dropWhile_cons, if_pos (by simpa using hc), ih hs]

/-- An input without space: the whole input is the date part and the time
part is the default. -/
theorem parts_of_no_space {input : GoString} (h : 32 ∉ input) :
    datePart input = strings.ReplaceAll input 47 45 ∧
      timePart input = utf8 "00:00:00.000000" := by
  have h1 := not_mem_ReplaceAll (by decide) h
  unfold datePart timePart
  rw [takeWhile_of_not_mem h1, dropWhile_of_not_mem h1]
  exact ⟨rfl, rfl⟩

/-- An input with a space: the date part stands before the first space, the
time part between the first and the second. -/
theorem parts_of_space {d t : GoString} (hd : 32 ∉ d) (ht : 32 ∉ t) :
    datePart (d ++ 32 :: t) = strings.ReplaceAll d 47 45 ∧
      timePart (d ++ 32 :: t) = strings.ReplaceAll t 47 45 := by
  have h1 := not_mem_ReplaceAll (by decide) hd
  have h2 := not_mem_ReplaceAll (by decide) ht
  unfold datePart timePart
  rw [ReplaceAll_append, ReplaceAll_cons, if_neg (by decide), takeWhile_append_sep h1,
    dropWhile_append_sep h1]
  simp only
  rw [takeWhile_of_not_mem h2]
  simp

theorem not_nullish_of_digit {c : Nat} (s : GoString) (h1 : 48 ≤ c) (h2 : c ≤ 57) :
    ¬ Nullish (c :: s) := by
  rintro (h | h | h | h | h)
  · simp at h
  · cases h with
    | one _ _ ha _ =>
      simp [strings.asciiSpace] at ha
      omega
    | two _ b _ hab _ =>
      simp [strings.space2] at hab
      omega
    | three _ b d _ habc _ =>
      simp [strings.space3] at habc
      omega
  · simp at h
    omega
  · simp at h
    omega
  · simp at h
    omega

/-- The result on an input whose date part has the three components `a`, `b`, `c`. -/
theorem result_of_components {input a b c : GoString} (hn : ¬ Nullish input)
    (hs : strings.Split (datePart input) 45 = [a, b, c]) :
    stringToPgTimestamp input = some
      (match time.Parse (canonical a b c (timePart input)) with
       | some t => ⟨t, 0, true⟩
       | none => pgtype.Timestamp.zero) := by
  rw [stringToPgTimestamp_eq, (NotNull_eq_true_iff input).mpr hn, hs]
  simp

theorem Split_three {a b c : GoString} (ha : 45 ∉ a) (hb : 45 ∉ b) (hc : 45 ∉ c) :
    strings.Split (a ++ 45 :: (b ++ 45 :: c)) 45 = [a, b, c] := by
  rw [strings.Split_append ha, strings.Split_append hb, strings.Split_of_not_mem hc]

theorem digits2_mem {n x : Nat} (hn : n < 100) (h : x ∈ digits2 n) : 48 ≤ x ∧ x ≤ 57 := by
  simp only [digits2, List.mem_cons, List.mem_singleton, List.not_mem_nil, or_false] at h
  omega

theorem digits4_mem {n x : Nat} (hn : n < 10000) (h : x ∈ digits4 n) : 48 ≤ x ∧ x ≤ 57 := by
  simp only [digits4, List.mem_cons, List.mem_singleton, List.not_mem_nil, or_false] at h
  omega

theorem oneOrTwoDigits_mem {n x : Nat} {ds : GoString} (hn : n < 100)
    (hds : ds ∈ oneOrTwoDigits n) (h : x ∈ ds) : 48 ≤ x ∧ x ≤ 57 := by
  unfold oneOrTwoDigits at hds
  split_ifs at hds with hn1
  · simp only [List.mem_cons, List.mem_singleton, List.not_mem_nil, or_false] at hds
    rcases hds with rfl | rfl
    · simp only [List.mem_singleton] at h
      omega
    · exact digits2_mem hn h
  · simp only [List.mem_singleton] at hds
    subst hds
    exact digits2_mem hn h

theorem zeroPadded_oneOrTwoDigits {n : Nat} {ds : GoString} (hds : ds ∈ oneOrTwoDigits n) :
    zeroPadded ds = digits2 n := by
  unfold oneOrTwoDigits at hds
  split_ifs at hds with hn
  · simp only [List.mem_cons, List.mem_singleton, List.not_mem_nil, or_false] at hds
    rcases hds with rfl | rfl
    · have h1 : n / 10 = 0 := by omega
      have h2 : n % 10 = n := by omega
      simp [zeroPadded, digits2, h1, h2]
    · simp [zeroPadded, digits2]
  · simp only [List.mem_singleton] at hds
    subst hds
    simp [zeroPadded, digits2]

theorem oneOrTwoDigits_ne_nil {n : Nat} {ds : GoString} (hn : n < 100)
    (hds : ds ∈ oneOrTwoDigits n) :
    ∃ c s, ds = c :: s ∧ 48 ≤ c ∧ c ≤ 57 := by
  rcases ds with _ | ⟨c, s⟩
  · unfold oneOrTwoDigits at hds
    split_ifs at hds <;> simp [digits2] at hds
  · exact ⟨c, s, rfl, oneOrTwoDigits_mem hn hds (by simp)⟩

theorem yearExpanded_digits2 (yy : Nat) (h : yy < 100) :
    yearExpanded (digits2 yy) = digits4 (2000 + yy) := by
  have h1 : (2000 + yy) / 1000 = 2 := by omega
  have h2 : (2000 + yy) / 100 % 10 = 0 := by omega
  have h3 : (2000 + yy) / 10 % 10 = yy / 10 := by omega
  have h4 : (2000 + yy) % 10 = yy % 10 := by omega
  simp [yearExpanded, digits2, digits4, h1, h2, h3, h4]

theorem sixFraction_midnight :
    sixFraction (utf8 "00:00:00.000000") =
      digits2 0 ++ 58 :: (digits2 0 ++ 58 :: (digits2 0 ++ 46 :: digits6 0)) := by
  decide

theorem Parse_canonical_digits {a b c t : GoString} {Y M D h m s f : Nat}
    (hc : yearExpanded c = digits4 Y) (hb : zeroPadded b = digits2 M)
    (ha : zeroPadded a = digits2 D)
    (ht : sixFraction t = digits2 h ++ 58 :: (digits2 m ++ 58 :: (digits2 s ++ 46 :: digits6 f)))
    (hY : Y < 10000) (hMD : validDate Y M D) (hh : h < 24) (hm : m < 60) (hs : s < 60)
    (hf : f < 1000000) :
    time.Parse (canonical a b c t) = some ⟨Y, M, D, h, m, s, f * 1000⟩ := by
  have e : canonical a b c t = digits4 Y ++ 45 :: (digits2 M ++ 45 :: (digits2 D ++
      32 :: (digits2 h ++ 58 :: (digits2 m ++ 58 :: (digits2 s ++ 46 :: digits6 f))))) := by
    simp [canonical, hc, hb, ha, ht]
  rw [e]
  exact time.Parse_digits hY hMD hh hm hs hf

theorem sep_replaced {sep : Nat} (h : sep = 47 ∨ sep = 45) : (if sep = 47 then 45 else sep) = 45 := by
  rcases h with rfl | rfl <;> rfl

theorem not_mem_of_digits {s : GoString} {x : Nat} (hx : x < 48 ∨ 57 < x)
    (h : ∀ c ∈ s, 48 ≤ c ∧ c ≤ 57) : x ∉ s := by
  intro hm
  have := h x hm
  omega

/-! ## The claims -/

/-- C1: for every input string, `stringToPgTimestamp`, reached through
`SetTimestampField` on a string, returns a value and does not panic: the
string `final` is built with every index and slice in bounds (the fraction
step returns for every time part), and the value returned is either
`Valid=false` or the parse of that string with `Valid=true`. -/
theorem C1_never_panics (input : GoString) :
    ∃ ts, SetTimestampField (GoAny.str input) = some ts ∧
      stringToPgTimestamp input = some ts ∧
      (∃ f, finalString input = some f) ∧
      (∀ t, ∃ r, fractionPart t = some r) ∧
      (ts.Valid = false ∨
        ∃ final t, finalString input = some (some final) ∧ time.Parse final = some t ∧
          ts = ⟨t, 0, true⟩) := by
  have hf := finalString_eq input
  have hfrac : ∀ t, ∃ r, fractionPart t = some r := fun t => ⟨_, fractionPart_eq t⟩
  unfold SetTimestampField
  simp only
  unfold stringToPgTimestamp
  by_cases hn : funcvx.NotNull input = true
  · rw [hn, hf]
    simp only [Bool.not_true, Bool.false_eq_true, if_false]
    rcases hs : strings.Split (datePart input) 45 with _ | ⟨a, _ | ⟨b, _ | ⟨c, _ | ⟨d, l⟩⟩⟩⟩
    · exact ⟨_, rfl, rfl, ⟨_, rfl⟩, hfrac, Or.inl rfl⟩
    · exact ⟨_, rfl, rfl, ⟨_, rfl⟩, hfrac, Or.inl rfl⟩
    · exact ⟨_, rfl, rfl, ⟨_, rfl⟩, hfrac, Or.inl rfl⟩
    · simp only
      cases hp : time.Parse (canonical a b c (timePart input)) with
      | none => exact ⟨_, rfl, rfl, ⟨_, rfl⟩, hfrac, Or.inl rfl⟩
      | some t => exact ⟨_, rfl, rfl, ⟨_, rfl⟩, hfrac, Or.inr ⟨_, t, rfl, hp, rfl⟩⟩
    · exact ⟨_, rfl, rfl, ⟨_, rfl⟩, hfrac, Or.inl rfl⟩
  · have hn1 : funcvx.NotNull input = false := by simpa using hn
    rw [hn1, hf]
    exact ⟨_, rfl, rfl, ⟨_, rfl⟩, hfrac, Or.inl rfl⟩

/-- C2: for every string that is empty, white space only, or exactly `"null"`,
`"NULL"` or `"nil"`, `stringToPgTimestamp` returns `Valid=false`. -/
theorem C2_nullish_invalid (s : GoString) (h : Nullish s) :
    ∃ ts, stringToPgTimestamp s = some ts ∧ ts.Valid = false := by
  have hn := (NotNull_eq_false_iff s).mpr h
  exact ⟨_, by rw [stringToPgTimestamp_eq, hn], rfl⟩

/-- Witness of C2 at the one-space string. -/
theorem C2_nullish_invalid_witness :
    Nullish (utf8 " ") ∧ ∃ ts, stringToPgTimestamp (utf8 " ") = some ts ∧ ts.Valid = false :=
  ⟨Or.inr (Or.inl (WhiteSpace.one 32 [] (by decide) WhiteSpace.nil)),
    C2_nullish_invalid (utf8 " ")
      (Or.inr (Or.inl (WhiteSpace.one 32 [] (by decide) WhiteSpace.nil)))⟩

/-- C4: for every calendar-valid day `d` and month `m`, each written with one
or two digits, and every two-digit year `yy`, the date-only input `d/m/yy`
(each separator `/` or `-`) gives `Valid=true` with the instant year
`2000+yy`, month `m`, day `d` at 00:00:00. -/
theorem C4_day_month_short_year (d m yy sep1 sep2 : Nat) (ds ms : GoString)
    (hyy : yy < 100) (hdate : validDate (2000 + yy) m d)
    (hds : ds ∈ oneOrTwoDigits d) (hms : ms ∈ oneOrTwoDigits m)
    (hsep1 : sep1 = 47 ∨ sep1 = 45) (hsep2 : sep2 = 47 ∨ sep2 = 45) :
    stringToPgTimestamp (ds ++ sep1 :: (ms ++ sep2 :: digits2 yy)) =
      some ⟨⟨2000 + yy, m, d, 0, 0, 0, 0⟩, 0, true⟩ := by
  have hm100 : m < 100 := by
    have := hdate.2.1
    omega
  have hd100 : d < 100 := by
    have h1 := hdate.2.2.2
    have : time.daysIn m (2000 + yy) ≤ 31 := by
      unfold time.daysIn
      split_ifs <;> omega
    omega
  have dds : ∀ c ∈ ds, 48 ≤ c ∧ c ≤ 57 := fun c hc => oneOrTwoDigits_mem hd100 hds hc
  have dms : ∀ c ∈ ms, 48 ≤ c ∧ c ≤ 57 := fun c hc => oneOrTwoDigits_mem hm100 hms hc
  have dyy : ∀ c ∈ digits2 yy, 48 ≤ c ∧ c ≤ 57 := fun c hc => digits2_mem hyy hc
  have hs1 : sep1 ≠ 32 := by omega
  have hs2 : sep2 ≠ 32 := by omega
  have hno32 : 32 ∉ ds ++ sep1 :: (ms ++ sep2 :: digits2 yy) := by
    simp only [List.mem_append, List.mem_cons, not_or]
    exact ⟨not_mem_of_digits (by omega) dds, fun e => hs1 e.symm,
      not_mem_of_digits (by omega) dms, fun e => hs2 e.symm, not_mem_of_digits (by omega) dyy⟩
  obtain ⟨hdp, htp⟩ := parts_of_no_space hno32
  have hdp2 : datePart (ds ++ sep1 :: (ms ++ sep2 :: digits2 yy)) =
      ds ++ 45 :: (ms ++ 45 :: digits2 yy) := by
    rw [hdp, ReplaceAll_append, ReplaceAll_cons, ReplaceAll_append, ReplaceAll_cons,
      sep_replaced hsep1, sep_replaced hsep2,
      ReplaceAll_of_not_mem (not_mem_of_digits (by omega) dds),
      ReplaceAll_of_not_mem (not_mem_of_digits (by omega) dms),
      ReplaceAll_of_not_mem (not_mem_of_digits (by omega) dyy)]
  obtain ⟨c0, s0, hcs, hc1, hc2⟩ := oneOrTwoDigits_ne_nil hd100 hds
  have hnn : ¬ Nullish (ds ++ sep1 :: (ms ++ sep2 :: digits2 yy)) := by
    rw [hcs, List.cons_append]
    exact not_nullish_of_digit _ hc1 hc2
  have hsplit : strings.Split (datePart (ds ++ sep1 :: (ms ++ sep2 :: digits2 yy))) 45 =
      [ds, ms, digits2 yy] := by
    rw [hdp2]
    exact Split_three (not_mem_of_digits (by omega) dds) (not_mem_of_digits (by omega) dms)
      (not_mem_of_digits (by omega) dyy)
  rw [result_of_components hnn hsplit, htp,
    Parse_canonical_digits (yearExpanded_digits2 yy hyy) (zeroPadded_oneOrTwoDigits hms)
      (zeroPadded_oneOrTwoDigits hds) sixFraction_midnight (by omega) hdate (by omega)
      (by omega) (by omega) (by omega)]

/-- Witness of C4 at `"2/1/24"`. -/
theorem C4_day_month_short_year_witness :
    validDate 2024 1 2 ∧
      stringToPgTimestamp (utf8 "2/1/24") = some ⟨⟨2024, 1, 2, 0, 0, 0, 0⟩, 0, true⟩ :=
  ⟨by decide,
    C4_day_month_short_year 2 1 24 47 47 [50] [49] (by decide) (by decide) (by decide)
      (by decide) (by decide) (by decide)⟩

/-- C5: for every input `DD/MM/YYYY HH:MM:SS` (each date separator `/` or
`-`) naming a real calendar date and a time from 00:00:00 to 23:59:59,
`stringToPgTimestamp` returns `Valid=true` with the instant
`YYYY-MM-DD HH:MM:SS` and no sub-second part: the first component is the day,
the second the month. -/
theorem C5_day_month_year_time (D M Y h mi s sep1 sep2 : Nat)
    (hY : Y < 10000) (hdate : validDate Y M D) (hh : h < 24) (hmi : mi < 60) (hs : s < 60)
    (hsep1 : sep1 = 47 ∨ sep1 = 45) (hsep2 : sep2 = 47 ∨ sep2 = 45) :
    stringToPgTimestamp ((digits2 D ++ sep1 :: (digits2 M ++ sep2 :: digits4 Y)) ++
      32 :: (digits2 h ++ 58 :: (digits2 mi ++ 58 :: digits2 s))) =
      some ⟨⟨Y, M, D, h, mi, s, 0⟩, 0, true⟩ := by
  have hM100 : M < 100 := by
    have := hdate.2.1
    omega
  have hD100 : D < 100 := by
    have h1 := hdate.2.2.2
    have : time.daysIn M Y ≤ 31 := by
      unfold time.daysIn
      split_ifs <;> omega
    omega
  have dD : ∀ c ∈ digits2 D, 48 ≤ c ∧ c ≤ 57 := fun c hc => digits2_mem hD100 hc
  have dM : ∀ c ∈ digits2 M, 48 ≤ c ∧ c ≤ 57 := fun c hc => digits2_mem hM100 hc
  have dY : ∀ c ∈ digits4 Y, 48 ≤ c ∧ c ≤ 57 := fun c hc => digits4_mem hY hc
  have dh : ∀ c ∈ digits2 h, 48 ≤ c ∧ c ≤ 57 := fun c hc => digits2_mem (by omega) hc
  have dmi : ∀ c ∈ digits2 mi, 48 ≤ c ∧ c ≤ 57 := fun c hc => digits2_mem (by omega) hc
  have ds : ∀ c ∈ digits2 s, 48 ≤ c ∧ c ≤ 57 := fun c hc => digits2_mem (by omega) hc
  have hs1 : sep1 ≠ 32 := by omega
  have hs2 : sep2 ≠ 32 := by omega
  have hclock : ∀ x, (x < 48 ∨ 58 < x) →
      x ∉ digits2 h ++ 58 :: (digits2 mi ++ 58 :: digits2 s) := by
    intro x hx
    simp only [List.mem_append, List.mem_cons, not_or]
    exact ⟨not_mem_of_digits (by omega) dh, by omega, not_mem_of_digits (by omega) dmi,
      by omega, not_mem_of_digits (by omega) ds⟩
  have hd32 : 32 ∉ digits2 D ++ sep1 :: (digits2 M ++ sep2 :: digits4 Y) := by
    simp only [List.mem_append, List.mem_cons, not_or]
    exact ⟨not_mem_of_digits (by omega) dD, fun e => hs1 e.symm,
      not_mem_of_digits (by omega) dM, fun e => hs2 e.symm, not_mem_of_digits (by omega) dY⟩
  obtain ⟨hdp, htp⟩ := parts_of_space hd32 (hclock 32 (by omega))
  rw [ReplaceAll_of_not_mem (hclock 47 (by omega))] at htp
  rw [ReplaceAll_append, ReplaceAll_cons, ReplaceAll_append, ReplaceAll_cons,
      sep_replaced hsep1, sep_replaced hsep2,
      ReplaceAll_of_not_mem (not_mem_of_digits (by omega) dD),
      ReplaceAll_of_not_mem (not_mem_of_digits (by omega) dM),
      ReplaceAll_of_not_mem (not_mem_of_digits (by omega) dY)] at hdp
  have hnn : ¬ Nullish ((digits2 D ++ sep1 :: (digits2 M ++ sep2 :: digits4 Y)) ++
      32 :: (digits2 h ++ 58 :: (digits2 mi ++ 58 :: digits2 s))) := by
    have : digits2 D = (48 + D / 10) :: [48 + D % 10] := rfl
    rw [this, List.cons_append, List.cons_append]
    exact not_nullish_of_digit _ (by omega) (by omega)
  have hsplit : strings.Split (datePart ((digits2 D ++ sep1 :: (digits2 M ++ sep2 :: digits4 Y))
      ++ 32 :: (digits2 h ++ 58 :: (digits2 mi ++ 58 :: digits2 s)))) 45 =
      [digits2 D, digits2 M, digits4 Y] := by
    rw [hdp]
    exact Split_three (not_mem_of_digits (by omega) dD) (not_mem_of_digits (by omega) dM)
      (not_mem_of_digits (by omega) dY)
  have hfrac : sixFraction (digits2 h ++ 58 :: (digits2 mi ++ 58 :: digits2 s)) =
      digits2 h ++ 58 :: (digits2 mi ++ 58 :: (digits2 s ++ 46 :: digits6 0)) := by
    rw [sixFraction_of_not_mem (hclock 46 (by omega))]
    simp [digits6]
  rw [result_of_components hnn hsplit, htp,
    Parse_canonical_digits (by simp [yearExpanded, digits4]) (by simp [zeroPadded, digits2])
      (by simp [zeroPadded, digits2]) hfrac hY hdate hh hmi hs (by omega)]

/-- Witness of C5 at `"02/01/2024 15:04:05"`. -/
theorem C5_day_month_year_time_witness :
    validDate 2024 1 2 ∧
      stringToPgTimestamp (utf8 "02/01/2024 15:04:05") =
        some ⟨⟨2024, 1, 2, 15, 4, 5, 0⟩, 0, true⟩ :=
  ⟨by decide,
    C5_day_month_year_time 2 1 2024 15 4 5 47 47 (by decide) (by decide) (by decide)
      (by decide) (by decide) (by decide) (by decide)⟩

/-- C6: the fraction step on every time part `t`. Without a `.`, `".000000"` is
appended. With one, `t` is `whole . frac rest` where `whole` and `frac` have no
`.` and `rest` is empty or starts at the second `.`; the result is `whole`, a
`.`, and `frac` right-padded with `0` when shorter than six bytes, cut to its
first six otherwise. In both cases the result ends in a `.` followed by exactly
six bytes. The input `"02-01-2024 15:04:05.1"` gives `Valid=true` with
100000 microseconds. -/
theorem C6_fraction_six (t : GoString) :
    (46 ∉ t → fractionPart t = some (t ++ utf8 ".000000")) ∧
    (46 ∈ t → ∃ whole frac rest, t = whole ++ 46 :: (frac ++ rest) ∧ 46 ∉ whole ∧ 46 ∉ frac ∧
      (rest = [] ∨ rest.head? = some 46) ∧
      fractionPart t = some (whole ++ 46 ::
        (if frac.length < 6 then frac ++ List.replicate (6 - frac.length) 48
         else frac.take 6))) ∧
    (∃ pre six, fractionPart t = some (pre ++ 46 :: six) ∧ six.length = 6) ∧
    stringToPgTimestamp (utf8 "02-01-2024 15:04:05.1") =
      some ⟨⟨2024, 1, 2, 15, 4, 5, 100000 * 1000⟩, 0, true⟩ := by
  refine ⟨?_, ?_, ?_, by decide⟩
  · intro h
    rw [fractionPart_eq, sixFraction, if_neg h]
  · intro h
    obtain ⟨r, hr⟩ := strings.dropWhile_ne_of_mem h
    refine ⟨t.takeWhile (fun c => c ≠ 46), r.takeWhile (fun c => c ≠ 46),
      r.dropWhile (fun c => c ≠ 46), ?_, ?_, ?_, ?_, ?_⟩
    · rw [List.takeWhile_append_dropWhile, ← hr, List.takeWhile_append_dropWhile]
    · intro hm
      have := List.mem_takeWhile_imp hm
      simp at this
    · intro hm
      have := List.mem_takeWhile_imp hm
      simp at this
    · rcases hd : r.dropWhile (fun c => c ≠ 46) with _ | ⟨x, l⟩
      · exact Or.inl hd
      · right
        have := List.head_dropWhile_not (fun c => decide (c ≠ 46)) r
          (by rw [hd]; simp)
        simp only [hd, List.head_cons] at this
        simp at this
        rw [hd, List.head?_cons, this]
    · rw [fractionPart_eq, sixFraction, if_pos h]
      simp only [hr, List.drop_one, List.tail_cons, utf8_dot, List.append_assoc,
        List.singleton_append]
      congr 3
      split_ifs with hl
      · rw [List.take_of_length_le]
        simp only [List.length_append, List.length_replicate]
        omega
      · have : 6 - (r.takeWhile (fun c => c ≠ 46)).length = 0 := by omega
        rw [this]
        simp
  · rw [fractionPart_eq, sixFraction]
    split_ifs with h
    · obtain ⟨frac, hfrac⟩ : ∃ f : GoString,
          f = ((t.dropWhile fun c => c ≠ 46).drop 1).takeWhile fun c => c ≠ 46 := ⟨_, rfl⟩
      refine ⟨t.takeWhile (fun c => c ≠ 46),
        (frac ++ List.replicate (6 - frac.length) 48).take 6, ?_, ?_⟩
      · simp [hfrac]
      · simp only [List.length_take, List.length_append, List.length_replicate]
        omega
    · exact ⟨t, [48, 48, 48, 48, 48, 48], by simp, rfl⟩

/-- Witness of C6 at the time part `"15:04:05"`, which has no `.`. -/
theorem C6_fraction_six_witness :
    fractionPart (utf8 "15:04:05") = some (utf8 "15:04:05" ++ utf8 ".000000") :=
  (C6_fraction_six (utf8 "15:04:05")).1 (by decide)

/-! ## Lemmas: what `time.Parse` accepts -/

namespace time

theorem leadingInt_digits {s : GoString} :
    ∀ {x q : Nat}, leadingInt x s = some (q, []) → ∀ c ∈ s, 48 ≤ c ∧ c ≤ 57 := by
  induction s with
  | nil => intro x q _ c hc; simp at hc
  | cons d s ih =>
    intro x q h c hc
    rw [leadingInt] at h
    by_cases hd : d < 48 ∨ d > 57
    · rw [if_pos hd] at h
      simp at h
    · rw [if_neg hd] at h
      split_ifs at h
      rcases List.mem_cons.mp hc with rfl | hc1
      · omega
      · exact ih h c hc1

theorem atoi_digits {s : GoString} {v : Int} (h0 : isDigit s 0 = true) (h : atoi s = some v) :
    ∀ c ∈ s, 48 ≤ c ∧ c ≤ 57 := by
  rcases s with _ | ⟨d, s⟩
  · simp [isDigit] at h0
  · have hd : 48 ≤ d ∧ d ≤ 57 := by simpa [isDigit] using h0
    have h45 : d ≠ 45 := by omega
    have h43 : d ≠ 43 := by omega
    simp only [atoi, List.head?_cons, Option.some.injEq, h45, h43, or_self, if_false] at h
    cases hl : leadingInt 0 (d :: s) with
    | none => simp [hl] at h
    | some p =>
      obtain ⟨q, rem⟩ := p
      rcases rem with _ | ⟨r, rem⟩
      · exact leadingInt_digits hl
      · simp [hl] at h

theorem getnum_fixed_inv {v r : GoString} {n : Nat} (h : getnum v true = some (n, r)) :
    ∃ x y, v = (48 + x) :: (48 + y) :: r ∧ x ≤ 9 ∧ y ≤ 9 ∧ n = x * 10 + y := by
  rcases v with _ | ⟨a, _ | ⟨b, v⟩⟩
  · simp [getnum, isDigit] at h
  · simp [getnum, isDigit] at h
  · by_cases ha : 48 ≤ a ∧ a ≤ 57
    · by_cases hb : 48 ≤ b ∧ b ≤ 57
      · simp [getnum, isDigit, ha, hb] at h
        refine ⟨a - 48, b - 48, ?_, by omega, by omega, by omega⟩
        have e1 : 48 + (a - 48) = a := by omega
        have e2 : 48 + (b - 48) = b := by omega
        rw [e1, e2, h.2]
      · simp [getnum, isDigit, ha, hb] at h
    · simp [getnum, isDigit, ha] at h

theorem skip_inv {v r : GoString} {p : Nat} (hp : p ≠ 32) (h : skip v p = some r) :
    v = p :: r := by
  rcases v with _ | ⟨a, v⟩
  · simp [skip, hp] at h
  · by_cases ha : a = p
    · simp [skip, hp, ha] at h
      rw [ha, h]
    · simp [skip, hp, ha] at h

theorem skip_space_inv {v r : GoString} (h : skip v 32 = some r) :
    v = [] ∨ ∃ w, v = 32 :: w := by
  rcases v with _ | ⟨a, v⟩
  · exact Or.inl rfl
  · by_cases ha : a = 32
    · exact Or.inr ⟨v, by rw [ha]⟩
    · simp [skip, ha] at h

/-- The shape of a value whose date chunks parse: four digits, `-`, two
digits between 01 and 12, `-`, two digits. -/
theorem parseDateChunks_inv {v rest : GoString} {y m d : Nat}
    (h : parseDateChunks v = some (y, m, d, rest)) :
    ∃ Y M D, v = digits4 Y ++ 45 :: (digits2 M ++ 45 :: (digits2 D ++ rest)) ∧
      Y < 10000 ∧ M < 100 ∧ D < 100 ∧ y = Y ∧ m = M ∧ d = D ∧ 1 ≤ M ∧ M ≤ 12 := by
  unfold parseDateChunks at h
  split_ifs at h with h1
  simp only [not_or, not_lt, Bool.not_eq_true, Bool.not_eq_false'] at h1
  obtain ⟨hlen, hdig⟩ := h1
  rcases v with _ | ⟨y1, _ | ⟨y2, _ | ⟨y3, _ | ⟨y4, v4⟩⟩⟩⟩
  · simp at hlen
  · simp at hlen
  · simp at hlen
  · simp at hlen
  · simp only [List.take_succ_cons, List.take_zero, List.drop_succ_cons, List.drop_zero] at h
    cases ha : atoi [y1, y2, y3, y4] with
    | none => simp [ha] at h
    | some year =>
      have hd4 := atoi_digits (by simpa [isDigit] using hdig) ha
      have d1 := hd4 y1 (by simp)
      have d2 := hd4 y2 (by simp)
      have d3 := hd4 y3 (by simp)
      have d4 := hd4 y4 (by simp)
      have e1 : y1 = 48 + (y1 - 48) := by omega
      have e2 : y2 = 48 + (y2 - 48) := by omega
      have e3 : y3 = 48 + (y3 - 48) := by omega
      have e4 : y4 = 48 + (y4 - 48) := by omega
      have hv := atoi_four (a := y1 - 48) (b := y2 - 48) (c := y3 - 48) (d := y4 - 48)
        (by omega) (by omega) (by omega) (by omega)
      rw [← e1, ← e2, ← e3, ← e4, ha] at hv
      simp only [ha] at h
      cases hs1 : skip v4 45 with
      | none => simp [hs1] at h
      | some v5 =>
        have hv4 := skip_inv (by decide) hs1
        simp only [hs1] at h
        cases hg1 : getnum v5 true with
        | none => simp [hg1] at h
        | some p1 =>
          obtain ⟨month, v6⟩ := p1
          obtain ⟨m1, m2, hv5, hm1, hm2, hmonth⟩ := getnum_fixed_inv hg1
          simp only [hg1] at h
          split_ifs at h with hr
          cases hs2 : skip v6 45 with
          | none => simp [hs2] at h
          | some v7 =>
            have hv6 := skip_inv (by decide) hs2
            simp only [hs2] at h
            cases hg2 : getnum v7 true with
            | none => simp [hg2] at h
            | some p2 =>
              obtain ⟨day, v8⟩ := p2
              obtain ⟨x1, x2, hv7, hx1, hx2, hday⟩ := getnum_fixed_inv hg2
              simp only [hg2, Option.some.injEq, Prod.mk.injEq] at h
              obtain ⟨hy, hm, hd, hrest⟩ := h
              refine ⟨1000 * (y1 - 48) + 100 * (y2 - 48) + 10 * (y3 - 48) + (y4 - 48),
                m1 * 10 + m2, x1 * 10 + x2, ?_, by omega, by omega, by omega, ?_, by omega,
                by omega, by omega, by omega⟩
              · have q1 : (1000 * (y1 - 48) + 100 * (y2 - 48) + 10 * (y3 - 48) + (y4 - 48)) / 1000
                    = y1 - 48 := by omega
                have q2 : (1000 * (y1 - 48) + 100 * (y2 - 48) + 10 * (y3 - 48) + (y4 - 48)) / 100
                    % 10 = y2 - 48 := by omega
                have q3 : (1000 * (y1 - 48) + 100 * (y2 - 48) + 10 * (y3 - 48) + (y4 - 48)) / 10
                    % 10 = y3 - 48 := by omega
                have q4 : (1000 * (y1 - 48) + 100 * (y2 - 48) + 10 * (y3 - 48) + (y4 - 48)) % 10
                    = y4 - 48 := by omega
                have q5 : (m1 * 10 + m2) / 10 = m1 := by omega
                have q6 : (m1 * 10 + m2) % 10 = m2 := by omega
                have q7 : (x1 * 10 + x2) / 10 = x1 := by omega
                have q8 : (x1 * 10 + x2) % 10 = x2 := by omega
                simp only [digits4, digits2, q1, q2, q3, q4, q5, q6, q7, q8, List.cons_append,
                  List.nil_append]
                rw [← e1, ← e2, ← e3, ← e4, hv4, hv5, hv6, hv7, hrest]
              · rw [← hy, Option.some.inj hv]
                exact Int.toNat_ofNat _

/-- The clock chunks start with the space of the layout. -/
theorem parseClockChunks_inv {v : GoString} {r : Nat × Nat × Nat × Nat}
    (h : parseClockChunks v = some r) : ∃ w, v = 32 :: w := by
  unfold parseClockChunks at h
  cases hs : skip v 32 with
  | none => simp [hs] at h
  | some v1 =>
    rcases skip_space_inv hs with rfl | hw
    · simp [skip, getnum, isDigit] at h
    · exact hw

/-- The shape of a value that parses: a date `YYYY-MM-DD` of digits naming a
day of the calendar, and then a space. -/
theorem Parse_inv {v : GoString} {t : Time} (h : Parse v = some t) :
    ∃ Y M D w, v = digits4 Y ++ 45 :: (digits2 M ++ 45 :: (digits2 D ++ 32 :: w)) ∧
      Y < 10000 ∧ M < 100 ∧ D < 100 ∧ validDate Y M D ∧
      t.year = Y ∧ t.month = M ∧ t.day = D := by
  unfold Parse at h
  cases hd : parseDateChunks v with
  | none => simp [hd] at h
  | some p =>
    obtain ⟨y, m, d, rest⟩ := p
    obtain ⟨Y, M, D, hv, hY, hM, hD, rfl, rfl, rfl, hM1, hM2⟩ := parseDateChunks_inv hd
    simp only [hd] at h
    cases hc : parseClockChunks rest with
    | none => simp [hc] at h
    | some q =>
      obtain ⟨hh, mi, ss, ns⟩ := q
      obtain ⟨w, hw⟩ := parseClockChunks_inv hc
      simp only [hc] at h
      split_ifs at h with hr
      simp only [Option.some.injEq] at h
      refine ⟨y, m, d, w, by rw [hv, hw], hY, hM, hD, ⟨hM1, hM2, by omega, by omega⟩, ?_, ?_, ?_⟩
      · rw [← h]; rfl
      · rw [← h]; rfl
      · rw [← h]; rfl

end time

/-! ## Lemmas: the components of an accepted date -/

theorem append_sep_inj {X P R R2 : GoString} {sep : Nat} (hX : sep ∉ X) (hP : sep ∉ P)
    (h : X ++ sep :: R = P ++ sep :: R2) : X = P ∧ R = R2 := by
  have h1 := congrArg (fun l => l.takeWhile (fun c => c ≠ sep)) h
  have h2 := congrArg (fun l => l.dropWhile (fun c => c ≠ sep)) h
  simp only [takeWhile_append_sep hX, takeWhile_append_sep hP, dropWhile_append_sep hX,
    dropWhile_append_sep hP] at h1 h2
  exact ⟨h1, (List.cons.inj h2).2⟩

theorem mem_of_mem_Split {s : GoString} {sep x : Nat} :
    ∀ p ∈ strings.Split s sep, x ∈ p → x ∈ s := by
  induction s with
  | nil => simp [strings.Split]
  | cons c s ih =>
    intro p hp hx
    by_cases hc : c = sep
    · rw [strings.Split, if_pos hc] at hp
      rcases List.mem_cons.mp hp with h1 | h1
      · subst h1
        simp at hx
      · exact List.mem_cons_of_mem _ (ih p h1 hx)
    · rw [strings.Split, if_neg hc] at hp
      cases hsp : strings.Split s sep with
      | nil => exact absurd hsp (strings.Split_ne_nil s sep)
      | cons q qs =>
        rw [hsp] at hp ih
        simp only at hp
        rcases List.mem_cons.mp hp with h1 | h1
        · subst h1
          rcases List.mem_cons.mp hx with h2 | h2
          · simp [h2]
          · exact List.mem_cons_of_mem _ (ih q (by simp) h2)
        · exact List.mem_cons_of_mem _ (ih p (List.mem_cons_of_mem _ h1) hx)

theorem not_mem_datePart (input : GoString) : 32 ∉ datePart input := by
  intro h
  have := List.mem_takeWhile_imp h
  simp at this

theorem not_mem_zeroPadded {a : GoString} {x : Nat} (hx : x ≠ 48) (h : x ∉ a) :
    x ∉ zeroPadded a := by
  unfold zeroPadded
  split_ifs
  · simp [hx, h]
  · exact h

theorem not_mem_yearExpanded {a : GoString} {x : Nat} (hx : x ≠ 48) (hx2 : x ≠ 50) (h : x ∉ a) :
    x ∉ yearExpanded a := by
  unfold yearExpanded
  split_ifs
  · simp [hx, hx2, h]
  · exact h

theorem numeral2_digits2 {n : Nat} (h : n < 100) : numeral2 (digits2 n) = some n := by
  have h1 : 48 + n / 10 ≤ 57 := by omega
  have h2 : 48 + n % 10 ≤ 57 := by omega
  simp only [numeral2, digits2, h1, h2, Nat.le_add_right, and_self, if_true, Option.some.injEq]
  omega

theorem numeral4_digits4 {n : Nat} (h : n < 10000) : numeral4 (digits4 n) = some n := by
  have h1 : 48 + n / 1000 ≤ 57 := by omega
  have h2 : 48 + n / 100 % 10 ≤ 57 := by omega
  have h3 : 48 + n / 10 % 10 ≤ 57 := by omega
  have h4 : 48 + n % 10 ≤ 57 := by omega
  simp only [numeral4, digits4, h1, h2, h3, h4, Nat.le_add_right, and_self, if_true,
    Option.some.injEq, Nat.add_sub_cancel_left]
  have := time.digits4_value n
  omega

/-- When the canonical string parses, its date components are a four-digit
year, a two-digit month and a two-digit day of the calendar. -/
theorem components_of_Parse {a b c T : GoString} {t : Time}
    (ha : 45 ∉ a) (hb : 45 ∉ b) (hc : 45 ∉ c) (ha32 : 32 ∉ a)
    (hp : time.Parse (canonical a b c T) = some t) :
    ∃ Y M D, yearExpanded c = digits4 Y ∧ zeroPadded b = digits2 M ∧
      zeroPadded a = digits2 D ∧ Y < 10000 ∧ M < 100 ∧ D < 100 ∧ validDate Y M D ∧
      t.year = Y ∧ t.month = M ∧ t.day = D := by
  obtain ⟨Y, M, D, w, hv, hY, hM, hD, hvalid, hty, htm, htd⟩ := time.Parse_inv hp
  have e : canonical a b c T = yearExpanded c ++ 45 :: (zeroPadded b ++ 45 :: (zeroPadded a ++
      32 :: sixFraction T)) := by
    simp [canonical]
  rw [e] at hv
  have n1 : (45 : Nat) ∉ digits4 Y := fun h => by
    have := digits4_mem hY h
    omega
  have n2 : (45 : Nat) ∉ digits2 M := fun h => by
    have := digits2_mem hM h
    omega
  have n3 : (32 : Nat) ∉ digits2 D := fun h => by
    have := digits2_mem hD h
    omega
  obtain ⟨h1, r1⟩ := append_sep_inj
    (not_mem_yearExpanded (by decide) (by decide) hc) n1 hv
  obtain ⟨h2, r2⟩ := append_sep_inj (not_mem_zeroPadded (by decide) hb) n2 r1
  obtain ⟨h3, _⟩ := append_sep_inj (not_mem_zeroPadded (by decide) ha32) n3 r2
  exact ⟨Y, M, D, h1, h2, h3, hY, hM, hD, hvalid, hty, htm, htd⟩

/-! ## The claims, continued -/

/-- C3: for every input string, `stringToPgTimestamp` returns `Valid=true` if
and only if the input is not null-ish, its date part (every `/` replaced by
`-`) splits on `-` into exactly three components, and the canonical string
built from them (third-second-first, the first two zero-padded, a two-byte
third prefixed with `"20"`, the fraction brought to six bytes) parses against
the layout `"2006-01-02 15:04:05.000000"`; and when `Valid=true` the returned
`Time` is the time that parse yields. -/
theorem C3_valid_iff_canonical_parses (input : GoString) :
    ∃ ts, stringToPgTimestamp input = some ts ∧
      (ts.Valid = true ↔
        (¬ Nullish input ∧ ∃ a b c, strings.Split (datePart input) 45 = [a, b, c] ∧
          (time.Parse (canonical a b c (timePart input))).isSome = true)) ∧
      (ts.Valid = true →
        ∃ a b c, strings.Split (datePart input) 45 = [a, b, c] ∧
          time.Parse (canonical a b c (timePart input)) = some ts.Time) := by
  refine ⟨_, stringToPgTimestamp_eq input, ?_, ?_⟩
  · by_cases hn : funcvx.NotNull input = true
    · have hnn := (NotNull_eq_true_iff input).mp hn
      simp only [hn, if_true, hnn, not_false_eq_true, true_and]
      rcases hs : strings.Split (datePart input) 45 with _ | ⟨a, _ | ⟨b, _ | ⟨c, _ | ⟨d, l⟩⟩⟩⟩
      · simp [pgtype.Timestamp.zero]
      · simp [pgtype.Timestamp.zero]
      · simp [pgtype.Timestamp.zero]
      · cases hp : time.Parse (canonical a b c (timePart input)) with
        | none => simp [pgtype.Timestamp.zero, hp]
        | some t =>
          simp only [hp, true_iff]
          exact ⟨a, b, c, rfl, by rw [hp]; rfl⟩
      · simp [pgtype.Timestamp.zero]
    · have hnn : Nullish input := (NotNull_eq_false_iff input).mp (by simpa using hn)
      simp [hn, hnn, pgtype.Timestamp.zero]
  · by_cases hn : funcvx.NotNull input = true
    · simp only [hn, if_true]
      rcases hs : strings.Split (datePart input) 45 with _ | ⟨a, _ | ⟨b, _ | ⟨c, _ | ⟨d, l⟩⟩⟩⟩
      · simp [pgtype.Timestamp.zero]
      · simp [pgtype.Timestamp.zero]
      · simp [pgtype.Timestamp.zero]
      · cases hp : time.Parse (canonical a b c (timePart input)) with
        | none => simp [pgtype.Timestamp.zero, hp]
        | some t =>
          simp only [hp]
          intro _
          exact ⟨a, b, c, rfl, hp⟩
      · simp [pgtype.Timestamp.zero]
    · simp [hn, pgtype.Timestamp.zero]

/-- C9: for every input that is not null-ish and whose date part has exactly
three components, if the month (the second component) is not one of 01 to 12,
or the day (the first component) is not a day of that month in the year (the
third component), `stringToPgTimestamp` returns `Valid=false`. -/
theorem C9_bad_month_or_day_invalid (input a b c : GoString) (hn : ¬ Nullish input)
    (hs : strings.Split (datePart input) 45 = [a, b, c])
    (hbad : monthInRange b = false ∨ dayInMonth a b c = false) :
    ∃ ts, stringToPgTimestamp input = some ts ∧ ts.Valid = false := by
  refine ⟨_, result_of_components hn hs, ?_⟩
  cases hp : time.Parse (canonical a b c (timePart input)) with
  | none => rfl
  | some t =>
    exfalso
    have hmem : ∀ p ∈ strings.Split (datePart input) 45, 45 ∉ p ∧ 32 ∉ p := fun p hpm =>
      ⟨strings.not_mem_of_mem_Split p hpm,
        fun h32 => not_mem_datePart input (mem_of_mem_Split p hpm h32)⟩
    rw [hs] at hmem
    obtain ⟨Y, M, D, h1, h2, h3, hY, hM, hD, hvalid, _, _, _⟩ :=
      components_of_Parse (hmem a (by simp)).1 (hmem b (by simp)).1 (hmem c (by simp)).1
        (hmem a (by simp)).2 hp
    obtain ⟨v1, v2, v3, v4⟩ := hvalid
    rcases hbad with hb | hb
    · simp [monthInRange, h2, numeral2_digits2 hM, v1, v2] at hb
    · simp [dayInMonth, h1, h2, h3, numeral2_digits2 hM, numeral2_digits2 hD,
        numeral4_digits4 hY, v3, v4] at hb

/-- Witness of C9 at `"2024/13/40"`. -/
theorem C9_bad_month_or_day_invalid_witness :
    ∃ ts, stringToPgTimestamp (utf8 "2024/13/40") = some ts ∧ ts.Valid = false :=
  C9_bad_month_or_day_invalid (utf8 "2024/13/40") (utf8 "2024") (utf8 "13") (utf8 "40")
    ((NotNull_eq_true_iff _).mp (by decide)) (by decide) (Or.inl (by decide))

/-- C10: for every input on which `stringToPgTimestamp` fails, the cause is one
of three (the input is null-ish, the date part does not have three
components, the layout parse fails), each of the three makes it fail, and the
value returned is the same in all: `Valid=false` with the zero `Time`. -/
theorem C10_one_failure_value (input : GoString) (ts : pgtype.Timestamp)
    (hres : stringToPgTimestamp input = some ts) :
    (ts.Valid = false ↔
      (funcvx.NotNull input = false ∨ finalString input = some none ∨
        ∃ final, finalString input = some (some final) ∧ time.Parse final = none)) ∧
    (ts.Valid = false → ts = ⟨time.zero, 0, false⟩) := by
  unfold stringToPgTimestamp at hres
  by_cases hn : funcvx.NotNull input = true
  · simp only [hn, Bool.not_true, Bool.false_eq_true, if_false] at hres
    rcases hf : finalString input with _ | ⟨_ | final⟩
    · simp [hf] at hres
    · simp only [hf, Option.some.injEq] at hres
      subst hres
      simp [hn, pgtype.Timestamp.zero]
    · simp only [hf] at hres
      cases hp : time.Parse final with
      | none =>
        simp only [hp, Option.some.injEq] at hres
        subst hres
        simp [hn, pgtype.Timestamp.zero, hp]
      | some t =>
        simp only [hp, Option.some.injEq] at hres
        subst hres
        simp [hn, hp]
  · have hn1 : funcvx.NotNull input = false := by simpa using hn
    simp only [hn1, Bool.not_false, if_true, Option.some.injEq] at hres
    subst hres
    simp [hn1]

/-- Witness of C10 at `"2024/13/40"`, where the layout parse fails. -/
theorem C10_one_failure_value_witness :
    (pgtype.Timestamp.zero.Valid = false ↔
      (funcvx.NotNull (utf8 "2024/13/40") = false ∨
        finalString (utf8 "2024/13/40") = some none ∨
        ∃ final, finalString (utf8 "2024/13/40") = some (some final) ∧
          time.Parse final = none)) ∧
    (pgtype.Timestamp.zero.Valid = false → pgtype.Timestamp.zero = ⟨time.zero, 0, false⟩) :=
  C10_one_failure_value (utf8 "2024/13/40") pgtype.Timestamp.zero (by decide)

theorem sixFraction_six {w fr : GoString} (hw : 46 ∉ w) (hfr : 46 ∉ fr) (hlen : fr.length = 6) :
    sixFraction (w ++ 46 :: fr) = w ++ 46 :: fr := by
  have hmem : 46 ∈ w ++ 46 :: fr := by simp
  rw [sixFraction, if_pos hmem]
  simp only [takeWhile_append_sep hw, dropWhile_append_sep hw, List.drop_one, List.tail_cons,
    takeWhile_of_not_mem hfr, hlen, Nat.sub_self, List.replicate_zero, List.append_nil,
    utf8_dot, List.append_assoc, List.singleton_append]
  rw [List.take_of_length_le (by omega)]

theorem digits6_mem {n x : Nat} (hn : n < 1000000) (h : x ∈ digits6 n) : 48 ≤ x ∧ x ≤ 57 := by
  simp only [digits6, List.mem_cons, List.mem_singleton, List.not_mem_nil, or_false] at h
  omega

/-- The canonical string of a date given year first: the two-digit day is
expanded as a year, the year stands where the day belongs, and the layout
parse fails at the third digit of that year. -/
theorem Parse_year_in_day_place {Y M D : Nat} (hY : Y < 10000) (hM : M < 100) (hD : D < 100)
    (T : GoString) :
    canonical (digits4 Y) (digits2 M) (digits2 D) T =
      digits4 (2000 + D) ++ 45 :: (digits2 M ++ 45 :: (digits4 Y ++ 32 :: sixFraction T)) ∧
    time.Parse (canonical (digits4 Y) (digits2 M) (digits2 D) T) = none := by
  have e : canonical (digits4 Y) (digits2 M) (digits2 D) T =
      digits4 (2000 + D) ++ 45 :: (digits2 M ++ 45 :: (digits4 Y ++ 32 :: sixFraction T)) := by
    have h1 : zeroPadded (digits4 Y) = digits4 Y := by simp [zeroPadded, digits4]
    have h2 : zeroPadded (digits2 M) = digits2 M := by simp [zeroPadded, digits2]
    simp [canonical, yearExpanded_digits2 D hD, h1, h2]
  refine ⟨e, ?_⟩
  cases hp : time.Parse (canonical (digits4 Y) (digits2 M) (digits2 D) T) with
  | none => rfl
  | some t =>
    exfalso
    obtain ⟨Y2, M2, D2, w, hv, hY2, hM2, hD2, _⟩ := time.Parse_inv hp
    rw [e] at hv
    have n1 : ∀ {n : Nat}, n < 10000 → (45 : Nat) ∉ digits4 n := fun hn h => by
      have := digits4_mem hn h
      omega
    have n2 : ∀ {n : Nat}, n < 100 → (45 : Nat) ∉ digits2 n := fun hn h => by
      have := digits2_mem hn h
      omega
    have n3 : (32 : Nat) ∉ digits4 Y := fun h => by
      have := digits4_mem hY h
      omega
    have n4 : (32 : Nat) ∉ digits2 D2 := fun h => by
      have := digits2_mem hD2 h
      omega
    obtain ⟨_, r1⟩ := append_sep_inj (n1 (show 2000 + D < 10000 by omega)) (n1 hY2) hv
    obtain ⟨_, r2⟩ := append_sep_inj (n2 hM) (n2 hM2) r1
    obtain ⟨h3, _⟩ := append_sep_inj n3 n4 r2
    have := congrArg List.length h3
    simp [digits4, digits2] at this

/-- C7, as amended: for every year-first, date-only input `YYYY-MM-DD` of
digits, `stringToPgTimestamp` reads the input as day-month-year: it builds the
string `20DD-MM-YYYY 00:00:00.000000`, which does not parse, and returns
`Valid=false` with the zero `Time`. -/
theorem C7_year_first_date_invalid (Y M D : Nat) (hY : Y < 10000) (hM : M < 100)
    (hD : D < 100) :
    finalString (digits4 Y ++ 45 :: (digits2 M ++ 45 :: digits2 D)) =
      some (some (digits4 (2000 + D) ++ 45 :: (digits2 M ++ 45 :: (digits4 Y ++
        utf8 " 00:00:00.000000")))) ∧
    stringToPgTimestamp (digits4 Y ++ 45 :: (digits2 M ++ 45 :: digits2 D)) =
      some ⟨time.zero, 0, false⟩ := by
  have dY : ∀ c ∈ digits4 Y, 48 ≤ c ∧ c ≤ 57 := fun c hc => digits4_mem hY hc
  have dM : ∀ c ∈ digits2 M, 48 ≤ c ∧ c ≤ 57 := fun c hc => digits2_mem hM hc
  have dD : ∀ c ∈ digits2 D, 48 ≤ c ∧ c ≤ 57 := fun c hc => digits2_mem hD hc
  have hall : ∀ x, (x < 45 ∨ 57 < x ∨ x = 47) →
      x ∉ digits4 Y ++ 45 :: (digits2 M ++ 45 :: digits2 D) := by
    intro x hx
    simp only [List.mem_append, List.mem_cons, not_or]
    exact ⟨not_mem_of_digits (by omega) dY, by omega, not_mem_of_digits (by omega) dM,
      by omega, not_mem_of_digits (by omega) dD⟩
  obtain ⟨hdp, htp⟩ := parts_of_no_space (hall 32 (by omega))
  rw [ReplaceAll_of_not_mem (hall 47 (by omega))] at hdp
  have hsplit : strings.Split (datePart (digits4 Y ++ 45 :: (digits2 M ++ 45 :: digits2 D))) 45 =
      [digits4 Y, digits2 M, digits2 D] := by
    rw [hdp]
    exact Split_three (not_mem_of_digits (by omega) dY) (not_mem_of_digits (by omega) dM)
      (not_mem_of_digits (by omega) dD)
  have hnn : ¬ Nullish (digits4 Y ++ 45 :: (digits2 M ++ 45 :: digits2 D)) := by
    have : digits4 Y = (48 + Y / 1000) :: [48 + Y / 100 % 10, 48 + Y / 10 % 10, 48 + Y % 10] :=
      rfl
    rw [this, List.cons_append]
    exact not_nullish_of_digit _ (by omega) (by omega)
  obtain ⟨e, hp⟩ := Parse_year_in_day_place hY hM hD (utf8 "00:00:00.000000")
  constructor
  · rw [finalString_eq, hsplit, htp]
    simp only [e]
    have h1 : sixFraction (utf8 "00:00:00.000000") = utf8 "00:00:00.000000" := by decide
    have h2 : utf8 " 00:00:00.000000" = 32 :: utf8 "00:00:00.000000" := by decide
    rw [h1, h2]
  · rw [result_of_components hnn hsplit, htp, hp]
    rfl

/-- Witness of C7 at `"1999-12-31"`. -/
theorem C7_year_first_date_invalid_witness :
    finalString (utf8 "1999-12-31") = some (some (utf8 "2031-12-1999 00:00:00.000000")) ∧
    stringToPgTimestamp (utf8 "1999-12-31") = some ⟨time.zero, 0, false⟩ :=
  C7_year_first_date_invalid 1999 12 31 (by decide) (by decide) (by decide)

/-- Counterexample to C7 as stated, at its own witness `"2024-01-02"`, a real
calendar date: the string built is `"2002-01-2024 00:00:00.000000"`, not
`"2024-01-02 00:00:00.000000"`, and the result is `Valid=false`, not January
2, 2024. -/
theorem C7_counterexample :
    validDate 2024 1 2 ∧
    finalString (utf8 "2024-01-02") = some (some (utf8 "2002-01-2024 00:00:00.000000")) ∧
    finalString (utf8 "2024-01-02") ≠ some (some (utf8 "2024-01-02 00:00:00.000000")) ∧
    stringToPgTimestamp (utf8 "2024-01-02") = some ⟨time.zero, 0, false⟩ ∧
    stringToPgTimestamp (utf8 "2024-01-02") ≠ some ⟨⟨2024, 1, 2, 0, 0, 0, 0⟩, 0, true⟩ := by
  decide

/-- C8, as amended: for every canonical string `YYYY-MM-DD HH:MM:SS.ffffff` of
digits, the normalisation leaves the time part as it is but rebuilds the date
as `20DD-MM-YYYY`: the string it produces is not the input, that string does
not parse, and the result is `Valid=false` with the zero `Time`. -/
theorem C8_canonical_not_fixed (Y M D h mi s f : Nat) (hY : Y < 10000) (hM : M < 100)
    (hD : D < 100) (hh : h < 100) (hmi : mi < 100) (hs : s < 100) (hf : f < 1000000) :
    finalString ((digits4 Y ++ 45 :: (digits2 M ++ 45 :: digits2 D)) ++
        32 :: (digits2 h ++ 58 :: (digits2 mi ++ 58 :: digits2 s) ++ 46 :: digits6 f)) =
      some (some (digits4 (2000 + D) ++ 45 :: (digits2 M ++ 45 :: (digits4 Y ++
        32 :: (digits2 h ++ 58 :: (digits2 mi ++ 58 :: digits2 s) ++ 46 :: digits6 f))))) ∧
    finalString ((digits4 Y ++ 45 :: (digits2 M ++ 45 :: digits2 D)) ++
        32 :: (digits2 h ++ 58 :: (digits2 mi ++ 58 :: digits2 s) ++ 46 :: digits6 f)) ≠
      some (some ((digits4 Y ++ 45 :: (digits2 M ++ 45 :: digits2 D)) ++
        32 :: (digits2 h ++ 58 :: (digits2 mi ++ 58 :: digits2 s) ++ 46 :: digits6 f))) ∧
    stringToPgTimestamp ((digits4 Y ++ 45 :: (digits2 M ++ 45 :: digits2 D)) ++
        32 :: (digits2 h ++ 58 :: (digits2 mi ++ 58 :: digits2 s) ++ 46 :: digits6 f)) =
      some ⟨time.zero, 0, false⟩ := by
  have dY : ∀ c ∈ digits4 Y, 48 ≤ c ∧ c ≤ 57 := fun c hc => digits4_mem hY hc
  have dM : ∀ c ∈ digits2 M, 48 ≤ c ∧ c ≤ 57 := fun c hc => digits2_mem hM hc
  have dD : ∀ c ∈ digits2 D, 48 ≤ c ∧ c ≤ 57 := fun c hc => digits2_mem hD hc
  have dh : ∀ c ∈ digits2 h, 48 ≤ c ∧ c ≤ 57 := fun c hc => digits2_mem hh hc
  have dmi : ∀ c ∈ digits2 mi, 48 ≤ c ∧ c ≤ 57 := fun c hc => digits2_mem hmi hc
  have ds : ∀ c ∈ digits2 s, 48 ≤ c ∧ c ≤ 57 := fun c hc => digits2_mem hs hc
  have df : ∀ c ∈ digits6 f, 48 ≤ c ∧ c ≤ 57 := fun c hc => digits6_mem hf hc
  have hdate : ∀ x, (x < 45 ∨ 57 < x ∨ x = 47) →
      x ∉ digits4 Y ++ 45 :: (digits2 M ++ 45 :: digits2 D) := by
    intro x hx
    simp only [List.mem_append, List.mem_cons, not_or]
    exact ⟨not_mem_of_digits (by omega) dY, by omega, not_mem_of_digits (by omega) dM,
      by omega, not_mem_of_digits (by omega) dD⟩
  have hhms : ∀ x, (x < 48 ∨ 58 < x) →
      x ∉ digits2 h ++ 58 :: (digits2 mi ++ 58 :: digits2 s) := by
    intro x hx
    simp only [List.mem_append, List.mem_cons, not_or]
    exact ⟨not_mem_of_digits (by omega) dh, by omega, not_mem_of_digits (by omega) dmi,
      by omega, not_mem_of_digits (by omega) ds⟩
  have hclock : ∀ x, (x < 46 ∨ 58 < x ∨ x = 47) →
      x ∉ digits2 h ++ 58 :: (digits2 mi ++ 58 :: digits2 s) ++ 46 :: digits6 f := by
    intro x hx
    simp only [List.mem_append, List.mem_cons, not_or] at *
    exact ⟨⟨not_mem_of_digits (by omega) dh, by omega, not_mem_of_digits (by omega) dmi,
      by omega, not_mem_of_digits (by omega) ds⟩, by omega, not_mem_of_digits (by omega) df⟩
  obtain ⟨hdp, htp⟩ := parts_of_space (hdate 32 (by omega)) (hclock 32 (by omega))
  rw [ReplaceAll_of_not_mem (hdate 47 (by omega))] at hdp
  rw [ReplaceAll_of_not_mem (hclock 47 (by omega))] at htp
  have hsplit : strings.Split (datePart ((digits4 Y ++ 45 :: (digits2 M ++ 45 :: digits2 D)) ++
      32 :: (digits2 h ++ 58 :: (digits2 mi ++ 58 :: digits2 s) ++ 46 :: digits6 f))) 45 =
      [digits4 Y, digits2 M, digits2 D] := by
    rw [hdp]
    exact Split_three (not_mem_of_digits (by omega) dY) (not_mem_of_digits (by omega) dM)
      (not_mem_of_digits (by omega) dD)
  have hnn : ¬ Nullish ((digits4 Y ++ 45 :: (digits2 M ++ 45 :: digits2 D)) ++
      32 :: (digits2 h ++ 58 :: (digits2 mi ++ 58 :: digits2 s) ++ 46 :: digits6 f)) := by
    have : digits4 Y = (48 + Y / 1000) :: [48 + Y / 100 % 10, 48 + Y / 10 % 10, 48 + Y % 10] :=
      rfl
    rw [this, List.cons_append, List.cons_append]
    exact not_nullish_of_digit _ (by omega) (by omega)
  have hsix := sixFraction_six (hhms 46 (by omega)) (not_mem_of_digits (by omega) df)
    (show (digits6 f).length = 6 by simp [digits6])
  obtain ⟨e, hp⟩ := Parse_year_in_day_place hY hM hD
    (digits2 h ++ 58 :: (digits2 mi ++ 58 :: digits2 s) ++ 46 :: digits6 f)
  rw [hsix] at e
  have hfinal : finalString ((digits4 Y ++ 45 :: (digits2 M ++ 45 :: digits2 D)) ++
        32 :: (digits2 h ++ 58 :: (digits2 mi ++ 58 :: digits2 s) ++ 46 :: digits6 f)) =
      some (some (digits4 (2000 + D) ++ 45 :: (digits2 M ++ 45 :: (digits4 Y ++
        32 :: (digits2 h ++ 58 :: (digits2 mi ++ 58 :: digits2 s) ++ 46 :: digits6 f))))) := by
    rw [finalString_eq, hsplit, htp]
    simp only [e]
  refine ⟨hfinal, ?_, ?_⟩
  · rw [hfinal]
    intro hcon
    have := congrArg List.length (Option.some.inj (Option.some.inj hcon))
    simp [digits4, digits2, digits6] at this
  · rw [result_of_components hnn hsplit, htp, hp]
    rfl

/-- Witness of C8 at `"1999-12-31 23:59:59.123456"`. -/
theorem C8_canonical_not_fixed_witness :
    finalString (utf8 "1999-12-31 23:59:59.123456") =
      some (some (utf8 "2031-12-1999 23:59:59.123456")) ∧
    finalString (utf8 "1999-12-31 23:59:59.123456") ≠
      some (some (utf8 "1999-12-31 23:59:59.123456")) ∧
    stringToPgTimestamp (utf8 "1999-12-31 23:59:59.123456") = some ⟨time.zero, 0, false⟩ :=
  C8_canonical_not_fixed 1999 12 31 23 59 59 123456 (by decide) (by decide) (by decide)
    (by decide) (by decide) (by decide) (by decide)

/-- Counterexample to C8 as stated, at its own witness
`"2024-01-02 15:04:05.000000"`: the string built is
`"2002-01-2024 15:04:05.000000"`, not the input, and the result is
`Valid=false`. -/
theorem C8_counterexample :
    time.Parse (utf8 "2024-01-02 15:04:05.000000") = some ⟨2024, 1, 2, 15, 4, 5, 0⟩ ∧
    finalString (utf8 "2024-01-02 15:04:05.000000") =
      some (some (utf8 "2002-01-2024 15:04:05.000000")) ∧
    finalString (utf8 "2024-01-02 15:04:05.000000") ≠
      some (some (utf8 "2024-01-02 15:04:05.000000")) ∧
    stringToPgTimestamp (utf8 "2024-01-02 15:04:05.000000") = some ⟨time.zero, 0, false⟩ ∧
    stringToPgTimestamp (utf8 "2024-01-02 15:04:05.000000") ≠
      some ⟨⟨2024, 1, 2, 15, 4, 5, 0⟩, 0, true⟩ := by
  decide

/-! ## The claims about the null-ish predicate and the simple converters -/

/-- C13: for a string input, `funcvx.NotNull(s)` is false if and only if `s` is
empty, consists only of white space, or is exactly `"null"`, `"NULL"` or
`"nil"`, and true for every other string; a token with surrounding spaces or in
another letter case is such another string. -/
theorem C13_NotNull_string (s : GoString) :
    (funcvx.NotNull s = false ↔ Nullish s) ∧
    (funcvx.NotNull s = true ↔ ¬ Nullish s) ∧
    funcvx.NotNull (utf8 " null") = true ∧ funcvx.NotNull (utf8 "nil ") = true ∧
    funcvx.NotNull (utf8 " NULL ") = true ∧ funcvx.NotNull (utf8 "Null") = true ∧
    funcvx.NotNull (utf8 "NIL") = true ∧ funcvx.NotNull (utf8 "Nil") = true :=
  ⟨NotNull_eq_false_iff s, NotNull_eq_true_iff s, by decide, by decide, by decide, by decide,
    by decide, by decide⟩

/-- C14: for every string `s`, `SetTextField(s)` carries `String = s` and
`Valid = (s is not empty)`, `RevertPgText(SetTextField(s)) = s` (also through a
pointer), and `RevertPgText` returns `""` for every invalid `Text`. -/
theorem C14_text_round_trip (s : GoString) :
    (SetTextField (TextArg.string s)).String = s ∧
    ((SetTextField (TextArg.string s)).Valid = true ↔ s ≠ utf8 "") ∧
    RevertPgText (RevertTextArg.text (SetTextField (TextArg.string s))) = s ∧
    RevertPgText (RevertTextArg.textPtr (some (SetTextField (TextArg.string s)))) = s ∧
    (∀ t : pgtype.Text, t.Valid = false →
      RevertPgText (RevertTextArg.text t) = utf8 "" ∧
      RevertPgText (RevertTextArg.textPtr (some t)) = utf8 "") := by
  refine ⟨rfl, by simp [SetTextField], ?_, ?_, ?_⟩
  · by_cases h : s = utf8 ""
    · simp [SetTextField, RevertPgText, h]
    · simp [SetTextField, RevertPgText, h]
  · by_cases h : s = utf8 ""
    · simp [SetTextField, RevertPgText, h]
    · simp [SetTextField, RevertPgText, h]
  · intro t ht
    simp [RevertPgText, ht]

/-- C20: for every string `s`, `PgBool(s)` is `(Bool=true, Valid=true)` if and
only if `s` is exactly one of `"1"`, `"true"`, `"t"`, `"T"`; it is
`Valid=false` if and only if `s` is exactly one of `"null"`, `""`, `" "`,
`"  "`; and for every other string it is `(Bool=false, Valid=true)`. -/
theorem C20_PgBool_cases (s : GoString) :
    (PgBool s = ⟨true, true⟩ ↔
      (s = utf8 "1" ∨ s = utf8 "true" ∨ s = utf8 "t" ∨ s = utf8 "T")) ∧
    ((PgBool s).Valid = false ↔
      (s = utf8 "null" ∨ s = utf8 "" ∨ s = utf8 " " ∨ s = utf8 "  ")) ∧
    (¬ (s = utf8 "1" ∨ s = utf8 "true" ∨ s = utf8 "t" ∨ s = utf8 "T") →
      ¬ (s = utf8 "null" ∨ s = utf8 "" ∨ s = utf8 " " ∨ s = utf8 "  ") →
      PgBool s = ⟨false, true⟩) := by
  by_cases h1 : s = utf8 "1" ∨ s = utf8 "true" ∨ s = utf8 "t" ∨ s = utf8 "T"
  · have hn : ¬ (s = utf8 "null" ∨ s = utf8 "" ∨ s = utf8 " " ∨ s = utf8 "  ") := by
      rcases h1 with h | h | h | h <;> subst h <;> decide
    have hp : PgBool s = ⟨true, true⟩ := by
      unfold PgBool
      rw [if_pos h1]
    rw [hp]
    exact ⟨⟨fun _ => h1, fun _ => rfl⟩, ⟨fun h => by simp at h, fun h => absurd h hn⟩,
      fun h => absurd h1 h⟩
  · by_cases h2 : s = utf8 "0" ∨ s = utf8 "false" ∨ s = utf8 "f" ∨ s = utf8 "F"
    · have hn : ¬ (s = utf8 "null" ∨ s = utf8 "" ∨ s = utf8 " " ∨ s = utf8 "  ") := by
        rcases h2 with h | h | h | h <;> subst h <;> decide
      have hp : PgBool s = ⟨false, true⟩ := by
        unfold PgBool
        rw [if_neg h1, if_pos h2]
      rw [hp]
      exact ⟨⟨fun h => by simp at h, fun h => absurd h h1⟩,
        ⟨fun h => by simp at h, fun h => absurd h hn⟩, fun _ _ => rfl⟩
    · by_cases h3 : s = utf8 "null" ∨ s = utf8 "" ∨ s = utf8 " " ∨ s = utf8 "  "
      · have hp : PgBool s = ⟨false, false⟩ := by
          unfold PgBool
          rw [if_neg h1, if_neg h2, if_pos h3]
        rw [hp]
        exact ⟨⟨fun h => by simp at h, fun h => absurd h h1⟩, ⟨fun _ => h3, fun _ => rfl⟩,
          fun _ h => absurd h3 h⟩
      · have hp : PgBool s = ⟨false, true⟩ := by
          unfold PgBool
          rw [if_neg h1, if_neg h2, if_neg h3]
        rw [hp]
        exact ⟨⟨fun h => by simp at h, fun h => absurd h h1⟩,
          ⟨fun h => by simp at h, fun h => absurd h h3⟩, fun _ _ => rfl⟩

/-- Witness of C20 at `"yes"`, a string of neither list. -/
theorem C20_PgBool_cases_witness : PgBool (utf8 "yes") = ⟨false, true⟩ :=
  (C20_PgBool_cases (utf8 "yes")).2.2 (by decide) (by decide)

theorem toInt16_of_fits {v : Int} (h1 : -2 ^ 15 ≤ v) (h2 : v < 2 ^ 15) : toInt16 v = v := by
  unfold toInt16
  omega

theorem toInt32_of_fits {v : Int} (h1 : -2 ^ 31 ≤ v) (h2 : v < 2 ^ 31) : toInt32 v = v := by
  unfold toInt32
  omega

theorem toInt16_fits (v : Int) : -2 ^ 15 ≤ toInt16 v ∧ toInt16 v < 2 ^ 15 := by
  unfold toInt16
  omega

theorem toInt32_fits (v : Int) : -2 ^ 31 ≤ toInt32 v ∧ toInt32 v < 2 ^ 31 := by
  unfold toInt32
  omega

/-- C15, as amended: for every `int`, `int32` or `int64` value `v` and each
target type `T`, `SetIntField[T](v)` is `Valid` and holds `v` wrapped to the
width of the integer field of `T` (16 bits for `Int2`, 32 for `Int4`, 64 for
`Int8`), which `RevertIntField` returns; the round trip gives back `v` exactly
when `v` fits that field. -/
theorem C15_int_round_trip_when_fits (T : IntTarget) (v : Int)
    (hv : -2 ^ 63 ≤ v ∧ v < 2 ^ 63) :
    (SetIntField T (IntArg.int v)).held = (T.wrap v, true) ∧
    SetIntField T (IntArg.int32 v) = SetIntField T (IntArg.int v) ∧
    SetIntField T (IntArg.int64 v) = SetIntField T (IntArg.int v) ∧
    RevertIntField (SetIntField T (IntArg.int v)) = T.wrap v ∧
    (RevertIntField (SetIntField T (IntArg.int v)) = v ↔ T.fits v) := by
  cases T
  · refine ⟨rfl, rfl, rfl, rfl, ?_⟩
    simp only [SetIntField, setIntToPG, RevertIntField, if_true, IntTarget.fits]
    constructor
    · intro h
      have := toInt16_fits v
      rw [h] at this
      exact this
    · intro h
      exact toInt16_of_fits h.1 h.2
  · refine ⟨rfl, rfl, rfl, rfl, ?_⟩
    simp only [SetIntField, setIntToPG, RevertIntField, if_true, IntTarget.fits]
    constructor
    · intro h
      have := toInt32_fits v
      rw [h] at this
      exact this
    · intro h
      exact toInt32_of_fits h.1 h.2
  · refine ⟨rfl, rfl, rfl, rfl, ?_⟩
    simp only [SetIntField, setIntToPG, RevertIntField, if_true, IntTarget.fits]
    exact ⟨fun _ => hv, fun _ => trivial⟩

/-- Witness of C15 at the value 1234 and the target `pgtype.Int2`. -/
theorem C15_int_round_trip_when_fits_witness :
    RevertIntField (SetIntField IntTarget.Int2 (IntArg.int 1234)) = 1234 :=
  ((C15_int_round_trip_when_fits IntTarget.Int2 1234 (by decide)).2.2.2.2).mpr
    (by simp [IntTarget.fits])

/-- Counterexample to C15 as stated: the `int` 40000 set into a `pgtype.Int2`
is `Valid` and holds -25536, and the `int64` 2147483648 set into a
`pgtype.Int4` holds -2147483648; the round trip does not give the value back. -/
theorem C15_counterexample :
    SetIntField IntTarget.Int2 (IntArg.int 40000) = PgInt.int2 ⟨-25536, true⟩ ∧
    RevertIntField (SetIntField IntTarget.Int2 (IntArg.int 40000)) ≠ 40000 ∧
    SetIntField IntTarget.Int4 (IntArg.int64 2147483648) = PgInt.int4 ⟨-2147483648, true⟩ ∧
    RevertIntField (SetIntField IntTarget.Int4 (IntArg.int64 2147483648)) ≠ 2147483648 := by
  decide

/-- C16, at the failing inputs: a `string` and a `float32` are not among the
types the doc comment of `SetBoolField` names, yet the function converts them
with `Valid=true` (a string to `Bool = (s != "0")`) instead of returning
`Bool=false, Valid=false`; only the remaining types get that value. -/
theorem C16_string_and_float32_converted (s : GoString) (nonzero : GoBool) :
    BoolArg.documented (BoolArg.string s) = false ∧
    SetBoolField (BoolArg.string s) = ⟨decide (s ≠ utf8 "0"), true⟩ ∧
    SetBoolField (BoolArg.string s) ≠ ⟨false, false⟩ ∧
    SetBoolField (BoolArg.string (utf8 "abc")) = ⟨true, true⟩ ∧
    BoolArg.documented (BoolArg.float32 nonzero) = false ∧
    SetBoolField (BoolArg.float32 nonzero) = ⟨nonzero, true⟩ ∧
    SetBoolField BoolArg.other = ⟨false, false⟩ := by
  refine ⟨rfl, rfl, ?_, by decide, rfl, rfl, rfl⟩
  simp [SetBoolField]

/-! ## Lemmas: the clock chunks of an accepted string -/

namespace time

theorem getnum_free_inv {v r : GoString} {n : Nat} (h : getnum v false = some (n, r)) :
    (∃ x y, v = (48 + x) :: (48 + y) :: r ∧ x ≤ 9 ∧ y ≤ 9 ∧ n = x * 10 + y) ∨
    (∃ x, v = (48 + x) :: r ∧ x ≤ 9 ∧ n = x) := by
  rcases v with _ | ⟨a, v⟩
  · simp [getnum, isDigit] at h
  · by_cases ha : 48 ≤ a ∧ a ≤ 57
    · have e1 : 48 + (a - 48) = a := by omega
      rcases v with _ | ⟨b, v⟩
      · simp [getnum, isDigit, ha] at h
        exact Or.inr ⟨a - 48, by rw [e1, h.2], by omega, by omega⟩
      · by_cases hb : 48 ≤ b ∧ b ≤ 57
        · simp [getnum, isDigit, ha, hb] at h
          have e2 : 48 + (b - 48) = b := by omega
          exact Or.inl ⟨a - 48, b - 48, by rw [e1, e2, h.2], by omega, by omega, by omega⟩
        · have hb2 : b < 48 ∨ 57 < b := by omega
          simp [getnum, isDigit, ha, hb2] at h
          exact Or.inr ⟨a - 48, by rw [e1, h.2], by omega, by omega⟩
    · simp [getnum, isDigit, ha] at h

theorem atoi_shape {s : GoString} {z : Int} (h : atoi s = some z) :
    (∀ c ∈ s, 48 ≤ c ∧ c ≤ 57) ∨
    ∃ sg rest, s = sg :: rest ∧ (sg = 43 ∨ sg = 45) ∧ ∀ c ∈ rest, 48 ≤ c ∧ c ≤ 57 := by
  rcases s with _ | ⟨d, s⟩
  · exact Or.inl (by simp)
  · by_cases hs : d = 45 ∨ d = 43
    · right
      refine ⟨d, s, rfl, by omega, ?_⟩
      simp only [atoi, List.head?_cons, Option.some.injEq, hs, if_true, List.drop_succ_cons,
        List.drop_zero] at h
      cases hl : leadingInt 0 s with
      | none => simp [hl] at h
      | some p =>
        obtain ⟨q, rem⟩ := p
        rcases rem with _ | ⟨r, rem⟩
        · exact leadingInt_digits hl
        · simp [hl] at h
    · left
      simp only [atoi, List.head?_cons, Option.some.injEq, hs, if_false] at h
      cases hl : leadingInt 0 (d :: s) with
      | none => simp [hl] at h
      | some p =>
        obtain ⟨q, rem⟩ := p
        rcases rem with _ | ⟨r, rem⟩
        · exact leadingInt_digits hl
        · simp [hl] at h

theorem parseNanoseconds_shape {v : GoString} {ns : Nat} (hlen : v.length = 7)
    (h : parseNanoseconds v 7 = some ns) :
    ∃ sep frac, v = sep :: frac ∧ (sep = 46 ∨ sep = 44) ∧ SixDigitsOrSigned frac := by
  rcases v with _ | ⟨sep, frac⟩
  · simp at hlen
  · have hfl : frac.length = 6 := by simpa using hlen
    unfold parseNanoseconds at h
    by_cases hsep : sep = 46 ∨ sep = 44
    · have ht : ((sep :: frac).take 7).drop 1 = frac := by
        simp [List.take_of_length_le (le_of_eq hfl)]
      rw [ht] at h
      cases ha : atoi frac with
      | none => simp [ha] at h
      | some z => exact ⟨sep, frac, rfl, hsep, hfl, atoi_shape ha⟩
    · have : commaOrPeriod sep = false := by
        simp only [commaOrPeriod, Bool.or_eq_false_iff, decide_eq_false_iff_not]
        omega
      simp [this] at h

theorem skip_space_cons {w : GoString} (hw : 32 ∉ w) : skip (32 :: w) 32 = some w := by
  rcases w with _ | ⟨a, w⟩
  · simp [skip, cutspace]
  · have : a ≠ 32 := fun e => hw (by simp [e])
    simp [skip, cutspace, this]

/-- The shape of clock chunks that parse, after the one space: one or two
digits, `:`, two digits, `:`, two digits, a separator and six bytes. -/
theorem parseClockChunks_shape {w : GoString} {h mi s ns : Nat} (hw : 32 ∉ w)
    (hp : parseClockChunks (32 :: w) = some (h, mi, s, ns)) :
    ∃ hs sep frac, w = hs ++ 58 :: (digits2 mi ++ 58 :: (digits2 s ++ sep :: frac)) ∧
      hs ∈ oneOrTwoDigits h ∧ h < 24 ∧ mi < 60 ∧ s < 60 ∧ (sep = 46 ∨ sep = 44) ∧
      SixDigitsOrSigned frac := by
  unfold parseClockChunks at hp
  rw [skip_space_cons hw] at hp
  simp only at hp
  cases hg1 : getnum w false with
  | none => simp [hg1] at hp
  | some p1 =>
    obtain ⟨hour, v2⟩ := p1
    simp only [hg1] at hp
    split_ifs at hp with hr1
    cases hs1 : skip v2 58 with
    | none => simp [hs1] at hp
    | some v3 =>
      have hv2 := skip_inv (by decide) hs1
      simp only [hs1] at hp
      cases hg2 : getnum v3 true with
      | none => simp [hg2] at hp
      | some p2 =>
        obtain ⟨minute, v4⟩ := p2
        obtain ⟨m1, m2, hv3, hm1, hm2, hmin⟩ := getnum_fixed_inv hg2
        simp only [hg2] at hp
        split_ifs at hp with hr2
        cases hs2 : skip v4 58 with
        | none => simp [hs2] at hp
        | some v5 =>
          have hv4 := skip_inv (by decide) hs2
          simp only [hs2] at hp
          cases hg3 : getnum v5 true with
          | none => simp [hg3] at hp
          | some p3 =>
            obtain ⟨second, v6⟩ := p3
            obtain ⟨s1, s2, hv5, hs1', hs2', hsec⟩ := getnum_fixed_inv hg3
            simp only [hg3] at hp
            by_cases hr3 : 60 ≤ second
            · simp [hr3] at hp
            by_cases hlen : v6.length < 7
            · simp [hr3, hlen] at hp
            simp only [hr3, hlen, if_false] at hp
            cases hn : parseNanoseconds v6 7 with
            | none => simp [hn] at hp
            | some nsec =>
              simp only [hn] at hp
              by_cases hrest : (v6.drop 7).length ≠ 0
              · rw [if_pos hrest] at hp
                simp at hp
              rw [if_neg hrest] at hp
              simp only [Option.some.injEq, Prod.mk.injEq] at hp
              obtain ⟨e1, e2, e3, e4⟩ := hp
              have hl7 : v6.length = 7 := by
                simp only [List.length_drop, ne_eq, not_not] at hrest
                omega
              obtain ⟨sep, frac, hv6, hsep, hfrac⟩ := parseNanoseconds_shape hl7 hn
              have q1 : (m1 * 10 + m2) / 10 = m1 := by omega
              have q2 : (m1 * 10 + m2) % 10 = m2 := by omega
              have q3 : (s1 * 10 + s2) / 10 = s1 := by omega
              have q4 : (s1 * 10 + s2) % 10 = s2 := by omega
              have hmi : digits2 mi = [48 + m1, 48 + m2] := by
                rw [← e2, hmin]
                simp [digits2, q1, q2]
              have hss : digits2 s = [48 + s1, 48 + s2] := by
                rw [← e3, hsec]
                simp [digits2, q3, q4]
              rcases getnum_free_inv hg1 with ⟨x, y, hw1, hx, hy, hh⟩ | ⟨x, hw1, hx, hh⟩
              · refine ⟨[48 + x, 48 + y], sep, frac, ?_, ?_, by omega, by omega, by omega, hsep,
                  hfrac⟩
                · rw [hw1, hv2, hv3, hv4, hv5, hv6, hmi, hss]
                  simp
                · have q5 : (x * 10 + y) / 10 = x := by omega
                  have q6 : (x * 10 + y) % 10 = y := by omega
                  have : digits2 h = [48 + x, 48 + y] := by
                    rw [← e1, hh]
                    simp [digits2, q5, q6]
                  rw [← this]
                  unfold oneOrTwoDigits
                  split_ifs <;> simp
              · refine ⟨[48 + x], sep, frac, ?_, ?_, by omega, by omega, by omega, hsep, hfrac⟩
                · rw [hw1, hv2, hv3, hv4, hv5, hv6, hmi, hss]
                  simp
                · have : h < 10 := by omega
                  rw [← e1, hh]
                  unfold oneOrTwoDigits
                  rw [if_pos (by omega)]
                  simp

end time

/-! ## Lemmas: the time part -/

theorem not_mem_timePart (input : GoString) : 32 ∉ timePart input := by
  unfold timePart
  split
  · decide
  · intro h
    have := List.mem_takeWhile_imp h
    simp at this

theorem not_mem_sixFraction {T : GoString} {x : Nat} (h46 : x ≠ 46) (h48 : x ≠ 48)
    (h : x ∉ T) : x ∉ sixFraction T := by
  unfold sixFraction
  split_ifs
  · simp only [utf8_dot, List.append_assoc, List.singleton_append, List.mem_append,
      List.mem_cons, not_or]
    refine ⟨fun hm => h ((List.takeWhile_sublist _).subset hm), h46, fun hm => ?_⟩
    have hm2 := List.mem_of_mem_take hm
    rcases List.mem_append.mp hm2 with h1 | h1
    · exact h ((List.dropWhile_sublist _).subset (List.mem_of_mem_drop
        ((List.takeWhile_sublist _).subset h1)))
    · exact h48 (List.eq_of_mem_replicate h1)
  · simp only [utf8_zeros, List.mem_append, List.mem_cons, List.mem_singleton,
      List.not_mem_nil, or_false, not_or]
    exact ⟨h, h46, h48, h48, h48, h48, h48, h48⟩

theorem sixFraction_ends (T : GoString) :
    ∃ pre six, sixFraction T = pre ++ 46 :: six ∧ six.length = 6 := by
  unfold sixFraction
  split_ifs
  · obtain ⟨frac, hfrac⟩ : ∃ f : GoString,
        f = ((T.dropWhile fun c => c ≠ 46).drop 1).takeWhile fun c => c ≠ 46 := ⟨_, rfl⟩
    refine ⟨T.takeWhile (fun c => c ≠ 46),
      (frac ++ List.replicate (6 - frac.length) 48).take 6, ?_, ?_⟩
    · simp [hfrac]
    · simp only [List.length_take, List.length_append, List.length_replicate]
      omega
  · exact ⟨T, [48, 48, 48, 48, 48, 48], by simp, rfl⟩

/-- An input with two spaces or more: the time part stands between the first
and the second space. -/
theorem parts_of_two_spaces {d t : GoString} (hd : 32 ∉ d) (ht : 32 ∉ t) (rest : GoString) :
    datePart (d ++ 32 :: (t ++ 32 :: rest)) = strings.ReplaceAll d 47 45 ∧
      timePart (d ++ 32 :: (t ++ 32 :: rest)) = strings.ReplaceAll t 47 45 := by
  have h1 := not_mem_ReplaceAll (by decide) hd
  have h2 := not_mem_ReplaceAll (by decide) ht
  unfold datePart timePart
  rw [ReplaceAll_append, ReplaceAll_cons, if_neg (by decide), ReplaceAll_append,
    ReplaceAll_cons, if_neg (by decide), takeWhile_append_sep h1, dropWhile_append_sep h1]
  simp only
  rw [takeWhile_append_sep h2]
  simp

/-! ## The claims about the built string -/

/-- C11, as amended: for every input that passes the null-ish check and the
three-component check, the string handed to the layout parser is built from
the components as they are (third-second-first, padded and prefixed by length
only); whenever the parser accepts it, it is four digits, `-`, two digits,
`-`, two digits, one space, one or two digits, `:`, two digits, `:`, two
digits, `.`, and six bytes that are six digits or a sign and five digits:
25 or 26 bytes. -/
theorem C11_shape_of_accepted_string (input final : GoString)
    (hf : finalString input = some (some final)) :
    (∃ a b c, strings.Split (datePart input) 45 = [a, b, c] ∧
      final = canonical a b c (timePart input)) ∧
    (∀ t, time.Parse final = some t →
      (∃ Y M D h mi s hs frac,
        final = digits4 Y ++ 45 :: (digits2 M ++ 45 :: (digits2 D ++ 32 :: (hs ++
          58 :: (digits2 mi ++ 58 :: (digits2 s ++ 46 :: frac))))) ∧
        Y < 10000 ∧ validDate Y M D ∧ hs ∈ oneOrTwoDigits h ∧ h < 24 ∧ mi < 60 ∧ s < 60 ∧
        SixDigitsOrSigned frac) ∧
      (final.length = 25 ∨ final.length = 26)) := by
  rw [finalString_eq] at hf
  rcases hs : strings.Split (datePart input) 45 with _ | ⟨a, _ | ⟨b, _ | ⟨c, _ | ⟨d, l⟩⟩⟩⟩
  · simp [hs] at hf
  · simp [hs] at hf
  · simp [hs] at hf
  · simp only [hs, Option.some.injEq] at hf
    have hmem : ∀ p ∈ strings.Split (datePart input) 45, 45 ∉ p ∧ 32 ∉ p := fun p hpm =>
      ⟨strings.not_mem_of_mem_Split p hpm,
        fun h32 => not_mem_datePart input (mem_of_mem_Split p hpm h32)⟩
    rw [hs] at hmem
    refine ⟨⟨a, b, c, rfl, hf.symm⟩, fun t hp => ?_⟩
    have hshape : ∃ Y M D h mi s hs frac,
        final = digits4 Y ++ 45 :: (digits2 M ++ 45 :: (digits2 D ++ 32 :: (hs ++
          58 :: (digits2 mi ++ 58 :: (digits2 s ++ 46 :: frac))))) ∧
        Y < 10000 ∧ validDate Y M D ∧ hs ∈ oneOrTwoDigits h ∧ h < 24 ∧ mi < 60 ∧ s < 60 ∧
        SixDigitsOrSigned frac := by
      unfold time.Parse at hp
      cases hd : time.parseDateChunks final with
      | none => simp [hd] at hp
      | some p =>
        obtain ⟨y, m, dd, rest⟩ := p
        obtain ⟨Y, M, D, hv, hY, hM, hD, rfl, rfl, rfl, hM1, hM2⟩ :=
          time.parseDateChunks_inv hd
        simp only [hd] at hp
        cases hc : time.parseClockChunks rest with
        | none => simp [hc] at hp
        | some q =>
          obtain ⟨hh, mi, ss, ns⟩ := q
          obtain ⟨w, hw⟩ := time.parseClockChunks_inv hc
          simp only [hc] at hp
          split_ifs at hp with hr
          have e : canonical a b c (timePart input) = yearExpanded c ++ 45 :: (zeroPadded b ++
              45 :: (zeroPadded a ++ 32 :: sixFraction (timePart input))) := by
            simp [canonical]
          rw [← hf, e, hw] at hv
          have n1 : (45 : Nat) ∉ digits4 y := fun h => by
            have := digits4_mem hY h
            omega
          have n2 : (45 : Nat) ∉ digits2 m := fun h => by
            have := digits2_mem hM h
            omega
          have n3 : (32 : Nat) ∉ digits2 dd := fun h => by
            have := digits2_mem hD h
            omega
          obtain ⟨_, r1⟩ := append_sep_inj
            (not_mem_yearExpanded (by decide) (by decide) (hmem c (by simp)).1) n1 hv
          obtain ⟨_, r2⟩ := append_sep_inj
            (not_mem_zeroPadded (by decide) (hmem b (by simp)).1) n2 r1
          obtain ⟨_, r3⟩ := append_sep_inj
            (not_mem_zeroPadded (by decide) (hmem a (by simp)).2) n3 r2
          have hw32 : 32 ∉ w := by
            rw [← r3]
            exact not_mem_sixFraction (by decide) (by decide) (not_mem_timePart input)
          rw [hw] at hc
          obtain ⟨hs2, sep, frac, hwe, hhs, h1, h2, h3, hsep, hfrac⟩ :=
            time.parseClockChunks_shape hw32 hc
          obtain ⟨pre, six, hsix, hlen⟩ := sixFraction_ends (timePart input)
          have hsep46 : sep = 46 := by
            have e2 : (hs2 ++ 58 :: (digits2 mi ++ 58 :: digits2 ss)) ++ sep :: frac =
                pre ++ 46 :: six := by
              rw [← hsix, r3, hwe]
              simp
            have := List.append_inj' e2 (by simp [hfrac.1, hlen])
            exact (List.cons.inj this.2).1
          refine ⟨y, m, dd, hh, mi, ss, hs2, frac, ?_, hY, ⟨hM1, hM2, by omega, by omega⟩, hhs,
            h1, h2, h3, hfrac⟩
          rw [← hf, e, hv, hwe, hsep46]
    refine ⟨hshape, ?_⟩
    obtain ⟨Y, M, D, h, mi, s, hs2, frac, hfin, _, _, hhs, _, _, _, hfrac⟩ := hshape
    have hl : hs2.length = 1 ∨ hs2.length = 2 := by
      unfold oneOrTwoDigits at hhs
      split_ifs at hhs
      · simp only [List.mem_cons, List.mem_singleton, List.not_mem_nil, or_false] at hhs
        rcases hhs with rfl | rfl
        · exact Or.inl rfl
        · exact Or.inr rfl
      · simp only [List.mem_singleton] at hhs
        subst hhs
        exact Or.inr rfl
    rw [hfin]
    simp only [List.length_append, List.length_cons, digits4, digits2, List.length_nil,
      hfrac.1]
    omega
  · simp [hs] at hf

/-- Witness of C11 at `"1/1/2024 5:04:05"`, accepted with a one-digit hour. -/
theorem C11_shape_of_accepted_string_witness :
    (utf8 "2024-01-01 5:04:05.000000").length = 25 ∨
      (utf8 "2024-01-01 5:04:05.000000").length = 26 :=
  ((C11_shape_of_accepted_string (utf8 "1/1/2024 5:04:05") (utf8 "2024-01-01 5:04:05.000000")
    (by decide)).2 ⟨2024, 1, 1, 5, 4, 5, 0⟩ (by decide)).2

/-- Counterexample to C11 as stated: `"a-b-c"` passes both checks and the
string built is `"c-0b-0a 00:00:00.000000"`, 23 bytes without a digit in the
date; and `"1/1/2024 5:04:05"` is accepted (`Valid=true`) with the string
`"2024-01-01 5:04:05.000000"`, 25 bytes. Neither has the shape
`YYYY-MM-DD HH:MM:SS.ffffff`. -/
theorem C11_counterexample :
    funcvx.NotNull (utf8 "a-b-c") = true ∧
    strings.Split (datePart (utf8 "a-b-c")) 45 = [utf8 "a", utf8 "b", utf8 "c"] ∧
    finalString (utf8 "a-b-c") = some (some (utf8 "c-0b-0a 00:00:00.000000")) ∧
    ¬ LayoutShape (utf8 "c-0b-0a 00:00:00.000000") ∧
    finalString (utf8 "1/1/2024 5:04:05") = some (some (utf8 "2024-01-01 5:04:05.000000")) ∧
    stringToPgTimestamp (utf8 "1/1/2024 5:04:05") = some ⟨⟨2024, 1, 1, 5, 4, 5, 0⟩, 0, true⟩ ∧
    ¬ LayoutShape (utf8 "2024-01-01 5:04:05.000000") := by
  have hlen : ∀ s, LayoutShape s → s.length = 26 := by
    rintro s ⟨Y, M, D, h, mi, sec, f, _, _, _, _, _, _, _, rfl⟩
    simp [digits4, digits2, digits6]
  refine ⟨by decide, by decide, by decide, fun h => ?_, by decide, by decide, fun h => ?_⟩
  · exact absurd (hlen _ h) (by decide)
  · exact absurd (hlen _ h) (by decide)

/-- C12, as amended: `stringToPgTimestamp` splits the input at every space and
uses the first two fields. The date part is the text before the first space;
the time part that is fraction-normalised and parsed is the text between the
first and the second space (the whole remainder when there is no second
space), and what follows a second space is ignored; when the input has no
space the time part is `"00:00:00.000000"`. -/
theorem C12_time_part_is_second_field (input : GoString) :
    finalString input = some
      (match strings.Split (datePart input) 45 with
       | [a, b, c] => some (canonical a b c (timePart input))
       | _ => none) ∧
    (32 ∉ input → datePart input = strings.ReplaceAll input 47 45 ∧
      timePart input = utf8 "00:00:00.000000") ∧
    (∀ d t, input = d ++ 32 :: t → 32 ∉ d → 32 ∉ t →
      datePart input = strings.ReplaceAll d 47 45 ∧
      timePart input = strings.ReplaceAll t 47 45 ∧
      remainderAfterFirstSpace input = timePart input) ∧
    (∀ d t rest, input = d ++ 32 :: (t ++ 32 :: rest) → 32 ∉ d → 32 ∉ t →
      datePart input = strings.ReplaceAll d 47 45 ∧
      timePart input = strings.ReplaceAll t 47 45 ∧
      finalString input = finalString (d ++ 32 :: t)) := by
  refine ⟨finalString_eq input, parts_of_no_space, ?_, ?_⟩
  · rintro d t rfl hd ht
    obtain ⟨h1, h2⟩ := parts_of_space hd ht
    refine ⟨h1, h2, ?_⟩
    rw [h2]
    unfold remainderAfterFirstSpace
    rw [ReplaceAll_append, ReplaceAll_cons, if_neg (by decide),
      dropWhile_append_sep (not_mem_ReplaceAll (by decide) hd)]
  · rintro d t rest rfl hd ht
    obtain ⟨h1, h2⟩ := parts_of_two_spaces hd ht rest
    obtain ⟨h3, h4⟩ := parts_of_space hd ht
    refine ⟨h1, h2, ?_⟩
    rw [finalString_eq, finalString_eq, h1, h2, h3, h4]

/-- Witness of C12 at `"02/01/2024 15:04:05 garbage"`: the text after the
second space is ignored. -/
theorem C12_time_part_is_second_field_witness :
    finalString (utf8 "02/01/2024 15:04:05 garbage") =
      finalString (utf8 "02/01/2024" ++ 32 :: utf8 "15:04:05") :=
  ((C12_time_part_is_second_field (utf8 "02/01/2024 15:04:05 garbage")).2.2.2
    (utf8 "02/01/2024") (utf8 "15:04:05") (utf8 "garbage") (by decide) (by decide)
    (by decide)).2.2

/-- Counterexample to C12 as stated, at `"02/01/2024 15:04:05 garbage"`: the
remainder after the first space is `"15:04:05 garbage"`, and the canonical
string with that time part does not parse; the code builds
`"2024-01-02 15:04:05.000000"` from the second field alone and returns
`Valid=true`. -/
theorem C12_counterexample :
    remainderAfterFirstSpace (utf8 "02/01/2024 15:04:05 garbage") = utf8 "15:04:05 garbage" ∧
    timePart (utf8 "02/01/2024 15:04:05 garbage") = utf8 "15:04:05" ∧
    canonical (utf8 "02") (utf8 "01") (utf8 "2024") (utf8 "15:04:05 garbage") =
      utf8 "2024-01-02 15:04:05 garbage.000000" ∧
    time.Parse (utf8 "2024-01-02 15:04:05 garbage.000000") = none ∧
    finalString (utf8 "02/01/2024 15:04:05 garbage") =
      some (some (utf8 "2024-01-02 15:04:05.000000")) ∧
    stringToPgTimestamp (utf8 "02/01/2024 15:04:05 garbage") =
      some ⟨⟨2024, 1, 2, 15, 4, 5, 0⟩, 0, true⟩ := by
  decide

/-! ## Lemmas: the loop over the date layouts -/

theorem stringToPgDateLoop_none {formats : List (List time.Chunk)} {s : GoString}
    (h : ∀ l ∈ formats, time.ParseLayout l s = none) :
    stringToPgDateLoop formats s = ⟨time.zero, 0, false⟩ := by
  induction formats with
  | nil => rfl
  | cons l ls ih =>
    rw [stringToPgDateLoop, h l (by simp)]
    exact ih fun l2 hl2 => h l2 (List.mem_cons_of_mem _ hl2)

theorem stringToPgDateLoop_first {pre post : List (List time.Chunk)} {layout : List time.Chunk}
    {s : GoString} {t : Time} (hpre : ∀ l ∈ pre, time.ParseLayout l s = none)
    (ht : time.ParseLayout layout s = some t) :
    stringToPgDateLoop (pre ++ layout :: post) s = ⟨t, 0, true⟩ := by
  induction pre with
  | nil => rw [List.nil_append, stringToPgDateLoop, ht]
  | cons l ls ih =>
    rw [List.cons_append, stringToPgDateLoop, hpre l (by simp)]
    exact ih fun l2 hl2 => hpre l2 (List.mem_cons_of_mem _ hl2)

theorem stringToPgDateLoop_eq (formats : List (List time.Chunk)) (s : GoString) :
    stringToPgDateLoop formats s =
      match (formats.filterMap fun layout => time.ParseLayout layout s).head? with
      | some t => ⟨t, 0, true⟩
      | none => ⟨time.zero, 0, false⟩ := by
  induction formats with
  | nil => rfl
  | cons l ls ih =>
    rw [stringToPgDateLoop]
    cases hp : time.ParseLayout l s with
    | none => simp [List.filterMap_cons, hp, ih]
    | some t => simp [List.filterMap_cons, hp]

/-- A value the layout `"2/1/2006"` accepts has a `/` as its second or third
byte, so the layout `"2006-01-02"`, which starts with four digits, rejects it. -/
theorem ParseLayout_ISODate_of_DMY {s : GoString} {t : Time}
    (h : time.ParseLayout time.layoutDMY s = some t) :
    time.ParseLayout time.layoutISODate s = none := by
  have hslash : (∃ x r, s = x :: 47 :: r) ∨ (∃ x y r, s = x :: y :: 47 :: r) := by
    unfold time.ParseLayout time.layoutDMY at h
    simp only [time.parseChunks] at h
    cases hg : time.getnum s false with
    | none => simp [hg] at h
    | some p =>
      obtain ⟨d, v⟩ := p
      simp only [hg] at h
      cases hs : time.skip v 47 with
      | none => simp [hs] at h
      | some v2 =>
        have hv := time.skip_inv (by decide) hs
        rcases time.getnum_free_inv hg with ⟨x, y, e, _⟩ | ⟨x, e, _⟩
        · exact Or.inr ⟨_, _, v2, by rw [e, hv]⟩
        · exact Or.inl ⟨_, v2, by rw [e, hv]⟩
  cases hp : time.ParseLayout time.layoutISODate s with
  | none => rfl
  | some t2 =>
    exfalso
    unfold time.ParseLayout time.layoutISODate at hp
    simp only [time.parseChunks] at hp
    by_cases hc : s.length < 4 ∨ (!time.isDigit s 0) = true
    · rw [if_pos hc] at hp
      simp at hp
    · rw [if_neg hc] at hp
      simp only [not_or, not_lt, Bool.not_eq_true, Bool.not_eq_false'] at hc
      cases ha : time.atoi (s.take 4) with
      | none => simp [ha] at hp
      | some year =>
        have hdig : time.isDigit (s.take 4) 0 = true := by
          rcases s with _ | ⟨a, s⟩
          · simp at hc
          · simpa [time.isDigit] using hc.2
        have hall := time.atoi_digits hdig ha
        rcases hslash with ⟨x, r, rfl⟩ | ⟨x, y, r, rfl⟩
        · have := hall 47 (by simp)
          omega
        · have := hall 47 (by simp)
          omega

/-! ## The claim about the date setter -/

/-- C19: for every string `s`, `stringToPgDate`, reached through `SetDateField`
on a string, returns `Valid=false` when `s` is null-ish; otherwise it returns
`Valid=true` with the parse under the first layout, in the order
`"2006-01-02"`, `"2/1/2006"`, `"2/1/2006 15:04:05"`, `"01/02/2006"`,
`"2006-01-02 15:04:05"`, `"2006/01/02"`, that accepts `s`, and `Valid=false`
when none accepts it; so a string that both `"2/1/2006"` and `"01/02/2006"`
accept is read as day/month, as `"03/04/2024"` is read as April 3. -/
theorem C19_first_accepting_layout (s : GoString) :
    dateFormats = [time.layoutISODate, time.layoutDMY, time.layoutDMYClock, time.layoutMDY,
      time.layoutISOClock, time.layoutYMDSlash] ∧
    (Nullish s → SetDateField (GoAny.str s) = ⟨time.zero, 0, false⟩) ∧
    (¬ Nullish s →
      SetDateField (GoAny.str s) =
        (match firstAccepted s with
         | some t => ⟨t, 0, true⟩
         | none => ⟨time.zero, 0, false⟩) ∧
      (∀ pre layout post t, dateFormats = pre ++ layout :: post →
        (∀ l ∈ pre, time.ParseLayout l s = none) → time.ParseLayout layout s = some t →
        SetDateField (GoAny.str s) = ⟨t, 0, true⟩) ∧
      ((∀ l ∈ dateFormats, time.ParseLayout l s = none) →
        SetDateField (GoAny.str s) = ⟨time.zero, 0, false⟩) ∧
      (∀ t t2, time.ParseLayout time.layoutDMY s = some t →
        time.ParseLayout time.layoutMDY s = some t2 →
        SetDateField (GoAny.str s) = ⟨t, 0, true⟩)) ∧
    time.ParseLayout time.layoutDMY (utf8 "03/04/2024") = some ⟨2024, 4, 3, 0, 0, 0, 0⟩ ∧
    time.ParseLayout time.layoutMDY (utf8 "03/04/2024") = some ⟨2024, 3, 4, 0, 0, 0, 0⟩ ∧
    SetDateField (GoAny.str (utf8 "03/04/2024")) = ⟨⟨2024, 4, 3, 0, 0, 0, 0⟩, 0, true⟩ := by
  refine ⟨rfl, ?_, ?_, by decide, by decide, by decide⟩
  · intro hn
    have := (NotNull_eq_false_iff s).mpr hn
    simp [SetDateField, stringToPgDate, this]
  · intro hn
    have hnn := (NotNull_eq_true_iff s).mpr hn
    have hres : SetDateField (GoAny.str s) = stringToPgDateLoop dateFormats s := by
      simp [SetDateField, stringToPgDate, hnn]
    rw [hres]
    refine ⟨stringToPgDateLoop_eq dateFormats s, ?_, stringToPgDateLoop_none, ?_⟩
    · intro pre layout post t hd hpre ht
      rw [hd]
      exact stringToPgDateLoop_first hpre ht
    · intro t t2 ht _
      have hiso := ParseLayout_ISODate_of_DMY ht
      have hd : dateFormats = [time.layoutISODate] ++ time.layoutDMY ::
          [time.layoutDMYClock, time.layoutMDY, time.layoutISOClock, time.layoutYMDSlash] := rfl
      rw [hd]
      exact stringToPgDateLoop_first (by simpa using hiso) ht

/-! ## The claim about the numeric setter -/

/-- C17, at the failing input: for every `int`, `int32` or `int64` value
`SetNumericField` returns a `Valid` numeric with `Int × 10^Exp` equal to the
value, but for the `float64` (or `float32`) `2.0` it returns `Int = 2`,
`Exp = 1`, which represents 20, not 2; the exponent is the binary exponent of
the float minus the length of its decimal text. -/
theorem C17_whole_float_exponent (v : Int) :
    SetNumericField (NumericArg.int v) = ⟨some v, 0, false, 0, true⟩ ∧
    SetNumericField (NumericArg.int32 v) = ⟨some v, 0, false, 0, true⟩ ∧
    SetNumericField (NumericArg.int64 v) = ⟨some v, 0, false, 0, true⟩ ∧
    numericValue (SetNumericField (NumericArg.int v)) = some (v : ℚ) ∧
    SetNumericField (NumericArg.float64 2) = ⟨some 2, 1, false, 0, true⟩ ∧
    SetNumericField (NumericArg.float32 2) = ⟨some 2, 1, false, 0, true⟩ ∧
    numericValue (SetNumericField (NumericArg.float64 2)) = some 20 ∧
    numericValue (SetNumericField (NumericArg.float64 2)) ≠ some 2 ∧
    SetNumericField (NumericArg.float64 10) = ⟨some 10, 2, false, 0, true⟩ := by
  have h2 : SetNumericField (NumericArg.float64 2) = ⟨some 2, 1, false, 0, true⟩ := by decide
  have hv : numericValue (SetNumericField (NumericArg.float64 2)) = some 20 := by
    rw [h2]
    simp only [numericValue, Option.map_some', Option.some.injEq]
    norm_num
  refine ⟨rfl, rfl, rfl, ?_, h2, by decide, hv, ?_, by decide⟩
  · simp [numericValue, SetNumericField]
  · rw [hv]
    norm_num

/-! ## Lemmas: the array literal of plain items -/

namespace strings

theorem trimLeftSpace_of_head {a : Nat} (s : GoString) (h1 : asciiSpace a = false)
    (h2 : a < 128) : trimLeftSpace (a :: s) = a :: s := by
  have h3 : ∀ b, space2 a b = false := fun b => by
    simp only [space2, Bool.and_eq_false_iff, decide_eq_false_iff_not]
    left
    omega
  have h4 : ∀ b c, space3 a b c = false := fun b c => by
    have e1 : a ≠ 0xE1 := by omega
    have e2 : a ≠ 0xE2 := by omega
    have e3 : a ≠ 0xE3 := by omega
    simp [space3, e1, e2, e3]
  rw [trimLeftSpace_cons, h1]
  rcases s with _ | ⟨b, _ | ⟨c, s⟩⟩ <;> simp [h3, h4]

theorem trimLeftSpaceRev_of_head {a : Nat} (s : GoString) (h1 : asciiSpace a = false)
    (h2 : a < 128) : trimLeftSpaceRev (a :: s) = a :: s := by
  have h3 : ∀ b, space2 b a = false := fun b => by
    have e1 : a ≠ 0x85 := by omega
    have e2 : a ≠ 0xA0 := by omega
    simp [space2, e1, e2]
  have h4 : ∀ b c, space3 c b a = false := fun b c => by
    have e1 : a ≠ 0x80 := by omega
    have e2 : ¬ (0x80 ≤ a) := by omega
    have e3 : a ≠ 0xA8 := by omega
    have e4 : a ≠ 0xA9 := by omega
    have e5 : a ≠ 0xAF := by omega
    have e6 : a ≠ 0x9F := by omega
    simp [space3, e1, e2, e3, e4, e5, e6]
  rw [trimLeftSpaceRev_cons, h1]
  rcases s with _ | ⟨b, _ | ⟨c, s⟩⟩ <;> simp [h3, h4]

/-- A string that starts and ends with an ASCII byte other than white space is
left as it is by `strings.TrimSpace`. -/
theorem TrimSpace_of_ends {s : GoString} {a z : Nat} (ha : s.head? = some a)
    (hz : s.getLast? = some z) (ha1 : asciiSpace a = false) (ha2 : a < 128)
    (hz1 : asciiSpace z = false) (hz2 : z < 128) : TrimSpace s = s := by
  rcases s with _ | ⟨a2, s2⟩
  · simp at ha
  · simp only [List.head?_cons, Option.some.injEq] at ha
    subst ha
    unfold TrimSpace
    rw [trimLeftSpace_of_head s2 ha1 ha2]
    have hr : ∃ r, (a2 :: s2).reverse = z :: r := by
      rw [List.getLast?_eq_head?_reverse] at hz
      rcases hrev : (a2 :: s2).reverse with _ | ⟨y, r⟩
      · rw [hrev] at hz
        simp at hz
      · rw [hrev] at hz
        simp only [List.head?_cons, Option.some.injEq] at hz
        exact ⟨r, by rw [hz]⟩
    obtain ⟨r, hr⟩ := hr
    rw [hr, trimLeftSpaceRev_of_head r hz1 hz2, ← hr, List.reverse_reverse]

end strings

theorem PlainItem.cons_form {item : GoString} (h : PlainItem item) :
    ∃ a t, item = a :: t ∧ 32 < a ∧ a < 127 ∧ a ≠ 123 ∧ a ≠ 125 ∧ a ≠ 44 := by
  obtain ⟨hne, hall, hhead, _⟩ := h
  rcases item with _ | ⟨a, t⟩
  · exact absurd rfl hne
  · have h1 := hall a (by simp)
    have h2 := hhead a rfl
    exact ⟨a, t, rfl, by omega, h1.2.1, h2.2.1, h2.2.2, h1.2.2⟩

theorem PlainItem.snoc_form {item : GoString} (h : PlainItem item) :
    ∃ u z, item = u ++ [z] ∧ 32 < z ∧ z < 127 ∧ z ≠ 123 ∧ z ≠ 125 ∧ z ≠ 44 := by
  obtain ⟨hne, hall, _, hlast⟩ := h
  have hz : item.getLast? = some (item.getLast hne) := List.getLast?_eq_getLast _ hne
  have h1 := hall _ (List.getLast_mem hne)
  have h2 := hlast _ hz
  exact ⟨item.dropLast, item.getLast hne, (List.dropLast_append_getLast hne).symm, by omega,
    h1.2.1, h2.2.1, h2.2.2, h1.2.2⟩

theorem PlainItem.not_mem {item : GoString} (h : PlainItem item) {x : Nat}
    (hx : x < 32 ∨ 127 ≤ x ∨ x = 44) : x ∉ item := by
  intro hm
  have := h.2.1 x hm
  omega

theorem PlainItem.TrimSpace_eq {item : GoString} (h : PlainItem item) :
    strings.TrimSpace item = item := by
  obtain ⟨a, t, e1, ha⟩ := h.cons_form
  obtain ⟨u, z, e2, hz⟩ := h.snoc_form
  have hsa : strings.asciiSpace a = false := by
    simp only [strings.asciiSpace, Bool.or_eq_false_iff, decide_eq_false_iff_not]
    omega
  have hsz : strings.asciiSpace z = false := by
    simp only [strings.asciiSpace, Bool.or_eq_false_iff, decide_eq_false_iff_not]
    omega
  exact strings.TrimSpace_of_ends (a := a) (z := z) (by rw [e1]; rfl) (by rw [e2]; simp) hsa
    (by omega) hsz (by omega)

theorem joinComma_cons_form {items : List GoString} (hne : items ≠ [])
    (h : ∀ it ∈ items, PlainItem it) :
    ∃ a t, joinComma items = a :: t ∧ 32 < a ∧ a < 127 ∧ a ≠ 123 ∧ a ≠ 125 := by
  rcases items with _ | ⟨x, _ | ⟨y, r⟩⟩
  · exact absurd rfl hne
  · obtain ⟨a, t, e, h1, h2, h3, h4, _⟩ := (h x (by simp)).cons_form
    exact ⟨a, t, by rw [joinComma, e], h1, h2, h3, h4⟩
  · obtain ⟨a, t, e, h1, h2, h3, h4, _⟩ := (h x (by simp)).cons_form
    exact ⟨a, t ++ 44 :: joinComma (y :: r), by rw [joinComma, e]; rfl, h1, h2, h3, h4⟩

theorem joinComma_snoc_form {items : List GoString} (hne : items ≠ [])
    (h : ∀ it ∈ items, PlainItem it) :
    ∃ u z, joinComma items = u ++ [z] ∧ 32 < z ∧ z < 127 ∧ z ≠ 123 ∧ z ≠ 125 := by
  induction items with
  | nil => exact absurd rfl hne
  | cons x r ih =>
    rcases r with _ | ⟨y, r⟩
    · obtain ⟨u, z, e, h1, h2, h3, h4, _⟩ := (h x (by simp)).snoc_form
      exact ⟨u, z, by rw [joinComma, e], h1, h2, h3, h4⟩
    · obtain ⟨u, z, e, hz⟩ := ih (by simp) (fun it hit => h it (List.mem_cons_of_mem _ hit))
      exact ⟨x ++ 44 :: u, z, by rw [joinComma, e]; simp, hz⟩

theorem Split_joinComma {items : List GoString} (hne : items ≠ [])
    (h : ∀ it ∈ items, PlainItem it) : strings.Split (joinComma items) 44 = items := by
  induction items with
  | nil => exact absurd rfl hne
  | cons x r ih =>
    have hx : 44 ∉ x := (h x (by simp)).not_mem (by omega)
    rcases r with _ | ⟨y, r⟩
    · rw [joinComma, strings.Split_of_not_mem hx]
    · rw [joinComma, strings.Split_append hx,
        ih (by simp) (fun it hit => h it (List.mem_cons_of_mem _ hit))]

theorem Trim_arrayLiteral {items : List GoString} (hne : items ≠ [])
    (h : ∀ it ∈ items, PlainItem it) :
    strings.Trim (arrayLiteral items) (utf8 "\x7b\x7d") = joinComma items := by
  obtain ⟨a, t, e1, _, _, ha1, ha2⟩ := joinComma_cons_form hne h
  obtain ⟨u, z, e2, _, _, hz1, hz2⟩ := joinComma_snoc_form hne h
  have hc : utf8 "\x7b\x7d" = [123, 125] := by decide
  unfold strings.Trim arrayLiteral
  rw [hc]
  have s1 : ((123 :: (joinComma items ++ [125])).dropWhile fun c => [123, 125].contains c) =
      joinComma items ++ [125] := by
    rw [e1]
    simp [List.dropWhile, ha1, ha2]
  rw [s1, e2]
  simp [List.dropWhile, hz1, hz2]

theorem writeItems_plain {items : List GoString} (h : ∀ it ∈ items, PlainItem it) :
    ∀ i n, items ≠ [] → i + items.length = n →
      strconvx.writeItems n i items = some (joinQuoted items) := by
  induction items with
  | nil => intro i n hne; exact absurd rfl hne
  | cons x r ih =>
    intro i n _ hn
    have hx := h x (by simp)
    have ht := hx.TrimSpace_eq
    have hne : x ≠ utf8 "" := by simpa using hx.1
    have hany : (x.any fun c => decide (c ≥ 128)) = false := by
      rw [List.any_eq_false]
      intro c hc
      have := hx.2.1 c hc
      simp
      omega
    rcases r with _ | ⟨y, r⟩
    · simp only [List.length_cons, List.length_nil] at hn
      simp only [strconvx.writeItems, ht, hne, hany, if_false, Bool.false_eq_true]
      rw [if_neg (by omega)]
      simp [joinQuoted]
    · simp only [List.length_cons] at hn
      have ih2 := ih (fun it hit => h it (List.mem_cons_of_mem _ hit)) (i + 1) n (by simp)
        (by simp only [List.length_cons]; omega)
      rw [strconvx.writeItems]
      simp only [ht, hne, hany, if_false, Bool.false_eq_true, ih2]
      rw [if_pos (by omega)]
      have hcomma : utf8 "," = [44] := by decide
      simp [joinQuoted, hcomma]

namespace json

theorem scan_quoted_bytes (item : GoString) (h : ∀ c ∈ item, 32 ≤ c ∧ c < 127) :
    ∀ (cur : GoString) (out : List GoString) (rest : GoString),
      scan State.inString cur out (item.flatMap strconv.appendEscapedASCII ++ 34 :: rest) =
        scan State.afterElement [] (out ++ [cur ++ item]) rest := by
  induction item with
  | nil =>
    intro cur out rest
    simp [scan]
  | cons c item ih =>
    intro cur out rest
    have hc := h c (by simp)
    have ih2 := ih (fun d hd => h d (List.mem_cons_of_mem _ hd))
    by_cases hq : c = 34 ∨ c = 92
    · have e : strconv.appendEscapedASCII c = [92, c] := by
        simp [strconv.appendEscapedASCII, hq]
      rw [List.flatMap_cons, e]
      simp only [List.cons_append, List.nil_append, List.append_assoc]
      rw [scan, if_neg (by decide), if_pos rfl, scan, if_pos (by omega), ih2]
      simp
    · have e : strconv.appendEscapedASCII c = [c] := by
        simp only [strconv.appendEscapedASCII, if_neg hq]
        rw [if_pos (by omega)]
      rw [List.flatMap_cons, e]
      simp only [List.cons_append, List.nil_append, List.append_assoc]
      rw [scan, if_neg (by omega), if_neg (by omega), if_neg (by omega), if_neg (by omega), ih2]
      simp

theorem scan_joinQuoted {items : List GoString}
    (h : ∀ it ∈ items, ∀ c ∈ it, 32 ≤ c ∧ c < 127) :
    ∀ (st : State) (cur : GoString) (out : List GoString), items ≠ [] →
      (st = State.afterOpen ∨ st = State.afterComma) →
      scan st cur out (joinQuoted items ++ [93]) = Decoded.ok (out ++ items) := by
  induction items with
  | nil => intro st cur out hne; exact absurd rfl hne
  | cons x r ih =>
    intro st cur out _ hst
    have hx := h x (by simp)
    have hopen : ∀ rest, scan st cur out (34 :: rest) = scan State.inString [] out rest := by
      intro rest
      rcases hst with rfl | rfl
      · rw [scan, if_neg (by decide), if_neg (by decide), if_pos rfl]
      · rw [scan, if_neg (by decide), if_pos rfl]
    rcases r with _ | ⟨y, r⟩
    · simp only [joinQuoted, strconv.Quote, List.cons_append, List.append_assoc]
      rw [hopen, scan_quoted_bytes x hx]
      simp [scan, isSpace]
    · have ih2 := ih (fun it hit => h it (List.mem_cons_of_mem _ hit)) State.afterComma []
        (out ++ [x]) (by simp) (Or.inr rfl)
      simp only [joinQuoted, strconv.Quote, List.cons_append, List.append_assoc]
      rw [hopen, scan_quoted_bytes x hx]
      simp only [List.nil_append]
      rw [scan, if_neg (by decide), if_pos rfl]
      simp only [joinQuoted, strconv.Quote, List.cons_append, List.append_assoc] at ih2
      rw [ih2]
      simp

end json

/-- The array literal of plain items comes back as those items. -/
theorem ConvertToSlice_plain_items {items : List GoString} (hne : items ≠ [])
    (h : ∀ it ∈ items, PlainItem it) :
    strconvx.ConvertToSlice (arrayLiteral items) = json.Decoded.ok items := by
  obtain ⟨a, t, e1, _⟩ := joinComma_cons_form hne h
  have hlast : (arrayLiteral items).getLast? = some 125 := by
    exact List.getLast?_concat (123 :: joinComma items)
  have hts : strings.TrimSpace (arrayLiteral items) = arrayLiteral items :=
    strings.TrimSpace_of_ends (a := 123) (z := 125) rfl hlast (by decide) (by decide)
      (by decide) (by decide)
  have hn1 : arrayLiteral items ≠ utf8 "" := by simp [arrayLiteral]
  have hn2 : arrayLiteral items ≠ utf8 "\x7b\x7d" := by
    have : utf8 "\x7b\x7d" = [123, 125] := by decide
    rw [this, arrayLiteral, e1]
    simp
  have hn3 : arrayLiteral items ≠ utf8 "null" := by simp [arrayLiteral]
  have hp : strings.HasPrefix (arrayLiteral items) 123 = true := by
    simp [strings.HasPrefix, arrayLiteral]
  have hs : strings.HasSuffix (arrayLiteral items) 125 = true := by
    simp [strings.HasSuffix, hlast]
  have hw := writeItems_plain h 0 items.length hne (by simp)
  have hu : json.Unmarshal (utf8 "[" ++ joinQuoted items ++ utf8 "]") = json.Decoded.ok items := by
    have hb1 : utf8 "[" = [91] := by decide
    have hb2 : utf8 "]" = [93] := by decide
    rw [hb1, hb2]
    unfold json.Unmarshal
    simp only [List.singleton_append, List.cons_append]
    rw [json.scan, if_neg (by decide), if_pos rfl]
    have hbytes : ∀ it ∈ items, ∀ c ∈ it, 32 ≤ c ∧ c < 127 :=
      fun it hit c hc => ⟨((h it hit).2.1 c hc).1, ((h it hit).2.1 c hc).2.1⟩
    have := json.scan_joinQuoted hbytes json.State.afterOpen [] [] hne (Or.inl rfl)
    simpa using this
  unfold strconvx.ConvertToSlice
  simp only [hts, hn1, hn2, hn3, or_self, if_false, hp, hs, and_self, if_true,
    Trim_arrayLiteral hne h, Split_joinComma hne h, hw, hu]

/-! ## The claim about the array literal parser -/

/-- C18, at the failing input: the item that is the single byte 0x01 is not
empty, has no comma and is neither white space nor a brace, yet
`ConvertToSlice[string]` on its array literal returns the empty slice:
`strconv.Quote` writes the byte as `\x01`, an escape of Go and not of JSON, and
`json.Unmarshal` rejects the array. For every non-empty list of items of plain
text (printable ASCII) the literal does come back as the list of items. -/
theorem C18_control_byte_item_lost :
    ([1] : GoString) ≠ [] ∧ (44 : Nat) ∉ ([1] : GoString) ∧
    strings.TrimSpace [1] = [1] ∧ strings.Trim [1] (utf8 "\x7b\x7d") = [1] ∧
    strconv.Quote [1] = utf8 "\"\\x01\"" ∧
    json.Unmarshal (utf8 "[\"\\x01\"]") = json.Decoded.invalid ∧
    strconvx.ConvertToSlice (arrayLiteral [[1]]) = json.Decoded.ok [] ∧
    strconvx.ConvertToSlice (arrayLiteral [[1]]) ≠ json.Decoded.ok [[1]] ∧
    strconvx.ConvertToSlice (utf8 "\x7ba,b\x7d") = json.Decoded.ok [utf8 "a", utf8 "b"] ∧
    (∀ items : List GoString, items ≠ [] → (∀ it ∈ items, PlainItem it) →
      strconvx.ConvertToSlice (arrayLiteral items) = json.Decoded.ok items) :=
  ⟨by decide, by decide, by decide, by decide, by decide, by decide, by decide, by decide,
    by decide, fun _ hne h => ConvertToSlice_plain_items hne h⟩

/-- C21, at the failing inputs: the two string-to-bool converters do not agree.
`PgBool("false")` is `Valid` with `Bool=false`, while `SetBoolField("false")`
is `Valid` with `Bool=true`, and likewise at `"f"`, `"F"` and `"no"`. A string
is not among the types the doc comment of `SetBoolField` names as converted,
yet the `case string` branch answers `Valid=true` with `Bool=true` for every
string but `"0"`: the two functions return the same `Bool` only at `"0"`,
`"1"`, `"true"`, `"t"` and `"T"`, and at every other string for which
`PgBool(s)` is `Valid` they differ (`PgBool` false, `SetBoolField` true). -/
theorem C21_bool_converters_disagree (s : GoString) :
    PgBool (utf8 "false") = ⟨false, true⟩ ∧
    SetBoolField (BoolArg.string (utf8 "false")) = ⟨true, true⟩ ∧
    PgBool (utf8 "f") = ⟨false, true⟩ ∧
    SetBoolField (BoolArg.string (utf8 "f")) = ⟨true, true⟩ ∧
    PgBool (utf8 "F") = ⟨false, true⟩ ∧
    SetBoolField (BoolArg.string (utf8 "F")) = ⟨true, true⟩ ∧
    PgBool (utf8 "no") = ⟨false, true⟩ ∧
    SetBoolField (BoolArg.string (utf8 "no")) = ⟨true, true⟩ ∧
    BoolArg.documented (BoolArg.string s) = false ∧
    (SetBoolField (BoolArg.string s)).Valid = true ∧
    ((SetBoolField (BoolArg.string s)).Bool = true ↔ s ≠ utf8 "0") ∧
    ((SetBoolField (BoolArg.string s)).Bool = (PgBool s).Bool ↔
      (s = utf8 "0" ∨ s = utf8 "1" ∨ s = utf8 "true" ∨ s = utf8 "t" ∨ s = utf8 "T")) ∧
    ((PgBool s).Valid = true →
      ¬ (s = utf8 "0" ∨ s = utf8 "1" ∨ s = utf8 "true" ∨ s = utf8 "t" ∨ s = utf8 "T") →
      (PgBool s).Bool = false ∧ (SetBoolField (BoolArg.string s)).Bool = true) := by
  have hset : (SetBoolField (BoolArg.string s)).Bool = decide (s ≠ utf8 "0") := rfl
  refine ⟨by decide, by decide, by decide, by decide, by decide, by decide, by decide,
    by decide, rfl, rfl, by rw [hset]; simp, ?_, ?_⟩
  · by_cases h1 : s = utf8 "1" ∨ s = utf8 "true" ∨ s = utf8 "t" ∨ s = utf8 "T"
    · have hp : PgBool s = ⟨true, true⟩ := by
        unfold PgBool
        rw [if_pos h1]
      have h0 : s ≠ utf8 "0" := by
        rcases h1 with h | h | h | h <;> subst h <;> decide
      rw [hset, hp]
      simp only [h0, ne_eq, not_false_eq_true, decide_True, false_or, true_iff]
      exact h1
    · have hb : (PgBool s).Bool = false := by
        unfold PgBool
        rw [if_neg h1]
        split_ifs <;> rfl
      rw [hset, hb]
      by_cases h0 : s = utf8 "0"
      · simp [h0]
      · have hne : ¬ (s = utf8 "0" ∨ s = utf8 "1" ∨ s = utf8 "true" ∨ s = utf8 "t" ∨
            s = utf8 "T") := by
          rintro (h | h)
          · exact h0 h
          · exact h1 h
        have hd : decide (s ≠ utf8 "0") = true := decide_eq_true h0
        rw [hd]
        exact ⟨fun h => absurd h (by decide), fun h => absurd h hne⟩
  · intro _ hne
    have h0 : s ≠ utf8 "0" := fun h => hne (Or.inl h)
    have h1 : ¬ (s = utf8 "1" ∨ s = utf8 "true" ∨ s = utf8 "t" ∨ s = utf8 "T") :=
      fun h => hne (Or.inr h)
    refine ⟨?_, by rw [hset]; exact decide_eq_true h0⟩
    unfold PgBool
    rw [if_neg h1]
    split_ifs <;> rfl

/-- A chain of three fallible steps that yields `v` hands `v` to whatever
follows it. -/
theorem Option.bind_chain_some {α β γ δ ε : Type} (x : Option α) (y : Option β)
    (z : α → Option γ) (g : α → β → γ → δ) (k : δ → Option ε) (v : δ)
    (h : (x.bind fun a => y.bind fun b => (z a).bind fun c => some (g a b c)) = some v) :
    (x.bind fun a => y.bind fun b => (z a).bind fun c => k (g a b c)) = k v := by
  cases x with
  | none => simp at h
  | some a =>
    cases y with
    | none => simp at h
    | some b =>
      cases hz : z a with
      | none => simp [hz] at h
      | some c =>
        simp only [Option.some_bind, hz] at h ⊢
        rw [Option.some.inj h]

/-- The second copy in closed form: it always returns. -/
theorem stringToPgTimestamptz_closed (input : GoString) :
    stringToPgTimestamptz input = some
      (if funcvx.NotNull input = true then
        match strings.Split (datePart input) 45 with
        | [a, b, c] =>
          (match time.Parse (canonical a b c (timePart input)) with
           | some t => ⟨t, 0, true⟩
           | none => pgtype.Timestamptz.zero)
        | _ => pgtype.Timestamptz.zero
      else pgtype.Timestamptz.zero) := by
  obtain ⟨rest, hp⟩ := parts_eq input
  unfold stringToPgTimestamptz
  by_cases hn : funcvx.NotNull input = true
  · simp only [hn, Bool.not_true, Bool.false_eq_true, if_false, if_true, hp]
    simp only [List.getElem?_cons_zero, List.getElem?_cons_succ, Option.bind_eq_bind,
      Option.some_bind, Option.pure_def, Option.bind_some]
    rcases hs : strings.Split (datePart input) 45 with _ | ⟨a, _ | ⟨b, _ | ⟨c, _ | ⟨d, l⟩⟩⟩⟩
    · simp
    · simp
    · simp
    · have e0 : (if a.length = 1 then [a, b, c].set 0 (utf8 "0" ++ a) else [a, b, c]) =
          [zeroPadded a, b, c] := by
        unfold zeroPadded
        split_ifs <;> rfl
      have e1 : (if b.length = 1 then [zeroPadded a, b, c].set 1 (utf8 "0" ++ b)
          else [zeroPadded a, b, c]) = [zeroPadded a, zeroPadded b, c] := by
        unfold zeroPadded
        split_ifs <;> rfl
      have e2 : (if c.length = 2 then [zeroPadded a, zeroPadded b, c].set 2 (utf8 "20" ++ c)
          else [zeroPadded a, zeroPadded b, c]) =
          [zeroPadded a, zeroPadded b, yearExpanded c] := by
        unfold yearExpanded
        split_ifs <;> rfl
      simp only [List.length_cons, List.length_nil, ne_eq, not_true_eq_false, if_false,
        List.getElem?_cons_zero, List.getElem?_cons_succ, Option.some_bind, e0, e1, e2]
      have hk : ∀ f : GoString,
          (match time.Parse (yearExpanded c ++ utf8 "-" ++ zeroPadded b ++ utf8 "-" ++
              zeroPadded a ++ utf8 " " ++ f) with
            | none => some pgtype.Timestamptz.zero
            | some t => some (⟨t, 0, true⟩ : pgtype.Timestamptz)) =
          some (match time.Parse (yearExpanded c ++ utf8 "-" ++ zeroPadded b ++ utf8 "-" ++
              zeroPadded a ++ utf8 " " ++ f) with
            | some t => ⟨t, 0, true⟩
            | none => pgtype.Timestamptz.zero) := by
        intro f
        cases time.Parse (yearExpanded c ++ utf8 "-" ++ zeroPadded b ++ utf8 "-" ++
          zeroPadded a ++ utf8 " " ++ f) <;> rfl
      by_cases h46 : 46 ∈ timePart input
      · have hc : strings.Contains (timePart input) 46 = true := by
          simpa [strings.Contains] using h46
        have hfp := fractionPart_eq (timePart input)
        unfold fractionPart at hfp
        simp only [hc, Bool.not_true, Bool.false_eq_true, if_false, Option.bind_eq_bind,
          Option.pure_def] at hfp
        simp only [hc, Bool.not_true, Bool.false_eq_true, if_false]
        exact (Option.bind_chain_some _ _ _ (fun _ tp0 cut => tp0 ++ utf8 "." ++ cut)
          (fun f => match time.Parse (yearExpanded c ++ utf8 "-" ++ zeroPadded b ++ utf8 "-" ++
              zeroPadded a ++ utf8 " " ++ f) with
            | none => some pgtype.Timestamptz.zero
            | some t => some (⟨t, 0, true⟩ : pgtype.Timestamptz)) _ hfp).trans (hk _)
      · have hc : strings.Contains (timePart input) 46 = false := by
          simpa [strings.Contains] using h46
        simp only [hc, Bool.not_false, if_true]
        rw [hk]
        simp only [canonical, sixFraction, h46, if_false]
    · simp
  · simp only [hn, Bool.not_false, if_true]
    rfl

/-- The second copy of the normaliser computes what the first computes, field
by field, panics included. -/
theorem stringToPgTimestamptz_eq (input : GoString) :
    stringToPgTimestamptz input =
      (stringToPgTimestamp input).map pgtype.Timestamp.asTimestamptz := by
  rw [stringToPgTimestamptz_closed, stringToPgTimestamp_eq, Option.map_some']
  congr 1
  by_cases hn : funcvx.NotNull input = true
  · simp only [hn, if_true]
    rcases strings.Split (datePart input) 45 with _ | ⟨a, _ | ⟨b, _ | ⟨c, _ | ⟨d, l⟩⟩⟩⟩
    · rfl
    · rfl
    · rfl
    · simp only
      cases time.Parse (canonical a b c (timePart input)) <;> rfl
    · rfl
  · simp only [hn]
    rfl

/-- The second copy at two inputs: a short date read day-month-year, and a
year-first date, which it rejects as the first copy does. -/
theorem stringToPgTimestamptz_examples :
    stringToPgTimestamptz (utf8 "2/1/24") = some ⟨⟨2024, 1, 2, 0, 0, 0, 0⟩, 0, true⟩ ∧
    stringToPgTimestamptz (utf8 "02-01-2024 15:04:05.1") =
      some ⟨⟨2024, 1, 2, 15, 4, 5, 100000000⟩, 0, true⟩ ∧
    stringToPgTimestamptz (utf8 "2024-01-02") = some pgtype.Timestamptz.zero ∧
    stringToPgTimestamptz (utf8 "null") = some pgtype.Timestamptz.zero := by
  decide

/-- C22: the two copies of the normaliser are equivalent: for every input
string, `stringToPgTimestamptz` and `stringToPgTimestamp` both return, and they
return the same `Valid` flag and the same `Time` (and the same
`InfinityModifier`). -/
theorem C22_two_copies_equivalent (input : GoString) :
    ∃ tz ts, stringToPgTimestamptz input = some tz ∧ stringToPgTimestamp input = some ts ∧
      tz.Valid = ts.Valid ∧ tz.Time = ts.Time ∧ tz.InfinityModifier = ts.InfinityModifier := by
  obtain ⟨ts, hts⟩ : ∃ ts, stringToPgTimestamp input = some ts :=
    ⟨_, stringToPgTimestamp_eq input⟩
  refine ⟨ts.asTimestamptz, ts, ?_, hts, rfl, rfl, rfl⟩
  rw [stringToPgTimestamptz_eq, hts]
  rfl
